import Mathlib

/-!
# Expense tracker (`expense_tracker.cpp`): persistence and ledger model

A shallow embedding of the record model, the calendar value, the flat-file
persistence layer (`StorageManager`) and the ledger service (`ExpenseManager`).

Conventions of the embedding

* `std::string` is a list of characters (`Text`); a file is its content, and
  `std::getline` is iterated by `splitLines`.
* `int` is a 32-bit two's complement integer carried in `Int`; the only
  arithmetic the program performs on it (`nextId++`, `maxLoadedId + 1`) goes
  through `wrapInt`.  Signed overflow is undefined behaviour in C++; the model
  takes the wrap-around that the usual targets produce.
* `double` is IEEE binary64, carried exactly: `Double.finite neg m e` is the
  value `(-1)^neg * m * 2^e`, kept in lowest terms (`m` odd, or zero).
* `enum class Category` is its underlying `int`; `static_cast` between the two
  is the identity on that integer.
* Library calls whose algorithm the source does not fix (`std::sort`) are
  parameters constrained by the contract the C++ standard gives them
  (`IsStdSort`).  The implementation of libstdc++ is transcribed as `gnuSort`
  and used to evaluate examples; it is not proved here to meet the contract.
* `std::stoi`, `std::stod` and `os << x` follow the C library (`strtol`,
  `strtod`, `printf("%g")`), range errors as glibc reports them.
* Console output and the countdown thread of `deleteExpense`, which only prints,
  are not modelled; the character read from the console is an argument.
-/

namespace ExpenseTracker

/-! ## Text and integers -/

/-- A `std::string`. -/
abbrev Text := List Char

/-- Smallest `int`. -/
def INT_MIN : Int := -2147483648

/-- Largest `int`. -/
def INT_MAX : Int := 2147483647

/-- Reduction of an integer to the 32-bit two's complement range. -/
def wrapInt (x : Int) : Int := (x + 2147483648) % 4294967296 - 2147483648

/-- The exceptions `std::stoi` and `std::stod` throw. -/
inductive StoError where
  | invalid_argument
  | out_of_range
  deriving DecidableEq, Repr

/-- Result of a library call that either returns or throws. -/
inductive Throws (α : Type) where
  | ok (value : α)
  | error (e : StoError)
  deriving DecidableEq, Repr

/-- The call threw. -/
def Throws.failed {α : Type} : Throws α → Bool
  | .ok _ => false
  | .error _ => true

/-- C `isspace` in the "C" locale. -/
def isspace (c : Char) : Bool :=
  c.toNat = 32 || (9 ≤ c.toNat && c.toNat ≤ 13)

/-- C `isdigit`. -/
def isdigit (c : Char) : Bool :=
  48 ≤ c.toNat && c.toNat ≤ 57

/-- Value of a string of decimal digits. -/
def digitsValue (ds : Text) : Nat :=
  ds.foldl (fun acc c => 10 * acc + (c.toNat - 48)) 0

/-- Strips an optional sign; the flag tells whether it was a minus. -/
def takeSign : Text → Bool × Text
  | '-' :: t => (true, t)
  | '+' :: t => (false, t)
  | t => (false, t)

/-- Model of `std::stoi(str)` (base 10): leading white space is skipped, an optional sign
and the longest run of digits are converted, whatever follows is ignored.
No digit: `invalid_argument`.  Value outside `int`: `out_of_range`. -/
def stoi (str : Text) : Throws Int :=
  let s := takeSign (str.dropWhile isspace)
  let ds := s.2.takeWhile isdigit
  if ds.isEmpty then .error .invalid_argument
  else
    let v : Int := if s.1 then -(digitsValue ds : Int) else (digitsValue ds : Int)
    if v < INT_MIN ∨ INT_MAX < v then .error .out_of_range else .ok v

/-- Text written by `os << n` for an `int`. -/
def showInt (n : Int) : Text :=
  if n < 0 then '-' :: Nat.toDigits 10 n.natAbs else Nat.toDigits 10 n.natAbs

/-! ## `double` -/

/-- An IEEE binary64 value.  `finite neg m e` denotes `(-1)^neg * m * 2^e`, with
`m` odd, or `m = 0` and `e = 0`; a genuine binary64 value moreover has
`m < 2^53` and `-1074 ≤ e ≤ 971`.  A NaN keeps its sign bit, which the text
output shows; its payload is not modelled. -/
inductive Double where
  | finite (neg : Bool) (m : Nat) (e : Int)
  | inf (neg : Bool)
  | nan (neg : Bool)
  deriving DecidableEq, Repr

namespace Double

/-- Number of binary digits of `n`, by halving at most `fuel` times. -/
def bitLenAux : Nat → Nat → Nat
  | 0, _ => 0
  | fuel + 1, n => if n = 0 then 0 else bitLenAux fuel (n / 2) + 1

/-- Number of binary digits of `n` (`0` for `0`). -/
def bitLen (n : Nat) : Nat := bitLenAux n n

/-- Removal of the factors two of `m`, each one raising the exponent. -/
def stripTwos : Nat → Nat → Int → Nat × Int
  | 0, m, e => (m, e)
  | fuel + 1, m, e => if m % 2 = 0 ∧ m ≠ 0 then stripTwos fuel (m / 2) (e + 1) else (m, e)

/-- The value `(-1)^neg * m * 2^e` in lowest terms. -/
def mk (neg : Bool) (m : Nat) (e : Int) : Double :=
  if m = 0 then .finite neg 0 0
  else .finite neg (stripTwos m m e).1 (stripTwos m m e).2

/-- Rounding of `n / d` to the nearest integer, ties to even. -/
def roundHalfEven (n d : Nat) : Nat :=
  if 2 * (n % d) < d then n / d
  else if d < 2 * (n % d) then n / d + 1
  else if (n / d) % 2 = 0 then n / d else n / d + 1

/-- Conversion of the non-negative rational `n / d` with the sign `neg`, as
`strtod` of glibc rounds a parsed number (`hex` for a hexadecimal constant): to
the nearest binary64 value, ties to even; overflow is a range error.  Below
`2^-1022` it follows `round_and_return` of glibc 2.36: the value is cut to its 53
leading binary digits `m`, with the next digit `h` and the flag `r` for any digit
after that.  The result is tiny unless `m`, `h`, `r` round up to `2^-1022`; it is
`m` moved to the exponent `-1074`, and it is a range error when it is tiny and
that move or `r` loses a digit.  The digit `h` itself is then seen only for a
decimal constant below `2^-1023`, where it counts like `r`. -/
def ofRatio (hex neg : Bool) (n d : Nat) : Throws Double :=
  if n = 0 then .ok (.finite neg 0 0)
  else
    let e0 : Int := (bitLen n : Int) - (bitLen d : Int)
    let ge : Bool :=
      if 0 ≤ e0 then decide (d * 2 ^ e0.toNat ≤ n) else decide (d ≤ n * 2 ^ (-e0).toNat)
    let ex : Int := if ge then e0 else e0 - 1
    if ex < -1022 then
      if ex < -1075 then .error .out_of_range
      else
        let m : Nat := n * 2 ^ (52 - ex).toNat / d
        let rem : Nat := n * 2 ^ (52 - ex).toNat % d
        let h : Bool := decide (d ≤ 2 * rem)
        let r : Bool := decide (rem ≠ 0 ∧ 2 * rem ≠ d)
        let shift : Nat := (-1022 - ex).toNat
        let lost : Bool := if hex = true ∨ shift = 1 then r else (h || r)
        if shift = 1 ∧ m = 2 ^ 53 - 1 ∧ h = true then .ok (mk neg 1 (-1022))
        else if m % 2 ^ shift = 0 ∧ lost = false then .ok (mk neg (m / 2 ^ shift) (-1074))
        else .error .out_of_range
    else
      let u : Int := ex - 52
      let k : Nat :=
        if 0 ≤ u then roundHalfEven n (d * 2 ^ u.toNat) else roundHalfEven (n * 2 ^ (-u).toNat) d
      if 1024 < (bitLen k : Int) + u then .error .out_of_range
      else .ok (mk neg k u)

/-- The binary64 value of a natural number below `2^53`. -/
def ofNat (n : Nat) : Double := mk false n 0

/-- The value is a NaN. -/
def isNaN : Double → Bool
  | .nan _ => true
  | _ => false

/-- Comparison of two signed magnitudes `a.1 * 2^a.2 < b.1 * 2^b.2`. -/
def scaledLt (a b : Int × Int) : Bool :=
  decide (a.1 * 2 ^ (a.2 - min a.2 b.2).toNat < b.1 * 2 ^ (b.2 - min a.2 b.2).toNat)

/-- Signed mantissa and exponent of a finite value. -/
def signed (neg : Bool) (m : Nat) (e : Int) : Int × Int :=
  (if neg then -(m : Int) else (m : Int), e)

/-- IEEE `operator<` on `double`: false as soon as an operand is a NaN. -/
def lt : Double → Double → Bool
  | .nan _, _ => false
  | _, .nan _ => false
  | .inf true, .inf true => false
  | .inf true, _ => true
  | _, .inf true => false
  | .inf false, _ => false
  | _, .inf false => true
  | .finite n₁ m₁ e₁, .finite n₂ m₂ e₂ => scaledLt (signed n₁ m₁ e₁) (signed n₂ m₂ e₂)

/-- IEEE `operator<=` on `double`: false as soon as an operand is a NaN. -/
def le (a b : Double) : Bool :=
  !a.isNaN && !b.isNaN && !lt b a

/-- Position of a value that is not a NaN on the extended number line: the class
(`-1` for `-inf`, `0` for finite, `1` for `+inf`) and the finite value. -/
def rank : Double → ℤ × ℚ
  | .nan _ => (0, 0)
  | .inf true => (-1, 0)
  | .inf false => (1, 0)
  | .finite neg m e => (0, ((signed neg m e).1 : ℚ) * (2 : ℚ) ^ e)

/-! ### Addition -/

/-- The value `0.0`. -/
def zero : Double := .finite false 0 0

/-- The binary64 value nearest to the positive number `n * 2^e` (ties to even), an
infinity when it is out of range; `e` is at least `-1074`. -/
def roundDyadic (neg : Bool) (n : Nat) (e : Int) : Double :=
  let u : Int := max ((bitLen n : Int) - 1 + e - 52) (-1074)
  if u ≤ e then
    if 1024 < (bitLen n : Int) + e then .inf neg else mk neg n e
  else
    if 1024 < (bitLen (roundHalfEven n (2 ^ (u - e).toNat)) : Int) + u then .inf neg
    else mk neg (roundHalfEven n (2 ^ (u - e).toNat)) u

/-- IEEE `operator+` on `double`, rounding to nearest, ties to even.  A NaN
operand is the result (of two, the left one: which one the `addsd` of x86-64
returns depends on the order the compiler gives the operands); the sum of two
opposite infinities is the default NaN of x86-64, with the sign bit set. -/
def add : Double → Double → Double
  | .nan a, _ => .nan a
  | _, .nan b => .nan b
  | .inf a, .inf b => if a = b then .inf a else .nan true
  | .inf a, .finite _ _ _ => .inf a
  | .finite _ _ _, .inf b => .inf b
  | .finite n₁ m₁ e₁, .finite n₂ m₂ e₂ =>
    if (signed n₁ m₁ e₁).1 * 2 ^ (e₁ - min e₁ e₂).toNat
        + (signed n₂ m₂ e₂).1 * 2 ^ (e₂ - min e₁ e₂).toNat = 0 then
      .finite (n₁ && n₂) 0 0
    else
      roundDyadic
        (decide ((signed n₁ m₁ e₁).1 * 2 ^ (e₁ - min e₁ e₂).toNat
          + (signed n₂ m₂ e₂).1 * 2 ^ (e₂ - min e₁ e₂).toNat < 0))
        ((signed n₁ m₁ e₁).1 * 2 ^ (e₁ - min e₁ e₂).toNat
          + (signed n₂ m₂ e₂).1 * 2 ^ (e₂ - min e₁ e₂).toNat).natAbs
        (min e₁ e₂)

/-- The value is neither an infinity nor a NaN. -/
def isFinite : Double → Bool
  | .finite _ _ _ => true
  | _ => false

/-- The rational number a finite value denotes (`0` for the others). -/
def toRat (d : Double) : ℚ := d.rank.2

/-! ### Text output: `os << d` with the stream defaults (`%g`, precision 6) -/

/-- Least `k` from the start value with `d ≤ n * 10^k`. -/
def negExp (n d : Nat) : Nat → Nat → Nat
  | 0, k => k
  | fuel + 1, k => if d ≤ n * 10 ^ k then k else negExp n d fuel (k + 1)

/-- Decimal exponent of `n / d`: the `x` with `10^x ≤ n / d < 10^(x+1)`. -/
def decExp (n d : Nat) : Int :=
  if d ≤ n then ((Nat.toDigits 10 (n / d)).length : Int) - 1
  else -(negExp n d d 1 : Int)

/-- Six significant decimal digits of `n / d` and the decimal exponent after
rounding. -/
def sig6 (n d : Nat) : Nat × Int :=
  let x := decExp n d
  let s := if x ≤ 5 then roundHalfEven (n * 10 ^ (5 - x).toNat) d
           else roundHalfEven n (d * 10 ^ (x - 5).toNat)
  if s = 1000000 then (100000, x + 1) else (s, x)

/-- Removal of trailing zero digits. -/
def stripZeros (ds : Text) : Text :=
  (ds.reverse.dropWhile (fun c => c = '0')).reverse

/-- Exponent field of the scientific style: at least two digits. -/
def expDigits (x : Int) : Text :=
  (if x < 0 then '-' else '+') ::
    (if x.natAbs < 10 then '0' :: Nat.toDigits 10 x.natAbs else Nat.toDigits 10 x.natAbs)

/-- Format `%g` with precision 6 of the positive rational `n / d`. -/
def formatG6 (n d : Nat) : Text :=
  let s := sig6 n d
  let ds := Nat.toDigits 10 s.1
  let x := s.2
  if -4 ≤ x ∧ x < 6 then
    if 0 ≤ x then
      let fp := stripZeros (ds.drop (x.toNat + 1))
      if fp.isEmpty then ds.take (x.toNat + 1) else ds.take (x.toNat + 1) ++ '.' :: fp
    else ['0', '.'] ++ List.replicate ((-x).toNat - 1) '0' ++ stripZeros ds
  else
    let fp := stripZeros (ds.drop 1)
    (if fp.isEmpty then ds.take 1 else ds.take 1 ++ '.' :: fp) ++ 'e' :: expDigits x

/-- Text written by `os << d` for a `double`, stream flags at their defaults. -/
def toText : Double → Text
  | .nan neg => (if neg then ['-'] else []) ++ ['n', 'a', 'n']
  | .inf neg => (if neg then ['-'] else []) ++ ['i', 'n', 'f']
  | .finite neg m e =>
    (if neg then ['-'] else []) ++
      (if m = 0 then ['0']
       else if 0 ≤ e then formatG6 (m * 2 ^ e.toNat) 1 else formatG6 m (2 ^ (-e).toNat))

end Double

/-- C `tolower` on the letters. -/
def tolower (c : Char) : Char :=
  if 65 ≤ c.toNat ∧ c.toNat ≤ 90 then Char.ofNat (c.toNat + 32) else c

/-- The text starts with the lower-case word, letter case ignored. -/
def startsWithCI : Text → Text → Bool
  | _, [] => true
  | [], _ :: _ => false
  | c :: s, w :: ws => tolower c = w && startsWithCI s ws

/-- C `isxdigit`. -/
def isxdigit (c : Char) : Bool :=
  isdigit c || (97 ≤ (tolower c).toNat && (tolower c).toNat ≤ 102)

/-- Value of a string of hexadecimal digits. -/
def hexValue (ds : Text) : Nat :=
  ds.foldl (fun acc c =>
    16 * acc + (if isdigit c then c.toNat - 48 else (tolower c).toNat - 87)) 0

/-- Digits of an optional fraction: what follows a leading point. -/
def fracPart (isd : Char → Bool) : Text → Text
  | '.' :: t => t.takeWhile isd
  | _ => []

/-- The text after an optional fraction. -/
def afterFrac (isd : Char → Bool) : Text → Text
  | '.' :: t => t.dropWhile isd
  | t => t

/-- Exponent part `marker [sign] digits` at the head of the text, `0` if there is
none (a marker without digits is not consumed). -/
def exponentPart (marker : Char) : Text → Int
  | [] => 0
  | c :: t =>
    if tolower c = marker then
      let ds := (takeSign t).2.takeWhile isdigit
      if ds.isEmpty then 0
      else if (takeSign t).1 then -(digitsValue ds : Int) else (digitsValue ds : Int)
    else 0

/-- The value `(-1)^neg * mant * base^p` through `Double.ofRatio`. -/
def scaleTo (hex neg : Bool) (mant base : Nat) (p : Int) : Throws Double :=
  if 0 ≤ p then Double.ofRatio hex neg (mant * base ^ p.toNat) 1
  else Double.ofRatio hex neg mant (base ^ (-p).toNat)

/-- Decimal floating constant `digits [. digits] [e [sign] digits]`. -/
def stodDecimal (neg : Bool) (body : Text) : Throws Double :=
  let ip := body.takeWhile isdigit
  let r := body.dropWhile isdigit
  let fp := fracPart isdigit r
  if ip.isEmpty && fp.isEmpty then .error .invalid_argument
  else
    scaleTo false neg (digitsValue (ip ++ fp)) 10
      (exponentPart 'e' (afterFrac isdigit r) - (fp.length : Int))

/-- Hexadecimal floating constant, the `0x` already removed. -/
def stodHex (neg : Bool) (body : Text) : Throws Double :=
  let ip := body.takeWhile isxdigit
  let r := body.dropWhile isxdigit
  let fp := fracPart isxdigit r
  scaleTo true neg (hexValue (ip ++ fp)) 2
    (exponentPart 'p' (afterFrac isxdigit r) - 4 * (fp.length : Int))

/-- Model of `std::stod(str)`: leading white space is skipped, then an optional sign and
the longest floating constant `strtod` accepts (`inf`, `nan`, hexadecimal or
decimal) are converted; whatever follows is ignored.  No conversion:
`invalid_argument`.  Range error reported by `strtod`: `out_of_range`. -/
def stod (str : Text) : Throws Double :=
  let s := takeSign (str.dropWhile isspace)
  if startsWithCI s.2 ['i', 'n', 'f'] then .ok (.inf s.1)
  else if startsWithCI s.2 ['n', 'a', 'n'] then .ok (.nan s.1)
  else
    match s.2 with
    | '0' :: x :: t =>
      if tolower x = 'x' ∧
          (!(t.takeWhile isxdigit).isEmpty || !(fracPart isxdigit t).isEmpty) then
        stodHex s.1 t
      else stodDecimal s.1 s.2
    | _ => stodDecimal s.1 s.2

/-! ## Record model -/

/-- Model of `enum class Category`, as its underlying `int`: `static_cast<Category>(n)` is
`⟨n⟩` and `static_cast<int>(c)` is `c.val`. -/
structure Category where
  val : Int
  deriving DecidableEq, Repr

namespace Category

/-- Enumerator `LEARNING_SUPPLIES`. -/
def LEARNING_SUPPLIES : Category := ⟨0⟩

/-- Enumerator `DAILY_NECESSITIES`. -/
def DAILY_NECESSITIES : Category := ⟨1⟩

/-- Enumerator `TRANSPORTATION`. -/
def TRANSPORTATION : Category := ⟨2⟩

/-- Enumerator `FOOD`. -/
def FOOD : Category := ⟨3⟩

/-- Enumerator `OTHER`. -/
def OTHER : Category := ⟨4⟩

/-- Enumerator `INVALID`, "for error handling". -/
def INVALID : Category := ⟨5⟩

/-- The value is one of the five real categories. -/
def isReal (c : Category) : Bool := decide (0 ≤ c.val ∧ c.val ≤ 4)

end Category

/-- Model of `categoryToString`. -/
def categoryToString (category : Category) : Text :=
  if category = Category.LEARNING_SUPPLIES then "学习用品".toList
  else if category = Category.DAILY_NECESSITIES then "日用品".toList
  else if category = Category.TRANSPORTATION then "交通费".toList
  else if category = Category.FOOD then "伙食费".toList
  else if category = Category.OTHER then "其他".toList
  else "未知分类".toList

/-- Model of `stringToCategory`. -/
def stringToCategory (s : Text) : Category :=
  if s = "学习用品".toList then Category.LEARNING_SUPPLIES
  else if s = "日用品".toList then Category.DAILY_NECESSITIES
  else if s = "交通费".toList then Category.TRANSPORTATION
  else if s = "伙食费".toList then Category.FOOD
  else if s = "其他".toList then Category.OTHER
  else if s = "0".toList then Category.LEARNING_SUPPLIES
  else if s = "1".toList then Category.DAILY_NECESSITIES
  else if s = "2".toList then Category.TRANSPORTATION
  else if s = "3".toList then Category.FOOD
  else if s = "4".toList then Category.OTHER
  else Category.INVALID

/-- Model of `class Date`. -/
structure Date where
  year : Int
  month : Int
  day : Int
  deriving DecidableEq, Repr

namespace Date

/-- Model of `Date::isValid`. -/
def isValid (d : Date) : Bool :=
  if d.year < 1900 ∨ d.year > 2100 then false
  else if d.month < 1 ∨ d.month > 12 then false
  else if d.day < 1 ∨ d.day > 31 then false
  else if d.month = 2 then
    let isLeap : Bool :=
      (d.year.tmod 4 = 0 && d.year.tmod 100 != 0) || d.year.tmod 400 = 0
    if d.day > (if isLeap then 29 else 28) then false else true
  else if d.month = 4 ∨ d.month = 6 ∨ d.month = 9 ∨ d.month = 11 then
    if d.day > 30 then false else true
  else true

/-- Model of `Date::operator<`. -/
def lt (d other : Date) : Bool :=
  if d.year ≠ other.year then decide (d.year < other.year)
  else if d.month ≠ other.month then decide (d.month < other.month)
  else decide (d.day < other.day)

end Date

/-- The leap-year rule in the specification's words: divisible by 4 and (not
divisible by 100 or divisible by 400). -/
def isLeapYear (year : Int) : Prop :=
  year % 4 = 0 ∧ (year % 100 ≠ 0 ∨ year % 400 = 0)

instance (year : Int) : Decidable (isLeapYear year) := by
  unfold isLeapYear
  infer_instance

/-- Length of a month in the specification's words: February has 29 days in a
leap year and 28 otherwise, April, June, September and November have 30, the
remaining months 31. -/
def daysInMonth (year month : Int) : Int :=
  if month = 2 then (if isLeapYear year then 29 else 28)
  else if month = 4 ∨ month = 6 ∨ month = 9 ∨ month = 11 then 30
  else 31

/-- Model of `class Expense`. -/
structure Expense where
  id : Int
  amount : Double
  category : Category
  date : Date
  remarks : Text
  deriving DecidableEq, Repr

/-! ## Persistence layer -/

/-- Model of `std::getline(inFile, line)` on the unread rest of a file: `none` when no
character is left (the stream fails), otherwise the characters up to the next
line feed and the rest after it. -/
def getline : Text → Option (Text × Text)
  | [] => none
  | c :: s =>
    some ((c :: s).takeWhile (fun x => x ≠ '\n'), ((c :: s).dropWhile (fun x => x ≠ '\n')).tail)

/-- The lines successive `std::getline` calls deliver until the stream fails. -/
def splitLines : Text → List Text
  | [] => []
  | c :: s =>
    if c = '\n' then [] :: splitLines s
    else
      match splitLines s with
      | [] => [[c]]
      | l :: ls => (c :: l) :: ls

namespace StorageManager

/-- The seven lines `saveExpenses` writes for one record. -/
def recordText (expense : Expense) : Text :=
  showInt expense.id ++ '\n' ::
  (expense.amount.toText ++ '\n' ::
  (showInt expense.category.val ++ '\n' ::
  (showInt expense.date.year ++ '\n' ::
  (showInt expense.date.month ++ '\n' ::
  (showInt expense.date.day ++ '\n' ::
  (expense.remarks ++ ['\n']))))))

/-- Model of `StorageManager::saveExpenses`: the result flag and, when the file could be
opened for writing, its new content. -/
def saveExpenses (writable : Bool) (expenses : List Expense) (nextId : Int) :
    Bool × Option Text :=
  if !writable then (false, none)
  else (true, some (showInt nextId ++ '\n' :: (expenses.map recordText).flatten))

/-- The record loop of `loadExpenses` over the lines still unread: the flag
`loadExpenses` returns and the vector as the loop leaves it.  A line that is
missing ends the loop (`break`), a field that `stoi` or `stod` rejects ends the
function with `false` (the `catch`), a record that fails the check is skipped
(`continue`). -/
def loadLoop : List Text → List Expense → Bool × List Expense
  | [], expenses => (true, expenses)
  | l₁ :: rest, expenses =>
    match stoi l₁ with
    | .error _ => (false, expenses)
    | .ok id =>
    match rest with
    | [] => (true, expenses)
    | l₂ :: rest =>
    match stod l₂ with
    | .error _ => (false, expenses)
    | .ok amount =>
    match rest with
    | [] => (true, expenses)
    | l₃ :: rest =>
    match stoi l₃ with
    | .error _ => (false, expenses)
    | .ok categoryInt =>
    match rest with
    | [] => (true, expenses)
    | l₄ :: rest =>
    match stoi l₄ with
    | .error _ => (false, expenses)
    | .ok year =>
    match rest with
    | [] => (true, expenses)
    | l₅ :: rest =>
    match stoi l₅ with
    | .error _ => (false, expenses)
    | .ok month =>
    match rest with
    | [] => (true, expenses)
    | l₆ :: rest =>
    match stoi l₆ with
    | .error _ => (false, expenses)
    | .ok day =>
    match rest with
    | [] => (true, expenses)
    | remarks :: rest =>
      if !(Date.mk year month day).isValid || Category.mk categoryInt == Category.INVALID then
        loadLoop rest expenses
      else
        loadLoop rest (expenses ++ [⟨id, amount, ⟨categoryInt⟩, ⟨year, month, day⟩, remarks⟩])

/-- Model of `StorageManager::loadExpenses(filename, expenses, nextId)`.  `file` is the
content of the file, `none` if it cannot be opened; `expenses` is the referenced
vector before the call (the referenced `nextId` is only written).  The result is
the returned flag with the two variables after the call, or the exception that
leaves the function (only the `std::invalid_argument` of the first `stoi` is
caught there). -/
def loadExpenses (file : Option Text) (expenses : List Expense) :
    Throws (Bool × List Expense × Int) :=
  match file with
  | none => .ok (false, expenses, 1)
  | some content =>
    match splitLines content with
    | [] => .ok (false, [], 1)
    | line :: rest =>
      match stoi line with
      | .error .invalid_argument => .ok (false, [], 1)
      | .error .out_of_range => .error .out_of_range
      | .ok n => .ok ((loadLoop rest []).1, (loadLoop rest []).2, n)

end StorageManager

/-! ## Ledger service -/

/-- The state of `class ExpenseManager`: the vector and the allocator. -/
structure ExpenseManager where
  expenses : List Expense
  nextId : Int
  deriving DecidableEq, Repr

namespace ExpenseManager

/-- Model of `ExpenseManager::addExpense`: `expenses.emplace_back(nextId++, ...)`. -/
def addExpense (m : ExpenseManager) (amount : Double) (category : Category) (date : Date)
    (remarks : Text) : ExpenseManager :=
  { expenses := m.expenses ++ [⟨m.nextId, amount, category, date, remarks⟩]
    nextId := wrapInt (m.nextId + 1) }

/-- Model of `ExpenseManager::deleteExpense`, `confirm_char` being the character the call
reads from the console: the returned flag and the state after the call. -/
def deleteExpense (m : ExpenseManager) (id : Int) (confirm_char : Char) :
    Bool × ExpenseManager :=
  match m.expenses.findIdx? (fun e => e.id = id) with
  | some it =>
    if confirm_char = 'y' ∨ confirm_char = 'Y' then
      (true, { m with expenses := m.expenses.eraseIdx it })
    else (false, m)
  | none => (false, m)

/-- Model of `ExpenseManager::sortExpensesByDate`, over the implementation of `std::sort`. -/
def sortExpensesByDate
    (sort : (Expense → Expense → Bool) → List Expense → List Expense)
    (m : ExpenseManager) : ExpenseManager :=
  { m with expenses := sort (fun a b => a.date.lt b.date) m.expenses }

/-- Model of `ExpenseManager::sortExpensesByAmount`, over the implementation of `std::sort`. -/
def sortExpensesByAmount
    (sort : (Expense → Expense → Bool) → List Expense → List Expense)
    (m : ExpenseManager) : ExpenseManager :=
  { m with expenses := sort (fun a b => a.amount.lt b.amount) m.expenses }

/-- The loop of `loadData` that finds the largest loaded id, from `0`. -/
def maxLoadedId (expenses : List Expense) : Int :=
  expenses.foldl (fun acc exp => if exp.id > acc then exp.id else acc) 0

/-- Model of `ExpenseManager::loadData`. -/
def loadData (file : Option Text) (m : ExpenseManager) : Throws ExpenseManager :=
  match StorageManager.loadExpenses file m.expenses with
  | .error e => .error e
  | .ok (found, expenses, nextId) =>
    if !found then
      if expenses.isEmpty then .ok ⟨expenses, 1⟩
      else .ok ⟨expenses, wrapInt (maxLoadedId expenses + 1)⟩
    else .ok ⟨expenses, nextId⟩

/-- The constructor: `nextId(1)`, an empty vector, then `loadData()`. -/
def new (file : Option Text) : Throws ExpenseManager :=
  loadData file ⟨[], 1⟩

/-- Model of `ExpenseManager::saveData`, the destructor's call. -/
def saveData (writable : Bool) (m : ExpenseManager) : Bool × Option Text :=
  StorageManager.saveExpenses writable m.expenses m.nextId

end ExpenseManager

/-! ## `std::sort` -/

/-- The requirement `std::sort` puts on its comparison: a strict weak ordering,
here on the elements being sorted. -/
structure StrictWeakOn {α : Type} (comp : α → α → Bool) (l : List α) : Prop where
  irrefl : ∀ a ∈ l, comp a a = false
  trans : ∀ a ∈ l, ∀ b ∈ l, ∀ c ∈ l, comp a b = true → comp b c = true → comp a c = true
  incomp : ∀ a ∈ l, ∀ b ∈ l, ∀ c ∈ l, comp a b = false → comp b a = false →
    comp b c = false → comp c b = false → comp a c = false ∧ comp c a = false

/-- The contract of `std::sort(first, last, comp)`: when `comp` is a strict weak
ordering on the range, the range afterwards holds the same elements and is sorted
with respect to `comp` (no element is `comp`-less than one before it).  The order
of equivalent elements is not specified. -/
def IsStdSort {α : Type} (sort : (α → α → Bool) → List α → List α) : Prop :=
  ∀ comp l, StrictWeakOn comp l →
    (sort comp l).Perm l ∧ (sort comp l).Pairwise (fun a b => comp b a = false)

/-- Insertion of `x` into a sorted list, after the elements `pass x` lets go first. -/
def insertAfter {α : Type} (pass : α → α → Bool) (x : α) : List α → List α
  | [] => [x]
  | y :: ys => if pass x y then y :: insertAfter pass x ys else x :: y :: ys

/-- An implementation of `std::sort` that keeps equivalent elements in their
order: insertion sort, each element stopping before the first one that is not
less than it. -/
def stableSort {α : Type} (comp : α → α → Bool) : List α → List α
  | [] => []
  | x :: xs => insertAfter (fun a b => comp b a) x (stableSort comp xs)

/-- An implementation of `std::sort` that does not keep equivalent elements in
their order: insertion sort, each element going behind its equivalents. -/
def unstableSort {α : Type} (comp : α → α → Bool) : List α → List α
  | [] => []
  | x :: xs => insertAfter (fun a b => !comp a b) x (unstableSort comp xs)

/-! ## The `std::sort` of libstdc++

The implementation of `std::sort` in GCC's library (`bits/stl_algo.h`,
`bits/stl_heap.h`): introsort, that is median-of-three quicksort down to ranges
of 16 elements, heap sort of a range once the depth limit is used up, then one
insertion sort over the whole range.  The vector is a list, iterators are
positions in it. -/

namespace Gnu

/-- Model of `comp(a[i], a[j])`; `false` outside the range. -/
def lessAt {α : Type} (comp : α → α → Bool) (a : List α) (i j : Nat) : Bool :=
  match a[i]?, a[j]? with
  | some x, some y => comp x y
  | _, _ => false

/-- Model of `std::iter_swap` on the positions `i` and `j`. -/
def swapAt {α : Type} (a : List α) (i j : Nat) : List α :=
  match a[i]?, a[j]? with
  | some x, some y => (a.set i y).set j x
  | _, _ => a

/-- Model of `__move_median_to_first(result, x, y, z, comp)`. -/
def moveMedianToFirst {α : Type} (comp : α → α → Bool) (a : List α) (result x y z : Nat) :
    List α :=
  if lessAt comp a x y then
    if lessAt comp a y z then swapAt a result y
    else if lessAt comp a x z then swapAt a result z
    else swapAt a result x
  else if lessAt comp a x z then swapAt a result x
  else if lessAt comp a y z then swapAt a result z
  else swapAt a result y

/-- Model of `while (comp(first, pivot)) ++first;` -/
def scanUp {α : Type} (comp : α → α → Bool) (a : List α) (pivot : Nat) : Nat → Nat → Nat
  | 0, first => first
  | fuel + 1, first =>
    if lessAt comp a first pivot then scanUp comp a pivot fuel (first + 1) else first

/-- Model of `while (comp(pivot, last)) --last;` -/
def scanDown {α : Type} (comp : α → α → Bool) (a : List α) (pivot : Nat) : Nat → Nat → Nat
  | 0, last => last
  | fuel + 1, last =>
    if lessAt comp a pivot last then scanDown comp a pivot fuel (last - 1) else last

/-- Model of `__unguarded_partition(first, last, pivot, comp)`: the range after the call
and the returned position. -/
def unguardedPartition {α : Type} (comp : α → α → Bool) (pivot : Nat) :
    Nat → List α → Nat → Nat → List α × Nat
  | 0, a, first, _ => (a, first)
  | fuel + 1, a, first, last =>
    let f := scanUp comp a pivot a.length first
    let l := scanDown comp a pivot a.length (last - 1)
    if f < l then unguardedPartition comp pivot fuel (swapAt a f l) (f + 1) l
    else (a, f)

/-- Model of `__unguarded_partition_pivot(first, last, comp)`. -/
def unguardedPartitionPivot {α : Type} (comp : α → α → Bool) (a : List α) (first last : Nat) :
    List α × Nat :=
  let mid := first + (last - first) / 2
  let a₁ := moveMedianToFirst comp a first (first + 1) mid (last - 1)
  unguardedPartition comp first a.length a₁ (first + 1) last

/-- The loop of `__unguarded_linear_insert`: the hole at `last` moves down while
`val` is less than the element before it. -/
def linearInsertLoop {α : Type} (comp : α → α → Bool) (val : α) : Nat → List α → Nat → List α
  | 0, a, last => a.set last val
  | fuel + 1, a, last =>
    match (if last = 0 then none else a[last - 1]?) with
    | some x => if comp val x then linearInsertLoop comp val fuel (a.set last x) (last - 1)
                else a.set last val
    | none => a.set last val

/-- Model of `__unguarded_linear_insert(last, comp)`. -/
def unguardedLinearInsert {α : Type} (comp : α → α → Bool) (a : List α) (last : Nat) : List α :=
  match a[last]? with
  | some val => linearInsertLoop comp val a.length a last
  | none => a

/-- One pass of the `for` loop of `__insertion_sort(first, last, comp)` at `i`. -/
def insertionStep {α : Type} (comp : α → α → Bool) (first : Nat) (a : List α) (i : Nat) :
    List α :=
  if lessAt comp a i first then
    match a[i]? with
    | some val => a.take first ++ val :: ((a.drop first).take (i - first) ++ a.drop (i + 1))
    | none => a
  else unguardedLinearInsert comp a i

/-- Model of `__insertion_sort(first, last, comp)`. -/
def insertionSort {α : Type} (comp : α → α → Bool) (a : List α) (first last : Nat) : List α :=
  if first = last then a
  else (List.range' (first + 1) (last - (first + 1))).foldl (insertionStep comp first) a

/-- Model of `__unguarded_insertion_sort(first, last, comp)`. -/
def unguardedInsertionSort {α : Type} (comp : α → α → Bool) (a : List α) (first last : Nat) :
    List α :=
  (List.range' first (last - first)).foldl (unguardedLinearInsert comp) a

/-- Model of `__final_insertion_sort(first, last, comp)`. -/
def finalInsertionSort {α : Type} (comp : α → α → Bool) (a : List α) (first last : Nat) :
    List α :=
  if last - first > 16 then
    unguardedInsertionSort comp (insertionSort comp a first (first + 16)) (first + 16) last
  else insertionSort comp a first last

/-- Model of `*(first + i) = std::move(*(first + j))`. -/
def moveAt {α : Type} (a : List α) (i j : Nat) : List α :=
  match a[j]? with
  | some x => a.set i x
  | none => a

/-- Model of `__push_heap(first, holeIndex, topIndex, value, comp)`. -/
def pushHeap {α : Type} (comp : α → α → Bool) (first topIndex : Nat) (value : α) :
    Nat → List α → Nat → List α
  | 0, a, holeIndex => a.set (first + holeIndex) value
  | fuel + 1, a, holeIndex =>
    match a[first + (holeIndex - 1) / 2]? with
    | some p =>
      if holeIndex > topIndex ∧ comp p value = true then
        pushHeap comp first topIndex value fuel (a.set (first + holeIndex) p)
          ((holeIndex - 1) / 2)
      else a.set (first + holeIndex) value
    | none => a.set (first + holeIndex) value

/-- The `while` loop of `__adjust_heap`: the hole moves down to the larger child. -/
def siftDown {α : Type} (comp : α → α → Bool) (first len : Nat) :
    Nat → List α → Nat → List α × Nat
  | 0, a, secondChild => (a, secondChild)
  | fuel + 1, a, secondChild =>
    if secondChild < (len - 1) / 2 then
      if lessAt comp a (first + 2 * (secondChild + 1)) (first + (2 * (secondChild + 1) - 1)) then
        siftDown comp first len fuel
          (moveAt a (first + secondChild) (first + (2 * (secondChild + 1) - 1)))
          (2 * (secondChild + 1) - 1)
      else
        siftDown comp first len fuel
          (moveAt a (first + secondChild) (first + 2 * (secondChild + 1)))
          (2 * (secondChild + 1))
    else (a, secondChild)

/-- Model of `__adjust_heap(first, holeIndex, len, value, comp)`. -/
def adjustHeap {α : Type} (comp : α → α → Bool) (a : List α) (first holeIndex len : Nat)
    (value : α) : List α :=
  let s := siftDown comp first len a.length a holeIndex
  if len % 2 = 0 ∧ s.2 = (len - 2) / 2 then
    pushHeap comp first holeIndex value a.length
      (moveAt s.1 (first + s.2) (first + (2 * (s.2 + 1) - 1))) (2 * (s.2 + 1) - 1)
  else pushHeap comp first holeIndex value a.length s.1 s.2

/-- Model of `__pop_heap(first, last, result, comp)`. -/
def popHeap {α : Type} (comp : α → α → Bool) (a : List α) (first last result : Nat) : List α :=
  match a[result]?, a[first]? with
  | some value, some top => adjustHeap comp (a.set result top) first 0 (last - first) value
  | _, _ => a

/-- Model of `__make_heap(first, last, comp)`. -/
def makeHeap {α : Type} (comp : α → α → Bool) (a : List α) (first last : Nat) : List α :=
  if last - first < 2 then a
  else
    (List.range ((last - first - 2) / 2 + 1)).reverse.foldl
      (fun a parent =>
        match a[first + parent]? with
        | some value => adjustHeap comp a first parent (last - first) value
        | none => a)
      a

/-- Model of `__sort_heap(first, last, comp)`. -/
def sortHeap {α : Type} (comp : α → α → Bool) (a : List α) (first last : Nat) : List α :=
  (List.range' (first + 1) (last - first - 1)).reverse.foldl
    (fun a l => popHeap comp a first l l) a

/-- Model of `__partial_sort(first, last, last, comp)`, the heap sort of the
range: `__heap_select` with `middle = last` is `__make_heap`. -/
def partialSort {α : Type} (comp : α → α → Bool) (a : List α) (first last : Nat) : List α :=
  sortHeap comp (makeHeap comp a first last) first last

/-- Model of `__introsort_loop(first, last, depth_limit, comp)`. -/
def introsortLoop {α : Type} (comp : α → α → Bool) :
    Nat → List α → Nat → Nat → List α
  | depth_limit, a, first, last =>
    if last - first > 16 then
      match depth_limit with
      | 0 => partialSort comp a first last
      | d + 1 =>
        introsortLoop comp d
          (introsortLoop comp d (unguardedPartitionPivot comp a first last).1
            (unguardedPartitionPivot comp a first last).2 last)
          first (unguardedPartitionPivot comp a first last).2
    else a

/-- Model of `std::__lg(n)`: the position of the highest set bit. -/
def lg : Nat → Nat → Nat
  | 0, _ => 0
  | fuel + 1, n => if n < 2 then 0 else lg fuel (n / 2) + 1

/-- Model of `std::sort(first, last, comp)` of libstdc++ over the whole vector. -/
def sort {α : Type} (comp : α → α → Bool) (a : List α) : List α :=
  if a.length = 0 then a
  else finalInsertionSort comp (introsortLoop comp (lg a.length a.length * 2) a 0 a.length)
    0 a.length

end Gnu

/-- Model of `std::sort` as libstdc++ performs it. -/
def gnuSort {α : Type} (comp : α → α → Bool) (l : List α) : List α :=
  Gnu.sort comp l

/-! ## Runs of ledger operations -/

/-- A call of the ledger service that changes the ledger. -/
inductive Op where
  | add (amount : Double) (category : Category) (date : Date) (remarks : Text)
  | delete (id : Int) (confirm_char : Char)
  deriving DecidableEq, Repr

namespace ExpenseManager

/-- The state after one call. -/
def step (m : ExpenseManager) : Op → ExpenseManager
  | .add amount category date remarks => m.addExpense amount category date remarks
  | .delete id confirm_char => (m.deleteExpense id confirm_char).2

/-- The state after a sequence of calls. -/
def run (m : ExpenseManager) (ops : List Op) : ExpenseManager :=
  ops.foldl step m

/-- Number of `addExpense` calls in a sequence. -/
def countAdds : List Op → Nat
  | [] => 0
  | .add _ _ _ _ :: ops => countAdds ops + 1
  | .delete _ _ :: ops => countAdds ops

/-- The allocator invariant: every id is at most `nextId - 1` and no two records
share an id. -/
def AllocInv (m : ExpenseManager) : Prop :=
  (∀ e ∈ m.expenses, e.id ≤ m.nextId - 1) ∧ (m.expenses.map (fun e => e.id)).Nodup

instance (m : ExpenseManager) : Decidable (AllocInv m) := by
  unfold AllocInv
  infer_instance

end ExpenseManager

/-! ## The file format, group by group -/

/-- The field at position `pos` of the record lines (`0` is the first line after
the `nextId` line) is one `loadExpenses` converts and the conversion throws:
position `1` of each group of seven goes through `stod`, position `6` is the
remarks, the others go through `stoi`. -/
def fieldFails (pos : Nat) (line : Text) : Bool :=
  if pos % 7 = 1 then (stod line).failed
  else if pos % 7 = 6 then false
  else (stoi line).failed

/-- The record a complete valid group of seven lines denotes, in the words of the
file format: the six numeric fields parse, the date is valid and the category
integer is one of the five real categories; `none` for any other list of lines. -/
def groupRecord : List Text → Option Expense
  | [l₁, l₂, l₃, l₄, l₅, l₆, l₇] =>
    match stoi l₁, stod l₂, stoi l₃, stoi l₄, stoi l₅, stoi l₆ with
    | .ok id, .ok amount, .ok categoryInt, .ok year, .ok month, .ok day =>
      if (Date.mk year month day).isValid ∧ (Category.mk categoryInt).isReal then
        some ⟨id, amount, ⟨categoryInt⟩, ⟨year, month, day⟩, l₇⟩
      else none
    | _, _, _, _, _, _ => none
  | _ => none

/-! ## Statistics -/

/-- Model of `m[key] = f(m[key])` on a `std::map<Category, V>`, kept as the list of
its entries in key order; an absent key is first inserted with the value `init`. -/
def mapModify {V : Type} (init : V) (f : V → V) (key : Category) :
    List (Category × V) → List (Category × V)
  | [] => [(key, f init)]
  | (k, v) :: rest =>
    if key.val < k.val then (key, f init) :: (k, v) :: rest
    else if key.val = k.val then (k, f v) :: rest
    else (k, v) :: mapModify init f key rest

/-- Model of `std::max_element(first, last, comp)`: the first element no later one
is `comp`-greater than; `none` on an empty range. -/
def maxElement {α : Type} (comp : α → α → Bool) : List α → Option α
  | [] => none
  | x :: xs => some (xs.foldl (fun result next => if comp result next then next else result) x)

/-- What `showStatistics` computes before it prints. -/
structure Statistics where
  totalExpenses : Double
  size : Nat
  expensesByCategory : List (Category × Double)
  countByCategory : List (Category × Int)
  maxSpendingCategory : Category
  maxSpend : Double
  maxElement : Option Expense
  deriving DecidableEq, Repr

namespace ExpenseManager

/-- The first loop of `showStatistics`: the total and the two maps. -/
def sumLoop (expenses : List Expense) :
    Double × List (Category × Double) × List (Category × Int) :=
  expenses.foldl
    (fun st expense =>
      (st.1.add expense.amount,
       mapModify Double.zero (fun v => v.add expense.amount) expense.category st.2.1,
       mapModify 0 (fun v => wrapInt (v + 1)) expense.category st.2.2))
    (Double.zero, [], [])

/-- The loop of `showStatistics` over `expensesByCategory` that finds the
category of the largest sum, from `INVALID` and `0`. -/
def maxLoop (expensesByCategory : List (Category × Double)) : Category × Double :=
  expensesByCategory.foldl
    (fun st pair => if st.2.lt pair.2 then (pair.1, pair.2) else st)
    (Category.INVALID, Double.zero)

/-- Model of `ExpenseManager::showStatistics`: the values it computes, `none` when
it returns at once because there is no record. -/
def showStatistics (m : ExpenseManager) : Option Statistics :=
  if m.expenses.isEmpty then none
  else some
    { totalExpenses := (sumLoop m.expenses).1
      size := m.expenses.length
      expensesByCategory := (sumLoop m.expenses).2.1
      countByCategory := (sumLoop m.expenses).2.2
      maxSpendingCategory := (maxLoop (sumLoop m.expenses).2.1).1
      maxSpend := (maxLoop (sumLoop m.expenses).2.1).2
      maxElement := ExpenseTracker.maxElement (fun a b => a.amount.lt b.amount) m.expenses }

end ExpenseManager

/-- The category `showStatistics` prints as the one of the largest spending: it
prints one only if `maxSpendingCategory` is not `INVALID`. -/
def Statistics.reportedMaxCategory (s : Statistics) : Option Category :=
  if s.maxSpendingCategory ≠ Category.INVALID then some s.maxSpendingCategory else none

/-- The amounts of the records of one category, in record order. -/
def categoryAmounts (c : Category) (l : List Expense) : List Double :=
  (l.filter (fun e => decide (e.category = c))).map (fun e => e.amount)

/-- The sum of the amounts of one category as `showStatistics` accumulates it:
`+=` in record order, starting from `0`. -/
def categorySum (c : Category) (l : List Expense) : Double :=
  (categoryAmounts c l).foldl Double.add Double.zero

/-- No addition of the running sum `acc += a` over the list rounds or leaves the
finite range: each result is finite and is the exact sum of its operands. -/
def ExactFrom (acc : Double) : List Double → Prop
  | [] => True
  | a :: rest =>
    (acc.add a).isFinite = true ∧ (acc.add a).toRat = acc.toRat + a.toRat ∧
      ExactFrom (acc.add a) rest

/-! # Theorems -/

namespace ExpenseManager

/-! ## `addExpense` and `deleteExpense` -/

theorem wrapInt_of_range {x : Int} (h₁ : INT_MIN ≤ x) (h₂ : x ≤ INT_MAX) : wrapInt x = x := by
  unfold INT_MIN at h₁
  unfold INT_MAX at h₂
  unfold wrapInt
  omega

theorem findIdx?_split {α : Type} (p : α → Bool) :
    ∀ (l : List α) (i : Nat), l.findIdx? p = some i →
      ∃ l₁ e l₂, l = l₁ ++ e :: l₂ ∧ p e = true ∧ (∀ x ∈ l₁, p x = false) ∧
        l.eraseIdx i = l₁ ++ l₂ := by
  intro l
  induction l with
  | nil => intro i h; simp at h
  | cons x xs ih =>
    intro i h
    rw [List.findIdx?_cons] at h
    by_cases hx : p x = true
    · rw [if_pos hx] at h
      have hi : i = 0 := by simpa using h.symm
      subst hi
      exact ⟨[], x, xs, rfl, hx, by simp, rfl⟩
    · rw [if_neg hx, List.findIdx?_succ] at h
      obtain ⟨j, hj, rfl⟩ := Option.map_eq_some'.mp h
      obtain ⟨l₁, e, l₂, hl, he, hl₁, her⟩ := ih j hj
      refine ⟨x :: l₁, e, l₂, by rw [hl]; rfl, he, ?_, ?_⟩
      · intro y hy
        rcases List.mem_cons.mp hy with rfl | hy
        · simpa using hx
        · exact hl₁ y hy
      · simp [List.eraseIdx, her]

theorem addExpense_nextId (m : ExpenseManager) (amount : Double) (category : Category)
    (date : Date) (remarks : Text) (hmin : INT_MIN ≤ m.nextId) (hmax : m.nextId < INT_MAX) :
    (m.addExpense amount category date remarks).nextId = m.nextId + 1 := by
  show wrapInt (m.nextId + 1) = m.nextId + 1
  apply wrapInt_of_range
  · unfold INT_MIN at *; omega
  · unfold INT_MAX at *; omega

theorem deleteExpense_cases (m : ExpenseManager) (id : Int) (c : Char) :
    (m.deleteExpense id c = (false, m) ∧
      ((∀ e ∈ m.expenses, e.id ≠ id) ∨ ¬(c = 'y' ∨ c = 'Y'))) ∨
    ((c = 'y' ∨ c = 'Y') ∧ ∃ l₁ e l₂, m.expenses = l₁ ++ e :: l₂ ∧ e.id = id ∧
      (∀ x ∈ l₁, x.id ≠ id) ∧
      m.deleteExpense id c = (true, { m with expenses := l₁ ++ l₂ })) := by
  unfold deleteExpense
  cases hf : m.expenses.findIdx? (fun e => decide (e.id = id)) with
  | none =>
    have hnone := List.findIdx?_eq_none_iff.mp hf
    exact Or.inl ⟨rfl, Or.inl (fun e he => by simpa using hnone e he)⟩
  | some i =>
    by_cases hc : c = 'y' ∨ c = 'Y'
    · obtain ⟨l₁, e, l₂, hl, he, hl₁, her⟩ := findIdx?_split _ _ _ hf
      refine Or.inr ⟨hc, l₁, e, l₂, hl, by simpa using he, fun x hx => by simpa using hl₁ x hx, ?_⟩
      simp only [if_pos hc, her]
    · exact Or.inl ⟨by simp only [if_neg hc], Or.inr hc⟩

/-- C4 (as amended): for every ledger state with `nextId = n < INT_MAX` and every
amount, category, date and remarks, `addExpense` leaves the earlier records
unchanged and in order, appends exactly one record carrying `id = n` and the
given fields, and sets `nextId = n + 1`. -/
theorem addExpense_appends (m : ExpenseManager) (amount : Double) (category : Category)
    (date : Date) (remarks : Text) (hmin : INT_MIN ≤ m.nextId) (hmax : m.nextId < INT_MAX) :
    (m.addExpense amount category date remarks).expenses
        = m.expenses ++ [⟨m.nextId, amount, category, date, remarks⟩] ∧
      (m.addExpense amount category date remarks).nextId = m.nextId + 1 := by
  constructor
  · rfl
  · show wrapInt (m.nextId + 1) = m.nextId + 1
    unfold wrapInt
    unfold INT_MIN at hmin
    unfold INT_MAX at hmax
    omega

/-- Witness of C4: on the empty ledger `add(12.50, Food, 2024-03-15, "lunch")` gets
id 1, and the next `add(5.00, Transportation, 2024-03-10, "")` gets id 2. -/
theorem addExpense_appends_witness :
    (INT_MIN ≤ (1 : Int) ∧ (1 : Int) < INT_MAX) ∧
    ((((⟨[], 1⟩ : ExpenseManager).addExpense (Double.mk false 25 (-1)) Category.FOOD
          ⟨2024, 3, 15⟩ ['l', 'u', 'n', 'c', 'h']).expenses
        = [] ++ [⟨1, Double.mk false 25 (-1), Category.FOOD, ⟨2024, 3, 15⟩,
            ['l', 'u', 'n', 'c', 'h']⟩]) ∧
      ((⟨[], 1⟩ : ExpenseManager).addExpense (Double.mk false 25 (-1)) Category.FOOD
          ⟨2024, 3, 15⟩ ['l', 'u', 'n', 'c', 'h']).nextId = 1 + 1) ∧
    ((((⟨[], 1⟩ : ExpenseManager).addExpense (Double.mk false 25 (-1)) Category.FOOD
          ⟨2024, 3, 15⟩ ['l', 'u', 'n', 'c', 'h']).addExpense (Double.ofNat 5)
          Category.TRANSPORTATION ⟨2024, 3, 10⟩ []).expenses.map (fun e => e.id) = [1, 2]) :=
  ⟨by decide,
   addExpense_appends ⟨[], 1⟩ (Double.mk false 25 (-1)) Category.FOOD ⟨2024, 3, 15⟩
     ['l', 'u', 'n', 'c', 'h'] (by decide) (by decide),
   by decide⟩

/-- Counterexample to C4 as stated: the ledger loaded from a file that stores
`nextId = 2147483647` has `nextId = INT_MAX`; `addExpense` gives the record the
id `2147483647`, but `nextId` does not become `2147483648`; it wraps to
`INT_MIN`. -/
theorem addExpense_nextId_wraps :
    ExpenseManager.new (some "2147483647\n".toList) = .ok ⟨[], 2147483647⟩ ∧
    ((⟨[], 2147483647⟩ : ExpenseManager).addExpense (Double.ofNat 5) Category.FOOD
        ⟨2024, 3, 15⟩ []).nextId = -2147483648 ∧
    ((⟨[], 2147483647⟩ : ExpenseManager).addExpense (Double.ofNat 5) Category.FOOD
        ⟨2024, 3, 15⟩ []).nextId ≠ 2147483647 + 1 := by
  decide

/-- C5: given an affirmative keystroke (`y` or `Y`), `deleteExpense` returns `true`
exactly when some record has the id; then the records afterwards are the old
ones with the first record of that id removed, all others unchanged and in the
same order, and `nextId` is unchanged. -/
theorem deleteExpense_confirmed (m : ExpenseManager) (id : Int) (c : Char)
    (hc : c = 'y' ∨ c = 'Y') :
    ((m.deleteExpense id c).1 = true ↔ ∃ e ∈ m.expenses, e.id = id) ∧
    ((m.deleteExpense id c).1 = true →
      ∃ l₁ e l₂, m.expenses = l₁ ++ e :: l₂ ∧ e.id = id ∧ (∀ x ∈ l₁, x.id ≠ id) ∧
        (m.deleteExpense id c).2.expenses = l₁ ++ l₂) ∧
    (m.deleteExpense id c).2.nextId = m.nextId := by
  rcases deleteExpense_cases m id c with ⟨heq, hno | hno⟩ | ⟨_, l₁, e, l₂, hl, he, hl₁, heq⟩
  · rw [heq]
    refine ⟨⟨fun h => absurd h Bool.false_ne_true, ?_⟩, fun h => absurd h Bool.false_ne_true, rfl⟩
    rintro ⟨e, he, hid⟩
    exact absurd hid (hno e he)
  · exact absurd hc hno
  · rw [heq]
    refine ⟨⟨fun _ => ⟨e, ?_, he⟩, fun _ => rfl⟩, fun _ => ⟨l₁, e, l₂, hl, he, hl₁, rfl⟩, rfl⟩
    rw [hl]
    exact List.mem_append_right _ (List.mem_cons_self _ _)

/-- Witness of C5: `delete(1)` confirmed with `y` on a ledger with the ids 1 and 2. -/
theorem deleteExpense_confirmed_witness :
    ('y' = 'y' ∨ 'y' = 'Y') ∧
    ((((⟨[⟨1, Double.ofNat 5, Category.FOOD, ⟨2024, 3, 15⟩, []⟩,
          ⟨2, Double.ofNat 7, Category.OTHER, ⟨2024, 3, 16⟩, []⟩], 3⟩ :
          ExpenseManager).deleteExpense 1 'y').1 = true ↔
      ∃ e ∈ [(⟨1, Double.ofNat 5, Category.FOOD, ⟨2024, 3, 15⟩, []⟩ : Expense),
          ⟨2, Double.ofNat 7, Category.OTHER, ⟨2024, 3, 16⟩, []⟩], e.id = 1)) ∧
    (⟨[⟨1, Double.ofNat 5, Category.FOOD, ⟨2024, 3, 15⟩, []⟩,
        ⟨2, Double.ofNat 7, Category.OTHER, ⟨2024, 3, 16⟩, []⟩], 3⟩ :
        ExpenseManager).deleteExpense 1 'y'
      = (true, ⟨[⟨2, Double.ofNat 7, Category.OTHER, ⟨2024, 3, 16⟩, []⟩], 3⟩) :=
  ⟨Or.inl rfl,
   (deleteExpense_confirmed
      ⟨[⟨1, Double.ofNat 5, Category.FOOD, ⟨2024, 3, 15⟩, []⟩,
        ⟨2, Double.ofNat 7, Category.OTHER, ⟨2024, 3, 16⟩, []⟩], 3⟩ 1 'y' (Or.inl rfl)).1,
   by decide⟩

/-- C6: if no record has the id, or the keystroke is neither `y` nor `Y`,
`deleteExpense` returns `false` and leaves the records and `nextId` unchanged;
the result is a function of the ledger, the id and the keystroke alone. -/
theorem deleteExpense_noop (m : ExpenseManager) (id : Int) (c : Char)
    (h : (∀ e ∈ m.expenses, e.id ≠ id) ∨ (c ≠ 'y' ∧ c ≠ 'Y')) :
    m.deleteExpense id c = (false, m) := by
  rcases deleteExpense_cases m id c with ⟨heq, _⟩ | ⟨hc, l₁, e, l₂, hl, he, _, _⟩
  · exact heq
  · exfalso
    rcases h with h | h
    · exact h e (by rw [hl]; exact List.mem_append_right _ (List.mem_cons_self _ _)) he
    · rcases hc with hc | hc
      · exact h.1 hc
      · exact h.2 hc

/-- Witness of C6: `delete(99)` on a ledger with the ids 1 and 2, whatever the
keystroke. -/
theorem deleteExpense_noop_witness :
    ((∀ e ∈ [(⟨1, Double.ofNat 5, Category.FOOD, ⟨2024, 3, 15⟩, []⟩ : Expense),
          ⟨2, Double.ofNat 7, Category.OTHER, ⟨2024, 3, 16⟩, []⟩], e.id ≠ 99) ∨
        ('y' ≠ 'y' ∧ 'y' ≠ 'Y')) ∧
    (⟨[⟨1, Double.ofNat 5, Category.FOOD, ⟨2024, 3, 15⟩, []⟩,
        ⟨2, Double.ofNat 7, Category.OTHER, ⟨2024, 3, 16⟩, []⟩], 3⟩ :
        ExpenseManager).deleteExpense 99 'y'
      = (false, ⟨[⟨1, Double.ofNat 5, Category.FOOD, ⟨2024, 3, 15⟩, []⟩,
          ⟨2, Double.ofNat 7, Category.OTHER, ⟨2024, 3, 16⟩, []⟩], 3⟩) :=
  ⟨Or.inl (by decide),
   deleteExpense_noop
     ⟨[⟨1, Double.ofNat 5, Category.FOOD, ⟨2024, 3, 15⟩, []⟩,
       ⟨2, Double.ofNat 7, Category.OTHER, ⟨2024, 3, 16⟩, []⟩], 3⟩ 99 'y'
     (Or.inl (by decide))⟩

/-! ## The allocator under runs of `addExpense` and `deleteExpense` -/

theorem deleteExpense_nextId (m : ExpenseManager) (id : Int) (c : Char) :
    (m.deleteExpense id c).2.nextId = m.nextId := by
  unfold deleteExpense
  split
  · split <;> rfl
  · rfl

theorem deleteExpense_sublist (m : ExpenseManager) (id : Int) (c : Char) :
    (m.deleteExpense id c).2.expenses.Sublist m.expenses := by
  unfold deleteExpense
  split
  · split
    · exact List.eraseIdx_sublist _ _
    · exact List.Sublist.refl _
  · exact List.Sublist.refl _

theorem deleteExpense_allocInv (m : ExpenseManager) (id : Int) (c : Char) (h : AllocInv m) :
    AllocInv (m.deleteExpense id c).2 := by
  have hs := deleteExpense_sublist m id c
  refine ⟨?_, ?_⟩
  · intro e he
    rw [deleteExpense_nextId]
    exact h.1 e (hs.subset he)
  · exact h.2.sublist (hs.map _)

theorem addExpense_allocInv (m : ExpenseManager) (amount : Double) (category : Category)
    (date : Date) (remarks : Text) (h : AllocInv m) (hmin : INT_MIN ≤ m.nextId)
    (hmax : m.nextId < INT_MAX) : AllocInv (m.addExpense amount category date remarks) := by
  have hn := addExpense_nextId m amount category date remarks hmin hmax
  have he : (m.addExpense amount category date remarks).expenses
      = m.expenses ++ [⟨m.nextId, amount, category, date, remarks⟩] := rfl
  refine ⟨?_, ?_⟩
  · intro e hmem
    rw [hn]
    rw [he] at hmem
    rcases List.mem_append.mp hmem with hmem | hmem
    · have := h.1 e hmem
      omega
    · have : e.id = m.nextId := by
        rw [List.mem_singleton.mp hmem]
      omega
  · rw [he, List.map_append, List.nodup_append]
    refine ⟨h.2, by simp, ?_⟩
    intro a ha hb
    obtain ⟨e, hmem, rfl⟩ := List.mem_map.mp ha
    have h₁ := h.1 e hmem
    have h₂ : e.id = m.nextId := by simpa using hb
    omega

theorem run_cons (m : ExpenseManager) (op : Op) (ops : List Op) :
    run m (op :: ops) = run (m.step op) ops := rfl

theorem run_append (m : ExpenseManager) (ops₁ ops₂ : List Op) :
    run m (ops₁ ++ ops₂) = run (run m ops₁) ops₂ := by
  unfold run
  exact List.foldl_append _ _ _ _

theorem countAdds_append (ops₁ ops₂ : List Op) :
    countAdds (ops₁ ++ ops₂) = countAdds ops₁ + countAdds ops₂ := by
  induction ops₁ with
  | nil => simp [countAdds]
  | cons op ops ih =>
    cases op <;> simp [countAdds, ih]
    omega

theorem run_allocInv (ops : List Op) :
    ∀ m : ExpenseManager, AllocInv m → INT_MIN ≤ m.nextId →
      m.nextId + countAdds ops ≤ INT_MAX →
      AllocInv (run m ops) ∧ (run m ops).nextId = m.nextId + countAdds ops := by
  induction ops with
  | nil =>
    intro m h _ _
    exact ⟨h, by simp [run, countAdds]⟩
  | cons op ops ih =>
    intro m h hmin hroom
    rw [run_cons]
    cases op with
    | add amount category date remarks =>
      simp only [countAdds, Nat.cast_add, Nat.cast_one] at hroom ⊢
      have hmax : m.nextId < INT_MAX := by omega
      have hn := addExpense_nextId m amount category date remarks hmin hmax
      have h' := addExpense_allocInv m amount category date remarks h hmin hmax
      obtain ⟨hi, hk⟩ := ih (m.step (.add amount category date remarks)) h'
        (by show INT_MIN ≤ (m.addExpense amount category date remarks).nextId; omega)
        (by show (m.addExpense amount category date remarks).nextId + _ ≤ _; omega)
      refine ⟨hi, ?_⟩
      rw [hk]
      show (m.addExpense amount category date remarks).nextId + _ = _
      omega
    | delete id c =>
      simp only [countAdds] at hroom ⊢
      have hn := deleteExpense_nextId m id c
      obtain ⟨hi, hk⟩ := ih (m.step (.delete id c)) (deleteExpense_allocInv m id c h)
        (by show INT_MIN ≤ (m.deleteExpense id c).2.nextId; omega)
        (by show (m.deleteExpense id c).2.nextId + _ ≤ _; omega)
      refine ⟨hi, ?_⟩
      rw [hk]
      show (m.deleteExpense id c).2.nextId + _ = _
      omega

theorem run_keeps_id_unused (id : Int) (ops : List Op) :
    ∀ m : ExpenseManager, INT_MIN ≤ m.nextId → m.nextId + countAdds ops ≤ INT_MAX →
      id < m.nextId → (∀ e ∈ m.expenses, e.id ≠ id) →
      ∀ e ∈ (run m ops).expenses, e.id ≠ id := by
  induction ops with
  | nil =>
    intro m _ _ _ h
    exact h
  | cons op ops ih =>
    intro m hmin hroom hlt h
    rw [run_cons]
    cases op with
    | add amount category date remarks =>
      simp only [countAdds, Nat.cast_add, Nat.cast_one] at hroom
      have hmax : m.nextId < INT_MAX := by omega
      have hn := addExpense_nextId m amount category date remarks hmin hmax
      have he : (m.addExpense amount category date remarks).expenses
          = m.expenses ++ [⟨m.nextId, amount, category, date, remarks⟩] := rfl
      apply ih (m.step (.add amount category date remarks))
      · show INT_MIN ≤ (m.addExpense amount category date remarks).nextId; omega
      · show (m.addExpense amount category date remarks).nextId + _ ≤ _; omega
      · show id < (m.addExpense amount category date remarks).nextId; omega
      · intro e hmem
        have hmem' : e ∈ m.expenses ++ [⟨m.nextId, amount, category, date, remarks⟩] := by
          rw [← he]; exact hmem
        rcases List.mem_append.mp hmem' with hmem' | hmem'
        · exact h e hmem'
        · have : e.id = m.nextId := by rw [List.mem_singleton.mp hmem']
          omega
    | delete id' c =>
      simp only [countAdds] at hroom
      have hn := deleteExpense_nextId m id' c
      apply ih (m.step (.delete id' c))
      · show INT_MIN ≤ (m.deleteExpense id' c).2.nextId; omega
      · show (m.deleteExpense id' c).2.nextId + _ ≤ _; omega
      · show id < (m.deleteExpense id' c).2.nextId; omega
      · intro e hmem
        exact h e ((deleteExpense_sublist m id' c).subset hmem)

/-- C2 (as amended): from any ledger that satisfies the allocator invariant
(the empty ledger with `nextId = 1` among them), after every sequence of
`addExpense` and `deleteExpense` calls that does not take `nextId` past
`INT_MAX`, every record id is at most `nextId - 1` and no two records share an
id; `nextId` has grown by the number of adds; and an id that a `deleteExpense`
call removed is carried by no record afterwards. -/
theorem allocator_invariant (m : ExpenseManager) (ops : List Op) (hinv : AllocInv m)
    (hmin : INT_MIN ≤ m.nextId) (hroom : m.nextId + countAdds ops ≤ INT_MAX) :
    AllocInv (run m ops) ∧ (run m ops).nextId = m.nextId + countAdds ops ∧
    ∀ pre id c post, ops = pre ++ Op.delete id c :: post →
      ((run m pre).deleteExpense id c).1 = true →
      ∀ e ∈ (run m ops).expenses, e.id ≠ id := by
  obtain ⟨h₁, h₂⟩ := run_allocInv ops m hinv hmin hroom
  refine ⟨h₁, h₂, ?_⟩
  intro pre id c post hops hdel
  subst hops
  rw [countAdds_append] at hroom
  simp only [countAdds, Nat.cast_add] at hroom
  obtain ⟨hp, hpn⟩ := run_allocInv pre m hinv hmin (by omega)
  rw [run_append, run_cons]
  obtain ⟨l₁, e₀, l₂, hl, he₀, her⟩ :
      ∃ l₁ e₀ l₂, (run m pre).expenses = l₁ ++ e₀ :: l₂ ∧ e₀.id = id ∧
        ((run m pre).deleteExpense id c).2.expenses = l₁ ++ l₂ := by
    rcases deleteExpense_cases (run m pre) id c with ⟨heq, _⟩ | ⟨_, l₁, e, l₂, hl, he, _, heq⟩
    · rw [heq] at hdel
      exact absurd hdel Bool.false_ne_true
    · exact ⟨l₁, e, l₂, hl, he, by rw [heq]⟩
  have hn := deleteExpense_nextId (run m pre) id c
  apply run_keeps_id_unused id post ((run m pre).step (.delete id c))
  · show INT_MIN ≤ ((run m pre).deleteExpense id c).2.nextId; omega
  · show ((run m pre).deleteExpense id c).2.nextId + _ ≤ _; omega
  · show id < ((run m pre).deleteExpense id c).2.nextId
    have := hp.1 e₀ (by rw [hl]; simp)
    omega
  · show ∀ e ∈ ((run m pre).deleteExpense id c).2.expenses, e.id ≠ id
    rw [her]
    have hnd := hp.2
    rw [hl, List.map_append, List.map_cons] at hnd
    intro e hmem hid
    have hmid : id ∉ l₁.map (fun e => e.id) ∧ id ∉ l₂.map (fun e => e.id) := by
      rw [List.nodup_append] at hnd
      obtain ⟨_, hnd₂, hdis⟩ := hnd
      rw [List.nodup_cons] at hnd₂
      refine ⟨fun hmem₁ => hdis hmem₁ (by simp [he₀]), ?_⟩
      rw [← he₀]
      exact hnd₂.1
    rcases List.mem_append.mp hmem with hmem | hmem
    · exact hmid.1 (List.mem_map.mpr ⟨e, hmem, hid⟩)
    · exact hmid.2 (List.mem_map.mpr ⟨e, hmem, hid⟩)

/-- Witness of C2: from the empty ledger with `nextId = 1`, two adds, the
confirmed deletion of id 1 and a third add. -/
theorem allocator_invariant_witness :
    (AllocInv ⟨[], 1⟩ ∧ INT_MIN ≤ (1 : Int) ∧
      (1 : Int) + countAdds [Op.add (Double.ofNat 5) Category.FOOD ⟨2024, 3, 15⟩ [],
        Op.add (Double.ofNat 7) Category.OTHER ⟨2024, 3, 16⟩ [], Op.delete 1 'y',
        Op.add (Double.ofNat 9) Category.FOOD ⟨2024, 3, 17⟩ []] ≤ INT_MAX) ∧
    AllocInv (run ⟨[], 1⟩ [Op.add (Double.ofNat 5) Category.FOOD ⟨2024, 3, 15⟩ [],
        Op.add (Double.ofNat 7) Category.OTHER ⟨2024, 3, 16⟩ [], Op.delete 1 'y',
        Op.add (Double.ofNat 9) Category.FOOD ⟨2024, 3, 17⟩ []]) ∧
    (run ⟨[], 1⟩ [Op.add (Double.ofNat 5) Category.FOOD ⟨2024, 3, 15⟩ [],
        Op.add (Double.ofNat 7) Category.OTHER ⟨2024, 3, 16⟩ [], Op.delete 1 'y',
        Op.add (Double.ofNat 9) Category.FOOD ⟨2024, 3, 17⟩ []]).expenses.map (fun e => e.id)
      = [2, 3] :=
  ⟨⟨by decide, by decide, by decide⟩,
   (allocator_invariant ⟨[], 1⟩ _ (by decide) (by decide) (by decide)).1,
   by decide⟩

/-- Counterexample to C2 as stated: the ledger with no record and
`nextId = INT_MAX` (the one loaded from a file that stores `2147483647`)
satisfies the invariant, and after one `addExpense` the new record has the id
`2147483647` while `nextId` is `-2147483648`. -/
theorem allocator_invariant_breaks_at_INT_MAX :
    ExpenseManager.new (some "2147483647\n".toList) = .ok ⟨[], 2147483647⟩ ∧
    AllocInv ⟨[], 2147483647⟩ ∧
    ¬AllocInv (run ⟨[], 2147483647⟩ [Op.add (Double.ofNat 5) Category.FOOD ⟨2024, 3, 15⟩ []]) ∧
    (run ⟨[], 2147483647⟩ [Op.add (Double.ofNat 5) Category.FOOD ⟨2024, 3, 15⟩ []]).nextId
      = -2147483648 := by
  decide

end ExpenseManager

/-! ## Lines of a file -/

theorem splitLines_cons_eq (c : Char) (s : Text) :
    splitLines (c :: s) =
      (c :: s).takeWhile (fun x => x ≠ '\n')
        :: splitLines ((c :: s).dropWhile (fun x => x ≠ '\n')).tail := by
  induction s generalizing c with
  | nil =>
    by_cases hc : c = '\n'
    · simp [splitLines, hc]
    · simp [splitLines, hc]
  | cons d t ih =>
    by_cases hc : c = '\n'
    · subst hc
      simp [splitLines]
    · have h := ih d
      rw [splitLines, if_neg hc, h]
      simp [List.takeWhile, List.dropWhile, hc]

theorem splitLines_getline (s : Text) :
    (getline s = none → splitLines s = []) ∧
    (∀ line rest, getline s = some (line, rest) → splitLines s = line :: splitLines rest) := by
  cases s with
  | nil => simp [getline, splitLines]
  | cons c t =>
    refine ⟨fun h => by simp [getline] at h, ?_⟩
    intro line rest h
    simp only [getline, Option.some.injEq, Prod.mk.injEq] at h
    rw [splitLines_cons_eq, h.1, h.2]

namespace StorageManager

/-! ## The record loop of `loadExpenses` -/

theorem stoi_range {s : Text} {v : Int} (h : stoi s = .ok v) : INT_MIN ≤ v ∧ v ≤ INT_MAX := by
  unfold stoi at h
  simp only at h
  split_ifs at h
  all_goals first
    | (cases h; done)
    | (have hv := Throws.ok.inj h
       unfold INT_MIN INT_MAX at *
       omega)

theorem loadLoop_full (l₁ l₂ l₃ l₄ l₅ l₆ l₇ : Text) (rest : List Text) (acc : List Expense)
    (id c y mo d : Int) (a : Double)
    (h1 : stoi l₁ = .ok id) (h2 : stod l₂ = .ok a) (h3 : stoi l₃ = .ok c)
    (h4 : stoi l₄ = .ok y) (h5 : stoi l₅ = .ok mo) (h6 : stoi l₆ = .ok d) :
    loadLoop (l₁ :: l₂ :: l₃ :: l₄ :: l₅ :: l₆ :: l₇ :: rest) acc =
      loadLoop rest
        (if !(Date.mk y mo d).isValid || Category.mk c == Category.INVALID then acc
         else acc ++ [⟨id, a, ⟨c⟩, ⟨y, mo, d⟩, l₇⟩]) := by
  rw [loadLoop]
  simp only [h1, h2, h3, h4, h5, h6]
  split <;> rfl

theorem loadLoop_fails_early (lines : List Text) (acc : List Expense) :
    ∀ i l, i < 6 → lines[i]? = some l → fieldFails i l = true →
      loadLoop lines acc = (false, acc) := by
  induction lines, acc using loadLoop.induct <;> intro i l hi hl hf
  all_goals first
    | (rw [loadLoop]; simp [*]; done)
    | (exfalso; interval_cases i <;> simp_all [fieldFails, Throws.failed])


theorem ok_of_not_failed {α : Type} {t : Throws α} (h : t.failed = false) : ∃ v, t = .ok v := by
  cases t with
  | ok v => exact ⟨v, rfl⟩
  | error e => simp [Throws.failed] at h

theorem loadLoop_first_group (l₁ l₂ l₃ l₄ l₅ l₆ l₇ : Text)
    (h : ∀ k l, k < 6 → [l₁, l₂, l₃, l₄, l₅, l₆][k]? = some l → fieldFails k l = false) :
    ∃ keep : List Expense,
      (∀ rest acc, loadLoop (l₁ :: l₂ :: l₃ :: l₄ :: l₅ :: l₆ :: l₇ :: rest) acc
        = loadLoop rest (acc ++ keep)) ∧
      ∀ e ∈ keep, INT_MIN ≤ e.id ∧ e.id ≤ INT_MAX := by
  obtain ⟨id, h1⟩ := @ok_of_not_failed _ (stoi l₁) (by simpa [fieldFails] using h 0 l₁ (by omega) rfl)
  obtain ⟨a, h2⟩ := @ok_of_not_failed _ (stod l₂) (by simpa [fieldFails] using h 1 l₂ (by omega) rfl)
  obtain ⟨c, h3⟩ := @ok_of_not_failed _ (stoi l₃) (by simpa [fieldFails] using h 2 l₃ (by omega) rfl)
  obtain ⟨y, h4⟩ := @ok_of_not_failed _ (stoi l₄) (by simpa [fieldFails] using h 3 l₄ (by omega) rfl)
  obtain ⟨mo, h5⟩ := @ok_of_not_failed _ (stoi l₅) (by simpa [fieldFails] using h 4 l₅ (by omega) rfl)
  obtain ⟨d, h6⟩ := @ok_of_not_failed _ (stoi l₆) (by simpa [fieldFails] using h 5 l₆ (by omega) rfl)
  refine ⟨if !(Date.mk y mo d).isValid || Category.mk c == Category.INVALID then []
      else [⟨id, a, ⟨c⟩, ⟨y, mo, d⟩, l₇⟩], ?_, ?_⟩
  · intro rest acc
    rw [loadLoop_full l₁ l₂ l₃ l₄ l₅ l₆ l₇ rest acc id c y mo d a h1 h2 h3 h4 h5 h6]
    split <;> simp
  · intro e he
    split at he
    · simp at he
    · rw [List.mem_singleton.mp he]
      exact stoi_range h1

theorem loadLoop_short (lines : List Text) (acc : List Expense) :
    lines.length < 7 → (loadLoop lines acc).2 = acc := by
  induction lines, acc using loadLoop.induct <;> intro h
  all_goals first
    | (simp [loadLoop]; done)
    | (rw [loadLoop]; simp [*]; done)
    | (exfalso; simp only [List.length_cons] at h; omega)

theorem short_or_seven (lines : List Text) :
    lines.length < 7 ∨ ∃ l₁ l₂ l₃ l₄ l₅ l₆ l₇ rest,
      lines = l₁ :: l₂ :: l₃ :: l₄ :: l₅ :: l₆ :: l₇ :: rest := by
  rcases lines with _ | ⟨l₁, _ | ⟨l₂, _ | ⟨l₃, _ | ⟨l₄, _ | ⟨l₅, _ | ⟨l₆, _ | ⟨l₇, rest⟩⟩⟩⟩⟩⟩⟩
  all_goals first
    | (left; simp; done)
    | exact Or.inr ⟨_, _, _, _, _, _, _, _, rfl⟩

theorem loadLoop_ids_range : ∀ (n : Nat) (lines : List Text) (acc : List Expense),
    lines.length = n → (∀ e ∈ acc, INT_MIN ≤ e.id ∧ e.id ≤ INT_MAX) →
    ∀ e ∈ (loadLoop lines acc).2, INT_MIN ≤ e.id ∧ e.id ≤ INT_MAX := by
  intro n
  induction n using Nat.strong_induction_on with
  | _ n ih =>
    intro lines acc hn hacc
    rcases short_or_seven lines with hlen | ⟨l₁, l₂, l₃, l₄, l₅, l₆, l₇, rest, rfl⟩
    · rw [loadLoop_short lines acc hlen]
      exact hacc
    · by_cases hg : ∀ k x, k < 6 → [l₁, l₂, l₃, l₄, l₅, l₆][k]? = some x → fieldFails k x = false
      · obtain ⟨keep, hk, hkeep⟩ := loadLoop_first_group l₁ l₂ l₃ l₄ l₅ l₆ l₇ hg
        rw [hk]
        apply ih rest.length (by simp at hn; omega) rest _ rfl
        intro e he
        rcases List.mem_append.mp he with he | he
        · exact hacc e he
        · exact hkeep e he
      · push_neg at hg
        obtain ⟨k, x, hk, hx, hfx⟩ := hg
        have hx' : (l₁ :: l₂ :: l₃ :: l₄ :: l₅ :: l₆ :: l₇ :: rest)[k]? = some x := by
          interval_cases k <;> simpa using hx
        rw [loadLoop_fails_early _ acc k x hk hx' (by simpa using hfx)]
        exact hacc

theorem loadExpenses_some (content : Text) (first : Text) (rest : List Text) (n : Int)
    (expenses : List Expense)
    (hsplit : splitLines content = first :: rest) (hfirst : stoi first = .ok n) :
    loadExpenses (some content) expenses = .ok ((loadLoop rest []).1, (loadLoop rest []).2, n) := by
  simp only [loadExpenses, hsplit, hfirst]

theorem loadExpenses_ids_range (file : Option Text) (found : Bool) (es : List Expense) (n : Int)
    (h : loadExpenses file [] = .ok (found, es, n)) :
    ∀ e ∈ es, INT_MIN ≤ e.id ∧ e.id ≤ INT_MAX := by
  unfold loadExpenses at h
  split at h
  · cases h
    simp
  · split at h
    · cases h
      simp
    · split at h
      · cases h
        simp
      · cases h
      · cases h
        exact loadLoop_ids_range _ _ [] rfl (by simp)

end StorageManager

namespace ExpenseManager

/-! ## `loadData` -/

theorem foldl_max_ge (l : List Expense) : ∀ acc : Int,
    acc ≤ l.foldl (fun acc exp => if exp.id > acc then exp.id else acc) acc ∧
    ∀ e ∈ l, e.id ≤ l.foldl (fun acc exp => if exp.id > acc then exp.id else acc) acc := by
  induction l with
  | nil => intro acc; simp
  | cons x xs ih =>
    intro acc
    simp only [List.foldl_cons, List.mem_cons, forall_eq_or_imp]
    by_cases hx : x.id > acc
    · obtain ⟨h₁, h₂⟩ := ih x.id
      simp only [if_pos hx]
      exact ⟨by omega, h₁, h₂⟩
    · obtain ⟨h₁, h₂⟩ := ih acc
      simp only [if_neg hx]
      exact ⟨h₁, by omega, h₂⟩

theorem foldl_max_le (l : List Expense) (b : Int) : ∀ acc : Int, acc ≤ b → (∀ e ∈ l, e.id ≤ b) →
    l.foldl (fun acc exp => if exp.id > acc then exp.id else acc) acc ≤ b := by
  induction l with
  | nil => intro acc h _; simpa using h
  | cons x xs ih =>
    intro acc h hl
    simp only [List.foldl_cons]
    apply ih
    · have := hl x (List.mem_cons_self _ _)
      split <;> omega
    · intro e he
      exact hl e (List.mem_cons_of_mem _ he)

end ExpenseManager

/-! ## Claims on the persistence layer -/

/-- C1 (the code loses the amount): the ledger with `nextId = 2` and the single
record (id 1, amount 1234567, Food, 2024-03-15, "lunch") is well-formed, yet
`saveExpenses` writes the amount with six significant digits (`1.23457e+06`) and
`loadExpenses` of the written file returns the amount 1234570, not 1234567. -/
theorem save_load_loses_amount_digits :
    StorageManager.saveExpenses true
        [⟨1, Double.ofNat 1234567, Category.FOOD, ⟨2024, 3, 15⟩, "lunch".toList⟩] 2
      = (true, some "2\n1\n1.23457e+06\n3\n2024\n3\n15\nlunch\n".toList) ∧
    StorageManager.loadExpenses (some "2\n1\n1.23457e+06\n3\n2024\n3\n15\nlunch\n".toList) []
      = .ok (true, [⟨1, Double.ofNat 1234570, Category.FOOD, ⟨2024, 3, 15⟩, "lunch".toList⟩], 2) ∧
    Double.ofNat 1234570 ≠ Double.ofNat 1234567 := by
  decide

/-- C3 (as amended): when `loadExpenses` returns `found = false` and no retained
record carries the id `INT_MAX`, the ledger `loadData` leaves has the records
`loadExpenses` left, `nextId ≥ 1` and `nextId` above every record id; when
`loadExpenses` returns `found = true`, `loadData` keeps the records and the
stored `nextId` as they are. -/
theorem loadData_allocator (file : Option Text) (m : ExpenseManager)
    (h : ExpenseManager.new file = .ok m) :
    (∀ es n, StorageManager.loadExpenses file [] = .ok (true, es, n) → m = ⟨es, n⟩) ∧
    (∀ es n, StorageManager.loadExpenses file [] = .ok (false, es, n) →
      (∀ e ∈ es, e.id ≠ INT_MAX) →
      m.expenses = es ∧ 1 ≤ m.nextId ∧ ∀ e ∈ m.expenses, e.id < m.nextId) := by
  unfold ExpenseManager.new ExpenseManager.loadData at h
  simp only at h
  refine ⟨?_, ?_⟩
  · intro es n hload
    rw [hload] at h
    simp only [Bool.not_true, Bool.false_eq_true, if_false] at h
    exact (Throws.ok.inj h).symm
  · intro es n hload hne
    have hrange := StorageManager.loadExpenses_ids_range file false es n hload
    rw [hload] at h
    simp only [Bool.not_false, if_true] at h
    split at h
    · rename_i hempty
      have hm := (Throws.ok.inj h).symm
      subst hm
      have : es = [] := by simpa using hempty
      subst this
      simp
    · have hm := (Throws.ok.inj h).symm
      subst hm
      have hge := ExpenseManager.foldl_max_ge es 0
      have hle := ExpenseManager.foldl_max_le es (INT_MAX - 1) 0 (by decide) (by
        intro e he
        have := hrange e he
        have := hne e he
        omega)
      have hw : wrapInt (ExpenseManager.maxLoadedId es + 1)
          = ExpenseManager.maxLoadedId es + 1 := by
        apply ExpenseManager.wrapInt_of_range
        · unfold ExpenseManager.maxLoadedId INT_MIN; omega
        · unfold ExpenseManager.maxLoadedId; omega
      refine ⟨rfl, ?_, ?_⟩
      · show 1 ≤ wrapInt (ExpenseManager.maxLoadedId es + 1)
        rw [hw]; unfold ExpenseManager.maxLoadedId; omega
      · intro e he
        show e.id < wrapInt (ExpenseManager.maxLoadedId es + 1)
        rw [hw]
        have := hge.2 e he
        unfold ExpenseManager.maxLoadedId; omega

/-- Witness of C3: a file whose second record has a corrupt amount; the load
fails, the first record (id 1) is kept and `nextId` becomes 2. -/
theorem loadData_allocator_witness :
    ExpenseManager.new
        (some "3\n1\n9.5\n3\n2024\n3\n15\nlunch\n2\nabc\n3\n2024\n3\n16\ntea\n".toList)
      = .ok ⟨[⟨1, Double.mk false 19 (-1), Category.FOOD, ⟨2024, 3, 15⟩, "lunch".toList⟩], 2⟩ ∧
    ((1 : Int) ≤ 2 ∧ ∀ e ∈ [(⟨1, Double.mk false 19 (-1), Category.FOOD, ⟨2024, 3, 15⟩,
        "lunch".toList⟩ : Expense)], e.id < 2) :=
  ⟨by decide,
   ((loadData_allocator
      (some "3\n1\n9.5\n3\n2024\n3\n15\nlunch\n2\nabc\n3\n2024\n3\n16\ntea\n".toList)
      ⟨[⟨1, Double.mk false 19 (-1), Category.FOOD, ⟨2024, 3, 15⟩, "lunch".toList⟩], 2⟩
      (by decide)).2
      [⟨1, Double.mk false 19 (-1), Category.FOOD, ⟨2024, 3, 15⟩, "lunch".toList⟩] 3
      (by decide) (by decide)).2⟩

/-- Counterexample to C3 as stated: a file that stores `nextId = 1` next to a
valid record with id 5 loads with `found = true`, and the ledger the service
then holds has `nextId = 1`, not above the id 5; a file that stores `nextId = -3`
leaves `nextId = -3`, below 1. -/
theorem loadData_trusts_stored_nextId :
    ExpenseManager.new (some "1\n5\n1\n0\n2024\n1\n1\nx\n".toList)
      = .ok ⟨[⟨5, Double.ofNat 1, Category.LEARNING_SUPPLIES, ⟨2024, 1, 1⟩, "x".toList⟩], 1⟩ ∧
    ¬((5 : Int) < 1) ∧
    ExpenseManager.new (some "-3\n".toList) = .ok ⟨[], -3⟩ ∧
    ¬((1 : Int) ≤ -3) := by
  decide

/-- C9 (the code keeps a record outside the enumeration): in a file whose
numeric fields all parse, the group with the category integer 7 and a valid date
is not skipped; `loadExpenses` returns `found = true` with that record, whose
category is none of the five real ones. -/
theorem load_keeps_category_outside_enumeration :
    StorageManager.loadExpenses (some "2\n1\n9.5\n7\n2024\n3\n15\nlunch\n".toList) []
      = .ok (true, [⟨1, Double.mk false 19 (-1), ⟨7⟩, ⟨2024, 3, 15⟩, "lunch".toList⟩], 2) ∧
    (Category.mk 7).isReal = false ∧
    (Date.mk 2024 3 15).isValid = true := by
  decide

namespace StrictWeakOn

theorem mono {α : Type} {comp : α → α → Bool} {l l' : List α} (h : StrictWeakOn comp l)
    (hsub : ∀ a ∈ l', a ∈ l) : StrictWeakOn comp l' :=
  ⟨fun a ha => h.irrefl a (hsub a ha),
   fun a ha b hb c hc => h.trans a (hsub a ha) b (hsub b hb) c (hsub c hc),
   fun a ha b hb c hc => h.incomp a (hsub a ha) b (hsub b hb) c (hsub c hc)⟩

theorem asymm {α : Type} {comp : α → α → Bool} {l : List α} (h : StrictWeakOn comp l)
    {a b : α} (ha : a ∈ l) (hb : b ∈ l) (hab : comp a b = true) : comp b a = false := by
  by_contra hba
  have hba' : comp b a = true := by simpa using hba
  have := h.trans a ha b hb a ha hab hba'
  rw [h.irrefl a ha] at this
  exact Bool.false_ne_true this

theorem negTrans {α : Type} {comp : α → α → Bool} {l : List α} (h : StrictWeakOn comp l)
    {a b c : α} (ha : a ∈ l) (hb : b ∈ l) (hc : c ∈ l)
    (hab : comp a b = false) (hbc : comp b c = false) : comp a c = false := by
  by_contra hac
  have hac' : comp a c = true := by simpa using hac
  cases hba : comp b a with
  | true =>
    have := h.trans b hb a ha c hc hba hac'
    rw [hbc] at this
    exact Bool.false_ne_true this
  | false =>
    cases hcb : comp c b with
    | true =>
      have := h.trans a ha c hc b hb hac' hcb
      rw [hab] at this
      exact Bool.false_ne_true this
    | false =>
      have := (h.incomp a ha b hb c hc hab hba hbc hcb).1
      rw [hac'] at this
      exact Bool.false_ne_true this.symm

theorem of_key {α β : Type} [LinearOrder β] (key : α → β) (comp : α → α → Bool) (l : List α)
    (h : ∀ a ∈ l, ∀ b ∈ l, (comp a b = true ↔ key a < key b)) : StrictWeakOn comp l := by
  have hf : ∀ a ∈ l, ∀ b ∈ l, (comp a b = false ↔ key b ≤ key a) := by
    intro a ha b hb
    rw [← not_lt, ← h a ha b hb]
    simp
  refine ⟨?_, ?_, ?_⟩
  · intro a ha
    rw [hf a ha a ha]
  · intro a ha b hb c hc hab hbc
    rw [h a ha b hb] at hab
    rw [h b hb c hc] at hbc
    rw [h a ha c hc]
    exact lt_trans hab hbc
  · intro a ha b hb c hc hab hba hbc hcb
    rw [hf a ha b hb] at hab
    rw [hf b hb a ha] at hba
    rw [hf b hb c hc] at hbc
    rw [hf c hc b hb] at hcb
    rw [hf a ha c hc, hf c hc a ha]
    exact ⟨le_trans hbc hab, le_trans hba hcb⟩

end StrictWeakOn

theorem insertAfter_perm {α : Type} (pass : α → α → Bool) (x : α) (l : List α) :
    (insertAfter pass x l).Perm (x :: l) := by
  induction l with
  | nil => exact List.Perm.refl _
  | cons y ys ih =>
    unfold insertAfter
    split
    · exact (List.Perm.cons y ih).trans (List.Perm.swap x y ys)
    · exact List.Perm.refl _

theorem insertAfter_pairwise {α : Type} (comp pass : α → α → Bool) (x : α) (l : List α)
    (hsw : StrictWeakOn comp (x :: l))
    (hp₁ : ∀ b ∈ l, pass x b = true → comp x b = false)
    (hp₂ : ∀ b ∈ l, pass x b = false → comp b x = false)
    (hl : l.Pairwise (fun a b => comp b a = false)) :
    (insertAfter pass x l).Pairwise (fun a b => comp b a = false) := by
  induction l with
  | nil => simp [insertAfter]
  | cons y ys ih =>
    unfold insertAfter
    have hy := List.pairwise_cons.mp hl
    cases hpass : pass x y with
    | true =>
      simp only [if_true]
      refine List.pairwise_cons.mpr ⟨?_, ?_⟩
      · intro z hz
        rcases List.mem_cons.mp ((insertAfter_perm pass x ys).subset hz) with rfl | hz
        · exact hp₁ y (List.mem_cons_self _ _) hpass
        · exact hy.1 z hz
      · apply ih
        · exact hsw.mono (by intro a ha; simp at ha ⊢; tauto)
        · exact fun b hb => hp₁ b (List.mem_cons_of_mem _ hb)
        · exact fun b hb => hp₂ b (List.mem_cons_of_mem _ hb)
        · exact hy.2
    | false =>
      simp only [Bool.false_eq_true, if_false]
      refine List.pairwise_cons.mpr ⟨?_, hl⟩
      intro z hz
      rcases List.mem_cons.mp hz with rfl | hz
      · exact hp₂ z (List.mem_cons_self _ _) hpass
      · have hzy : comp z y = false := hy.1 z hz
        have hyx : comp y x = false := hp₂ y (List.mem_cons_self _ _) hpass
        exact hsw.negTrans (by simp [hz]) (by simp) (by simp) hzy hyx

theorem stableSort_perm {α : Type} (comp : α → α → Bool) (l : List α) :
    (stableSort comp l).Perm l := by
  induction l with
  | nil => exact List.Perm.refl _
  | cons x xs ih => exact (insertAfter_perm _ x _).trans (List.Perm.cons x ih)

theorem unstableSort_perm {α : Type} (comp : α → α → Bool) (l : List α) :
    (unstableSort comp l).Perm l := by
  induction l with
  | nil => exact List.Perm.refl _
  | cons x xs ih => exact (insertAfter_perm _ x _).trans (List.Perm.cons x ih)

theorem stableSort_isStdSort {α : Type} : IsStdSort (@stableSort α) := by
  intro comp l hsw
  refine ⟨stableSort_perm comp l, ?_⟩
  induction l with
  | nil => simp [stableSort]
  | cons x xs ih =>
    have hsub : ∀ a ∈ x :: stableSort comp xs, a ∈ x :: xs := by
      intro a ha
      rcases List.mem_cons.mp ha with rfl | ha
      · exact List.mem_cons_self _ _
      · exact List.mem_cons_of_mem _ ((stableSort_perm comp xs).subset ha)
    apply insertAfter_pairwise comp _ x _ (hsw.mono hsub)
    · intro b hb hpass
      exact hsw.asymm (List.mem_cons_of_mem _ ((stableSort_perm comp xs).subset hb))
        (List.mem_cons_self _ _) hpass
    · intro b _ hpass
      exact hpass
    · exact ih (hsw.mono (fun a ha => List.mem_cons_of_mem _ ha))

theorem unstableSort_isStdSort {α : Type} : IsStdSort (@unstableSort α) := by
  intro comp l hsw
  refine ⟨unstableSort_perm comp l, ?_⟩
  induction l with
  | nil => simp [unstableSort]
  | cons x xs ih =>
    have hsub : ∀ a ∈ x :: unstableSort comp xs, a ∈ x :: xs := by
      intro a ha
      rcases List.mem_cons.mp ha with rfl | ha
      · exact List.mem_cons_self _ _
      · exact List.mem_cons_of_mem _ ((unstableSort_perm comp xs).subset ha)
    apply insertAfter_pairwise comp _ x _ (hsw.mono hsub)
    · intro b _ hpass
      simpa using hpass
    · intro b hb hpass
      have hxb : comp x b = true := by simpa using hpass
      exact hsw.asymm (List.mem_cons_self _ _)
        (List.mem_cons_of_mem _ ((unstableSort_perm comp xs).subset hb)) hxb
    · exact ih (hsw.mono (fun a ha => List.mem_cons_of_mem _ ha))

theorem Date.lt_iff (a b : Date) :
    a.lt b = true ↔ a.year < b.year ∨ (a.year = b.year ∧
      (a.month < b.month ∨ (a.month = b.month ∧ a.day < b.day))) := by
  unfold Date.lt
  split_ifs <;> simp <;> omega

theorem Date.lt_false_iff (a b : Date) :
    a.lt b = false ↔ ¬(a.year < b.year ∨ (a.year = b.year ∧
      (a.month < b.month ∨ (a.month = b.month ∧ a.day < b.day)))) := by
  rw [← Date.lt_iff]; simp

theorem date_strictWeakOn (l : List Expense) :
    StrictWeakOn (fun a b : Expense => a.date.lt b.date) l := by
  refine ⟨?_, ?_, ?_⟩
  · intro a _
    rw [Date.lt_false_iff]; omega
  · intro a _ b _ c _ hab hbc
    rw [Date.lt_iff] at hab hbc ⊢
    omega
  · intro a _ b _ c _ hab hba hbc hcb
    rw [Date.lt_false_iff] at hab hba hbc hcb ⊢
    rw [Date.lt_false_iff]
    omega

theorem Date.eq_of_incomparable (a b : Date) (h₁ : a.lt b = false) (h₂ : b.lt a = false) :
    a = b := by
  rw [Date.lt_false_iff] at h₁ h₂
  cases a; cases b
  simp only [Date.mk.injEq] at *
  omega

theorem Double.scaledLt_iff (a b : Int × Int) :
    Double.scaledLt a b = true ↔ (a.1 : ℚ) * (2 : ℚ) ^ a.2 < (b.1 : ℚ) * (2 : ℚ) ^ b.2 := by
  unfold Double.scaledLt
  rw [decide_eq_true_iff]
  set mn := min a.2 b.2 with hmn
  have ha : a.2 = mn + ((a.2 - mn).toNat : ℤ) := by
    have : mn ≤ a.2 := min_le_left _ _
    omega
  have hb : b.2 = mn + ((b.2 - mn).toNat : ℤ) := by
    have : mn ≤ b.2 := min_le_right _ _
    omega
  have h2 : (0 : ℚ) < (2 : ℚ) ^ mn := zpow_pos (by norm_num) _
  have hpa : (2 : ℚ) ^ a.2 = (2 : ℚ) ^ mn * (2 : ℚ) ^ (a.2 - mn).toNat := by
    conv_lhs => rw [ha]
    rw [zpow_add₀ (by norm_num), zpow_natCast]
  have hpb : (2 : ℚ) ^ b.2 = (2 : ℚ) ^ mn * (2 : ℚ) ^ (b.2 - mn).toNat := by
    conv_lhs => rw [hb]
    rw [zpow_add₀ (by norm_num), zpow_natCast]
  rw [hpa, hpb]
  have e₁ : (a.1 : ℚ) * ((2 : ℚ) ^ mn * (2 : ℚ) ^ (a.2 - mn).toNat)
      = (2 : ℚ) ^ mn * ((a.1 * 2 ^ (a.2 - mn).toNat : ℤ) : ℚ) := by
    push_cast; ring
  have e₂ : (b.1 : ℚ) * ((2 : ℚ) ^ mn * (2 : ℚ) ^ (b.2 - mn).toNat)
      = (2 : ℚ) ^ mn * ((b.1 * 2 ^ (b.2 - mn).toNat : ℤ) : ℚ) := by
    push_cast; ring
  rw [e₁, e₂, mul_lt_mul_left h2, Int.cast_lt]

theorem Double.lt_iff_rank (a b : Double) (ha : a.isNaN = false) (hb : b.isNaN = false) :
    a.lt b = true ↔ toLex a.rank < toLex b.rank := by
  rw [Prod.Lex.lt_iff]
  cases a with
  | nan _ => simp [Double.isNaN] at ha
  | inf na =>
    cases b with
    | nan _ => simp [Double.isNaN] at hb
    | inf nb => cases na <;> cases nb <;> simp [Double.lt, Double.rank]
    | finite nb mb eb => cases na <;> simp [Double.lt, Double.rank]
  | finite na ma ea =>
    cases b with
    | nan _ => simp [Double.isNaN] at hb
    | inf nb => cases nb <;> simp [Double.lt, Double.rank]
    | finite nb mb eb =>
      simp only [Double.lt, Double.rank, Double.scaledLt_iff, Double.signed]
      simp

section Sorting

open ExpenseManager

theorem amount_strictWeakOn (l : List Expense) (h : ∀ e ∈ l, e.amount.isNaN = false) :
    StrictWeakOn (fun a b : Expense => a.amount.lt b.amount) l :=
  StrictWeakOn.of_key (fun e : Expense => toLex e.amount.rank) _ l
    (fun a ha b hb => Double.lt_iff_rank a.amount b.amount (h a ha) (h b hb))

theorem Double.lt_nan_left (n : Bool) (b : Double) : Double.lt (.nan n) b = false := by
  cases b with
  | nan _ => rfl
  | inf n => cases n <;> rfl
  | finite n m e => rfl

theorem Double.lt_nan_right (n : Bool) (a : Double) : Double.lt a (.nan n) = false := by
  cases a with
  | nan _ => rfl
  | inf n => cases n <;> rfl
  | finite n m e => rfl

theorem Double.lt_irrefl (a : Double) : a.lt a = false := by
  cases h : a.isNaN with
  | true =>
    cases a with
    | nan _ => rfl
    | inf n => simp [Double.isNaN] at h
    | finite n m e => simp [Double.isNaN] at h
  | false =>
    have := (Double.lt_iff_rank a a h h).not
    simpa using this

theorem amount_strictWeakOn_of_no_ties (l : List Expense)
    (h : l.Pairwise (fun a b => a.amount.lt b.amount = true ∨ b.amount.lt a.amount = true)) :
    StrictWeakOn (fun a b : Expense => a.amount.lt b.amount) l := by
  by_cases hn : ∀ e ∈ l, e.amount.isNaN = false
  · exact amount_strictWeakOn l hn
  · push_neg at hn
    obtain ⟨e, he, hnan⟩ := hn
    have hnan' : ∃ s, e.amount = .nan s := by
      cases ha : e.amount with
      | nan s => exact ⟨s, rfl⟩
      | inf n => rw [ha] at hnan; simp [Double.isNaN] at hnan
      | finite n m x => rw [ha] at hnan; simp [Double.isNaN] at hnan
    obtain ⟨s, hnan'⟩ := hnan'
    obtain ⟨l₁, l₂, rfl⟩ := List.append_of_mem he
    rw [List.pairwise_append] at h
    obtain ⟨_, h₂, h₁₂⟩ := h
    have hl₁ : l₁ = [] := by
      cases l₁ with
      | nil => rfl
      | cons x xs =>
        have := h₁₂ x (List.mem_cons_self _ _) e (List.mem_cons_self _ _)
        rw [hnan', Double.lt_nan_left, Double.lt_nan_right] at this
        simp at this
    have hl₂ : l₂ = [] := by
      cases l₂ with
      | nil => rfl
      | cons x xs =>
        have := (List.pairwise_cons.mp h₂).1 x (List.mem_cons_self _ _)
        rw [hnan', Double.lt_nan_left, Double.lt_nan_right] at this
        simp at this
    subst hl₁ hl₂
    refine ⟨?_, ?_, ?_⟩
    · intro a _
      exact Double.lt_irrefl _
    · intro a ha b hb c _ hab
      have ha' : a = e := by simpa using ha
      have hb' : b = e := by simpa using hb
      subst ha' hb'
      rw [Double.lt_irrefl] at hab
      exact absurd hab Bool.false_ne_true
    · intro a ha b _ c hc _ _ _ _
      have ha' : a = e := by simpa using ha
      have hc' : c = e := by simpa using hc
      subst ha' hc'
      exact ⟨Double.lt_irrefl _, Double.lt_irrefl _⟩

theorem sorted_perm_unique {α : Type} (comp : α → α → Bool) (l₁ l₂ : List α)
    (hp : l₁.Perm l₂)
    (h₁ : l₁.Pairwise (fun a b => comp b a = false))
    (h₂ : l₂.Pairwise (fun a b => comp b a = false))
    (hties : ∀ a ∈ l₁, ∀ b ∈ l₁, a ≠ b → comp a b = true ∨ comp b a = true) : l₁ = l₂ := by
  apply @List.Perm.eq_of_sorted _ (fun a b => comp b a = false) _ _ _ h₁ h₂ hp
  intro a b ha hb hab hba
  by_contra hne
  rcases hties a ha b (hp.symm.subset hb) hne with h | h
  · rw [hba] at h; exact Bool.false_ne_true h
  · rw [hab] at h; exact Bool.false_ne_true h

theorem sort_sort_of_no_ties (sort : (Expense → Expense → Bool) → List Expense → List Expense)
    (hsort : IsStdSort sort) (comp : Expense → Expense → Bool) (l : List Expense)
    (hsw : StrictWeakOn comp l)
    (hties : l.Pairwise (fun a b => comp a b = true ∨ comp b a = true)) :
    sort comp (sort comp l) = sort comp l := by
  obtain ⟨hp₁, hs₁⟩ := hsort comp l hsw
  obtain ⟨hp₂, hs₂⟩ := hsort comp (sort comp l) (hsw.mono (fun a ha => hp₁.subset ha))
  apply sorted_perm_unique comp _ _ hp₂ hs₂ hs₁
  intro a ha b hb hne
  have hsymm : Symmetric (fun a b : Expense => comp a b = true ∨ comp b a = true) :=
    fun _ _ h => h.symm
  exact hties.forall hsymm (hp₁.subset (hp₂.subset ha)) (hp₁.subset (hp₂.subset hb)) hne


/-- C7 (as amended): for every implementation of `std::sort` that meets the
standard's contract and every ledger, after `sortExpensesByDate` the records are
a permutation of the records before and no record is dated before one that
precedes it (for every pair in list order, adjacent ones in particular,
`not (b.date < a.date)`); after `sortExpensesByAmount`, if no amount is a NaN,
the records are a permutation of the records before with non-decreasing amount;
neither operation changes `nextId`.  The records dated 2024-03-15 (id 1) and
2024-03-10 (id 2) become [id 2, id 1] under `sortExpensesByDate`. -/
theorem sort_postcondition (sort : (Expense → Expense → Bool) → List Expense → List Expense)
    (hsort : IsStdSort sort) (m : ExpenseManager) :
    ((sortExpensesByDate sort m).expenses.Perm m.expenses ∧
      (sortExpensesByDate sort m).expenses.Pairwise (fun a b => b.date.lt a.date = false) ∧
      (sortExpensesByDate sort m).nextId = m.nextId) ∧
    ((∀ e ∈ m.expenses, e.amount.isNaN = false) →
      (sortExpensesByAmount sort m).expenses.Perm m.expenses ∧
      (sortExpensesByAmount sort m).expenses.Pairwise
        (fun a b => a.amount.le b.amount = true)) ∧
    (sortExpensesByAmount sort m).nextId = m.nextId ∧
    (sortExpensesByDate sort
        ⟨[⟨1, Double.mk false 25 (-1), Category.FOOD, ⟨2024, 3, 15⟩, "lunch".toList⟩,
          ⟨2, Double.ofNat 5, Category.TRANSPORTATION, ⟨2024, 3, 10⟩, []⟩], 3⟩).expenses
      = [⟨2, Double.ofNat 5, Category.TRANSPORTATION, ⟨2024, 3, 10⟩, []⟩,
          ⟨1, Double.mk false 25 (-1), Category.FOOD, ⟨2024, 3, 15⟩, "lunch".toList⟩] := by
  refine ⟨?_, ?_, rfl, ?_⟩
  · obtain ⟨hp, hs⟩ := hsort (fun a b => a.date.lt b.date) m.expenses (date_strictWeakOn _)
    exact ⟨hp, hs, rfl⟩
  · intro hnan
    obtain ⟨hp, hs⟩ := hsort (fun a b => a.amount.lt b.amount) m.expenses
      (amount_strictWeakOn _ hnan)
    refine ⟨hp, hs.imp_of_mem ?_⟩
    intro a b ha hb hba
    have ha' := hnan a (hp.subset ha)
    have hb' := hnan b (hp.subset hb)
    simp only [Double.le, ha', hb', hba, Bool.not_false, Bool.and_self]
  · obtain ⟨hp, hs⟩ := hsort (fun a b => a.date.lt b.date)
      [⟨1, Double.mk false 25 (-1), Category.FOOD, ⟨2024, 3, 15⟩, "lunch".toList⟩,
        ⟨2, Double.ofNat 5, Category.TRANSPORTATION, ⟨2024, 3, 10⟩, []⟩] (date_strictWeakOn _)
    apply sorted_perm_unique (fun a b : Expense => a.date.lt b.date) _ _ _ hs
    · decide
    · intro a ha b hb hne
      have ha' := hp.subset ha
      have hb' := hp.subset hb
      simp only [List.mem_cons, List.mem_singleton, List.not_mem_nil, or_false] at ha' hb'
      rcases ha' with rfl | rfl <;> rcases hb' with rfl | rfl
      · exact absurd rfl hne
      · right; decide
      · left; decide
      · exact absurd rfl hne
    · exact hp.trans (List.Perm.swap _ _ _)

/-- Witness of C7: the stable insertion sort meets the contract of `std::sort`;
the two records of the specification's example under it. -/
theorem sort_postcondition_witness :
    IsStdSort (@stableSort Expense) ∧
    ((sortExpensesByDate stableSort
        ⟨[⟨1, Double.mk false 25 (-1), Category.FOOD, ⟨2024, 3, 15⟩, "lunch".toList⟩,
          ⟨2, Double.ofNat 5, Category.TRANSPORTATION, ⟨2024, 3, 10⟩, []⟩], 3⟩).expenses.Perm
        [⟨1, Double.mk false 25 (-1), Category.FOOD, ⟨2024, 3, 15⟩, "lunch".toList⟩,
          ⟨2, Double.ofNat 5, Category.TRANSPORTATION, ⟨2024, 3, 10⟩, []⟩] ∧
      (sortExpensesByDate stableSort
        ⟨[⟨1, Double.mk false 25 (-1), Category.FOOD, ⟨2024, 3, 15⟩, "lunch".toList⟩,
          ⟨2, Double.ofNat 5, Category.TRANSPORTATION, ⟨2024, 3, 10⟩, []⟩], 3⟩).expenses.Pairwise
        (fun a b => b.date.lt a.date = false) ∧
      (sortExpensesByDate stableSort
        ⟨[⟨1, Double.mk false 25 (-1), Category.FOOD, ⟨2024, 3, 15⟩, "lunch".toList⟩,
          ⟨2, Double.ofNat 5, Category.TRANSPORTATION, ⟨2024, 3, 10⟩, []⟩], 3⟩).nextId = 3) ∧
    (sortExpensesByAmount stableSort
        ⟨[⟨1, Double.mk false 25 (-1), Category.FOOD, ⟨2024, 3, 15⟩, "lunch".toList⟩,
          ⟨2, Double.ofNat 5, Category.TRANSPORTATION, ⟨2024, 3, 10⟩, []⟩], 3⟩).expenses.map
        (fun e => e.id) = [2, 1] :=
  ⟨stableSort_isStdSort,
   (sort_postcondition stableSort stableSort_isStdSort
      ⟨[⟨1, Double.mk false 25 (-1), Category.FOOD, ⟨2024, 3, 15⟩, "lunch".toList⟩,
        ⟨2, Double.ofNat 5, Category.TRANSPORTATION, ⟨2024, 3, 10⟩, []⟩], 3⟩).1,
   by decide⟩

/-- Counterexample to C7 as stated: a data file whose first record has the
amount `nan` loads into a ledger of two records; after `sortExpensesByAmount`
with the `std::sort` of libstdc++, and in whatever order any sort leaves the two
records, the amounts are not non-decreasing, because no comparison with the NaN
holds. -/
theorem sort_by_amount_with_nan :
    ExpenseManager.new
        (some "3\n1\nnan\n3\n2024\n3\n15\na\n2\n1\n3\n2024\n3\n16\nb\n".toList)
      = .ok ⟨[⟨1, .nan false, Category.FOOD, ⟨2024, 3, 15⟩, "a".toList⟩,
              ⟨2, Double.ofNat 1, Category.FOOD, ⟨2024, 3, 16⟩, "b".toList⟩], 3⟩ ∧
    ¬(sortExpensesByAmount gnuSort
        ⟨[⟨1, .nan false, Category.FOOD, ⟨2024, 3, 15⟩, "a".toList⟩,
          ⟨2, Double.ofNat 1, Category.FOOD, ⟨2024, 3, 16⟩, "b".toList⟩], 3⟩).expenses.Pairwise
        (fun a b => a.amount.le b.amount = true) ∧
    ∀ l : List Expense,
      l.Perm [⟨1, .nan false, Category.FOOD, ⟨2024, 3, 15⟩, "a".toList⟩,
          ⟨2, Double.ofNat 1, Category.FOOD, ⟨2024, 3, 16⟩, "b".toList⟩] →
      ¬l.Pairwise (fun a b => a.amount.le b.amount = true) := by
  refine ⟨by decide, by decide, ?_⟩
  intro l hp hs
  have hlen := hp.length_eq
  match l, hlen with
  | [x, y], _ =>
    have hxy : x.amount.le y.amount = true := by
      simpa using hs
    have hmem : (⟨1, .nan false, Category.FOOD, ⟨2024, 3, 15⟩, "a".toList⟩ : Expense) ∈ [x, y] :=
      hp.symm.subset (List.mem_cons_self _ _)
    simp only [Double.le, Bool.and_eq_true, Bool.not_eq_true'] at hxy
    simp only [List.mem_cons, List.mem_singleton, List.not_mem_nil, or_false] at hmem
    rcases hmem with rfl | rfl
    · exact absurd hxy.1.1 (by decide)
    · exact absurd hxy.1.2 (by decide)

/-- C8 (as amended): for every implementation of `std::sort` that meets the
standard's contract and every ledger, applying `sortExpensesByDate` twice yields
the same sequence of dates as applying it once, and exactly the same record
order whenever no two records have the same date; applying
`sortExpensesByAmount` twice yields exactly the same record order as once
whenever every two records are strictly ordered by their amounts. -/
theorem sort_twice (sort : (Expense → Expense → Bool) → List Expense → List Expense)
    (hsort : IsStdSort sort) (m : ExpenseManager) :
    ((sortExpensesByDate sort (sortExpensesByDate sort m)).expenses.map (fun e => e.date)
      = (sortExpensesByDate sort m).expenses.map (fun e => e.date)) ∧
    (m.expenses.Pairwise (fun a b => a.date ≠ b.date) →
      sortExpensesByDate sort (sortExpensesByDate sort m) = sortExpensesByDate sort m) ∧
    (m.expenses.Pairwise (fun a b => a.amount.lt b.amount = true ∨ b.amount.lt a.amount = true) →
      sortExpensesByAmount sort (sortExpensesByAmount sort m) = sortExpensesByAmount sort m) := by
  refine ⟨?_, ?_, ?_⟩
  · obtain ⟨hp₁, hs₁⟩ := hsort (fun a b => a.date.lt b.date) m.expenses (date_strictWeakOn _)
    obtain ⟨hp₂, hs₂⟩ := hsort (fun a b => a.date.lt b.date)
      (sort (fun a b => a.date.lt b.date) m.expenses) (date_strictWeakOn _)
    show (sort (fun a b => a.date.lt b.date)
        (sort (fun a b => a.date.lt b.date) m.expenses)).map (fun e => e.date)
      = (sort (fun a b => a.date.lt b.date) m.expenses).map (fun e => e.date)
    apply @List.Perm.eq_of_sorted _ (fun a b : Date => b.lt a = false)
    · intro a b _ _ hab hba
      exact Date.eq_of_incomparable a b hba hab
    · exact List.pairwise_map.mpr hs₂
    · exact List.pairwise_map.mpr hs₁
    · exact hp₂.map _
  · intro hties
    have h := sort_sort_of_no_ties sort hsort (fun a b => a.date.lt b.date) m.expenses
      (date_strictWeakOn _) (hties.imp (by
        intro a b hne
        by_contra hno
        push_neg at hno
        exact hne (Date.eq_of_incomparable a.date b.date
          (by simpa using hno.1) (by simpa using hno.2))))
    show ExpenseManager.mk _ _ = ExpenseManager.mk _ _
    exact congrArg (fun l => ExpenseManager.mk l m.nextId) h
  · intro hties
    have h := sort_sort_of_no_ties sort hsort (fun a b => a.amount.lt b.amount) m.expenses
      (amount_strictWeakOn_of_no_ties _ hties) hties
    show ExpenseManager.mk _ _ = ExpenseManager.mk _ _
    exact congrArg (fun l => ExpenseManager.mk l m.nextId) h

/-- Witness of C8: the stable insertion sort meets the contract; three records
with distinct dates and amounts. -/
theorem sort_twice_witness :
    IsStdSort (@stableSort Expense) ∧
    (sortExpensesByDate stableSort (sortExpensesByDate stableSort
        ⟨[⟨1, Double.ofNat 7, Category.FOOD, ⟨2024, 3, 15⟩, []⟩,
          ⟨2, Double.ofNat 5, Category.OTHER, ⟨2024, 3, 10⟩, []⟩,
          ⟨3, Double.ofNat 9, Category.FOOD, ⟨2024, 3, 12⟩, []⟩], 4⟩)).expenses.map
        (fun e => e.date)
      = (sortExpensesByDate stableSort
        ⟨[⟨1, Double.ofNat 7, Category.FOOD, ⟨2024, 3, 15⟩, []⟩,
          ⟨2, Double.ofNat 5, Category.OTHER, ⟨2024, 3, 10⟩, []⟩,
          ⟨3, Double.ofNat 9, Category.FOOD, ⟨2024, 3, 12⟩, []⟩], 4⟩).expenses.map
        (fun e => e.date) ∧
    (sortExpensesByDate stableSort
        ⟨[⟨1, Double.ofNat 7, Category.FOOD, ⟨2024, 3, 15⟩, []⟩,
          ⟨2, Double.ofNat 5, Category.OTHER, ⟨2024, 3, 10⟩, []⟩,
          ⟨3, Double.ofNat 9, Category.FOOD, ⟨2024, 3, 12⟩, []⟩], 4⟩).expenses.map
        (fun e => e.id) = [2, 3, 1] :=
  ⟨stableSort_isStdSort,
   (sort_twice stableSort stableSort_isStdSort
      ⟨[⟨1, Double.ofNat 7, Category.FOOD, ⟨2024, 3, 15⟩, []⟩,
        ⟨2, Double.ofNat 5, Category.OTHER, ⟨2024, 3, 10⟩, []⟩,
        ⟨3, Double.ofNat 9, Category.FOOD, ⟨2024, 3, 12⟩, []⟩], 4⟩).1,
   by decide⟩

/-- Counterexample to C8 as stated: seventeen records of the same date and the
same amount, ids 1 to 17.  Under the `std::sort` of libstdc++ the first
`sortExpensesByDate` leaves the ids in the order 9, 17, 16, ..., 10, 1, 8, ..., 2
and the second one in the order 10, 2, 3, ..., 8, 1, 9, 11, ..., 17; the same
under `sortExpensesByAmount`.  Also, a sort that meets the contract of
`std::sort` and reverses ties undoes on two tied records what its first call
did. -/
theorem sort_twice_reorders_ties :
    ((sortExpensesByDate gnuSort
        ⟨(List.range 17).map (fun i =>
          ⟨(i : Int) + 1, Double.ofNat 5, Category.FOOD, ⟨2024, 3, 15⟩, []⟩), 18⟩).expenses.map
        (fun e => e.id) = [9, 17, 16, 15, 14, 13, 12, 11, 10, 1, 8, 7, 6, 5, 4, 3, 2] ∧
      (sortExpensesByDate gnuSort (sortExpensesByDate gnuSort
        ⟨(List.range 17).map (fun i =>
          ⟨(i : Int) + 1, Double.ofNat 5, Category.FOOD, ⟨2024, 3, 15⟩, []⟩), 18⟩)).expenses.map
        (fun e => e.id) = [10, 2, 3, 4, 5, 6, 7, 8, 1, 9, 11, 12, 13, 14, 15, 16, 17] ∧
      (sortExpensesByAmount gnuSort (sortExpensesByAmount gnuSort
        ⟨(List.range 17).map (fun i =>
          ⟨(i : Int) + 1, Double.ofNat 5, Category.FOOD, ⟨2024, 3, 15⟩, []⟩), 18⟩)).expenses
        ≠ (sortExpensesByAmount gnuSort
        ⟨(List.range 17).map (fun i =>
          ⟨(i : Int) + 1, Double.ofNat 5, Category.FOOD, ⟨2024, 3, 15⟩, []⟩), 18⟩).expenses) ∧
    IsStdSort (@unstableSort Expense) ∧
    sortExpensesByDate unstableSort (sortExpensesByDate unstableSort
        ⟨[⟨1, Double.ofNat 5, Category.FOOD, ⟨2024, 3, 15⟩, []⟩,
          ⟨2, Double.ofNat 5, Category.OTHER, ⟨2024, 3, 15⟩, []⟩], 3⟩)
      ≠ sortExpensesByDate unstableSort
        ⟨[⟨1, Double.ofNat 5, Category.FOOD, ⟨2024, 3, 15⟩, []⟩,
          ⟨2, Double.ofNat 5, Category.OTHER, ⟨2024, 3, 15⟩, []⟩], 3⟩ ∧
    sortExpensesByAmount unstableSort (sortExpensesByAmount unstableSort
        ⟨[⟨1, Double.ofNat 5, Category.FOOD, ⟨2024, 3, 15⟩, []⟩,
          ⟨2, Double.ofNat 5, Category.OTHER, ⟨2024, 3, 15⟩, []⟩], 3⟩)
      ≠ sortExpensesByAmount unstableSort
        ⟨[⟨1, Double.ofNat 5, Category.FOOD, ⟨2024, 3, 15⟩, []⟩,
          ⟨2, Double.ofNat 5, Category.OTHER, ⟨2024, 3, 15⟩, []⟩], 3⟩ :=
  ⟨by set_option maxRecDepth 8000 in decide, unstableSort_isStdSort, by decide, by decide⟩

end Sorting

/-! ## Missing files, truncated files, dates and labels -/

namespace StorageManager

theorem groupRecord_some {g : List Text} {e : Expense} (h : groupRecord g = some e) :
    ∃ l₁ l₂ l₃ l₄ l₅ l₆ l₇, g = [l₁, l₂, l₃, l₄, l₅, l₆, l₇] ∧
      ∀ rest acc, loadLoop (l₁ :: l₂ :: l₃ :: l₄ :: l₅ :: l₆ :: l₇ :: rest) acc
        = loadLoop rest (acc ++ [e]) := by
  unfold groupRecord at h
  split at h
  · rename_i l₁ l₂ l₃ l₄ l₅ l₆ l₇
    split at h
    · rename_i id amount c y mo d h1 h2 h3 h4 h5 h6
      split at h
      · rename_i hv
        refine ⟨l₁, l₂, l₃, l₄, l₅, l₆, l₇, rfl, ?_⟩
        intro rest acc
        rw [loadLoop_full l₁ l₂ l₃ l₄ l₅ l₆ l₇ rest acc id c y mo d amount h1 h2 h3 h4 h5 h6]
        have he := Option.some.inj h
        have hne : (Category.mk c == Category.INVALID) = false := by
          have hr := hv.2
          simp only [Category.isReal, decide_eq_true_eq] at hr
          simp only [Category.INVALID, beq_eq_false_iff_ne, ne_eq, Category.mk.injEq]
          omega
        rw [hv.1, hne, ← he]
        rfl
      · cases h
    · cases h
  · cases h

theorem loadLoop_short_ok (lines : List Text) (acc : List Expense) :
    lines.length < 7 → (∀ i l, lines[i]? = some l → fieldFails i l = false) →
      (loadLoop lines acc).1 = true := by
  induction lines, acc using loadLoop.induct <;> intro h hok
  all_goals first
    | (simp [loadLoop]; done)
    | (rw [loadLoop]; simp [*]; done)
    | (exfalso; simp only [List.length_cons] at h; omega)
    | (exfalso
       have h0 := hok 0
       have h1 := hok 1
       have h2 := hok 2
       have h3 := hok 3
       have h4 := hok 4
       have h5 := hok 5
       simp_all [fieldFails, Throws.failed])

theorem loadLoop_groups (groups : List (List Text)) :
    ∀ (tail : List Text) (acc : List Expense),
      (∀ g ∈ groups, (groupRecord g).isSome = true) →
      loadLoop (groups.flatten ++ tail) acc
        = loadLoop tail (acc ++ groups.filterMap groupRecord) ∧
      (groups.filterMap groupRecord).length = groups.length := by
  induction groups with
  | nil => intro tail acc _; simp
  | cons g gs ih =>
    intro tail acc hg
    obtain ⟨e, he⟩ := Option.isSome_iff_exists.mp (hg g (List.mem_cons_self _ _))
    obtain ⟨l₁, l₂, l₃, l₄, l₅, l₆, l₇, rfl, hstep⟩ := groupRecord_some he
    obtain ⟨ih₁, ih₂⟩ := ih tail (acc ++ [e]) (fun g' hg' => hg g' (List.mem_cons_of_mem _ hg'))
    constructor
    · simp only [List.flatten_cons, List.cons_append, List.nil_append, List.append_assoc]
      rw [hstep, ih₁, List.filterMap_cons, he]
      simp
    · rw [List.filterMap_cons, he]
      simp [ih₂]

end StorageManager

/-- C14: for all integers `year`, `month`, `day`, `Date::isValid` returns true
exactly when `1900 ≤ year ≤ 2100`, `1 ≤ month ≤ 12` and `1 ≤ day ≤` the length of
that month in that year (February 29 days in a leap year and 28 otherwise; April,
June, September, November 30; the others 31). -/
theorem date_isValid_iff (year month day : Int) :
    (Date.mk year month day).isValid = true ↔
      (1900 ≤ year ∧ year ≤ 2100) ∧ (1 ≤ month ∧ month ≤ 12) ∧
        (1 ≤ day ∧ day ≤ daysInMonth year month) := by
  unfold Date.isValid daysInMonth isLeapYear
  simp only
  by_cases hy : year < 1900 ∨ year > 2100
  · rw [if_pos hy]
    simp only [Bool.false_eq_true, false_iff]
    omega
  · rw [if_neg hy]
    have hy0 : 0 ≤ year := by omega
    rw [Int.tmod_eq_emod hy0 (by norm_num), Int.tmod_eq_emod hy0 (by norm_num),
      Int.tmod_eq_emod hy0 (by norm_num)]
    by_cases hm : month < 1 ∨ month > 12
    · rw [if_pos hm]
      simp only [Bool.false_eq_true, false_iff]
      omega
    · rw [if_neg hm]
      by_cases hd : day < 1 ∨ day > 31
      · rw [if_pos hd]
        simp only [Bool.false_eq_true, false_iff]
        split_ifs <;> omega
      · rw [if_neg hd]
        split_ifs <;> simp_all <;> omega

/-- C15: `Date::operator<` is the lexicographic order on (year, month, day): it
is irreflexive and transitive, and of `a < b`, `b < a` and componentwise
equality exactly one holds. -/
theorem date_lt_strict_total_order (a b c : Date) :
    (a.lt b = true ↔ a.year < b.year ∨ (a.year = b.year ∧
      (a.month < b.month ∨ (a.month = b.month ∧ a.day < b.day)))) ∧
    a.lt a = false ∧
    (a.lt b = true → b.lt c = true → a.lt c = true) ∧
    ((a.lt b = true ∧ b.lt a = false ∧ a ≠ b) ∨ (a.lt b = false ∧ b.lt a = true ∧ a ≠ b) ∨
      (a.lt b = false ∧ b.lt a = false ∧
        (a.year = b.year ∧ a.month = b.month ∧ a.day = b.day) ∧ a = b)) := by
  have key : ∀ x y : Date, x.lt y = true ↔ x.year < y.year ∨ (x.year = y.year ∧
      (x.month < y.month ∨ (x.month = y.month ∧ x.day < y.day))) := by
    intro x y
    unfold Date.lt
    split_ifs <;> simp <;> omega
  have keyf : ∀ x y : Date, x.lt y = false ↔ ¬(x.year < y.year ∨ (x.year = y.year ∧
      (x.month < y.month ∨ (x.month = y.month ∧ x.day < y.day)))) := by
    intro x y
    rw [← key]; simp
  have hext : a = b ↔ a.year = b.year ∧ a.month = b.month ∧ a.day = b.day := by
    cases a; cases b; simp
  refine ⟨key a b, ?_, ?_, ?_⟩
  · rw [keyf]; omega
  · rw [key, key, key]; omega
  · rw [key a b, key b a, keyf a b, keyf b a, Ne, hext]
    omega


/-- C19: for each of the five real categories, `stringToCategory` returns the
category both from its label `categoryToString c` and from the decimal text of
its index (`0` for LearningSupplies up to `4` for Other); the label of `INVALID`
is none of the five labels; a string that is neither the label
`categoryToString` gives to one of the five categories nor one of `0`..`4` maps
to `INVALID`. -/
theorem category_label_round_trip (c : Category) (s : Text) (hc : c.isReal = true)
    (hs : s ∉ [categoryToString Category.LEARNING_SUPPLIES,
      categoryToString Category.DAILY_NECESSITIES, categoryToString Category.TRANSPORTATION,
      categoryToString Category.FOOD, categoryToString Category.OTHER,
      "0".toList, "1".toList, "2".toList, "3".toList, "4".toList]) :
    stringToCategory (categoryToString c) = c ∧
    stringToCategory (showInt c.val) = c ∧
    (showInt Category.LEARNING_SUPPLIES.val = "0".toList ∧
      showInt Category.DAILY_NECESSITIES.val = "1".toList ∧
      showInt Category.TRANSPORTATION.val = "2".toList ∧
      showInt Category.FOOD.val = "3".toList ∧
      showInt Category.OTHER.val = "4".toList) ∧
    categoryToString Category.INVALID ∉
      [categoryToString Category.LEARNING_SUPPLIES, categoryToString Category.DAILY_NECESSITIES,
        categoryToString Category.TRANSPORTATION, categoryToString Category.FOOD,
        categoryToString Category.OTHER] ∧
    stringToCategory s = Category.INVALID := by
  refine ⟨?_, ?_, by decide, by decide, ?_⟩
  · obtain ⟨v⟩ := c
    simp only [Category.isReal, decide_eq_true_eq] at hc
    obtain ⟨h0, h4⟩ := hc
    interval_cases v <;> decide
  · obtain ⟨v⟩ := c
    simp only [Category.isReal, decide_eq_true_eq] at hc
    obtain ⟨h0, h4⟩ := hc
    interval_cases v <;> decide
  · have e1 : categoryToString Category.LEARNING_SUPPLIES = "学习用品".toList := by decide
    have e2 : categoryToString Category.DAILY_NECESSITIES = "日用品".toList := by decide
    have e3 : categoryToString Category.TRANSPORTATION = "交通费".toList := by decide
    have e4 : categoryToString Category.FOOD = "伙食费".toList := by decide
    have e5 : categoryToString Category.OTHER = "其他".toList := by decide
    rw [e1, e2, e3, e4, e5] at hs
    simp only [List.mem_cons, List.mem_singleton, List.not_mem_nil, or_false, not_or] at hs
    obtain ⟨h1, h2, h3, h4, h5, h6, h7, h8, h9, h10⟩ := hs
    unfold stringToCategory
    rw [if_neg h1, if_neg h2, if_neg h3, if_neg h4, if_neg h5, if_neg h6, if_neg h7, if_neg h8,
      if_neg h9, if_neg h10]

/-- Witness of C19: the category Food and the string `5`. -/
theorem category_label_round_trip_witness :
    (Category.FOOD.isReal = true ∧
      "5".toList ∉ [categoryToString Category.LEARNING_SUPPLIES,
        categoryToString Category.DAILY_NECESSITIES, categoryToString Category.TRANSPORTATION,
        categoryToString Category.FOOD, categoryToString Category.OTHER,
        "0".toList, "1".toList, "2".toList, "3".toList, "4".toList]) ∧
    stringToCategory (categoryToString Category.FOOD) = Category.FOOD ∧
    stringToCategory "5".toList = Category.INVALID :=
  ⟨⟨by decide, by decide⟩,
   (category_label_round_trip Category.FOOD "5".toList (by decide) (by decide)).1,
   (category_label_round_trip Category.FOOD "5".toList (by decide) (by decide)).2.2.2.2⟩

/-- C11: if the file does not exist, is empty, or its first line makes `stoi`
throw `invalid_argument` (no number to convert), `loadExpenses` called on the
empty vector, as the constructor calls it, returns `found = false` with
`nextId = 1` and no record; for an existing file the vector is cleared whatever
it held; the service then holds the empty ledger with `nextId = 1`. -/
theorem load_missing_or_headerless (file : Option Text)
    (h : file = none ∨ file = some [] ∨
      ∃ content first rest, file = some content ∧ splitLines content = first :: rest ∧
        stoi first = .error .invalid_argument) :
    StorageManager.loadExpenses file [] = .ok (false, [], 1) ∧
    (∀ content expenses, file = some content →
      StorageManager.loadExpenses file expenses = .ok (false, [], 1)) ∧
    ExpenseManager.new file = .ok ⟨[], 1⟩ := by
  have hmain : ∀ expenses, (file = none → expenses = []) →
      StorageManager.loadExpenses file expenses = .ok (false, [], 1) := by
    intro expenses hnone
    rcases h with rfl | rfl | ⟨content, first, rest, rfl, hsplit, hfirst⟩
    · rw [hnone rfl]; rfl
    · rfl
    · simp only [StorageManager.loadExpenses, hsplit, hfirst]
  refine ⟨hmain [] (fun _ => rfl), ?_, ?_⟩
  · intro content expenses hfile
    exact hmain expenses (fun hn => by rw [hn] at hfile; cases hfile)
  · unfold ExpenseManager.new ExpenseManager.loadData
    simp only [hmain [] (fun _ => rfl)]
    rfl

/-- Witness of C11: a file whose first line is `abc`. -/
theorem load_missing_or_headerless_witness :
    ((some "abc\n".toList : Option Text) = none ∨
      (some "abc\n".toList : Option Text) = some [] ∨
      ∃ content first rest,
        (some "abc\n".toList : Option Text) = some content ∧
        splitLines content = first :: rest ∧ stoi first = .error .invalid_argument) ∧
    StorageManager.loadExpenses (some "abc\n".toList) []
      = .ok (false, [], 1) :=
  ⟨Or.inr (Or.inr ⟨"abc\n".toList, "abc".toList, [], rfl, by decide, by decide⟩),
   (load_missing_or_headerless (some "abc\n".toList)
     (Or.inr (Or.inr ⟨"abc\n".toList, "abc".toList, [], rfl, by decide, by decide⟩))).1⟩

/-- C12 (the code lets an exception escape): the first line `99999999999` makes
`std::stoi` throw `std::out_of_range`, which the `catch` around the `nextId`
conversion does not handle; the exception leaves `loadExpenses` and the
constructor.  The same text in a record field is caught by the loop's handler. -/
theorem load_header_out_of_range_escapes :
    stoi "99999999999".toList = .error .out_of_range ∧
    StorageManager.loadExpenses (some "99999999999\n".toList) [] = .error .out_of_range ∧
    ExpenseManager.new (some "99999999999\n".toList) = .error .out_of_range ∧
    StorageManager.loadExpenses (some "2\n99999999999\n".toList) [] = .ok (false, [], 2) := by
  decide

/-- C20: there is a ledger whose records have non-negative amounts, real
categories and valid dates, one of them with a line break in its remarks, for
which `loadExpenses` of what `saveExpenses` wrote does not return the ledger. -/
theorem newline_in_remarks_breaks_round_trip :
    ∃ (nextId : Int) (records : List Expense) (written : Text),
      (∀ e ∈ records, Double.le (Double.ofNat 0) e.amount = true ∧ e.category.isReal = true ∧
        e.date.isValid = true) ∧
      (∃ e ∈ records, '\n' ∈ e.remarks) ∧
      StorageManager.saveExpenses true records nextId = (true, some written) ∧
      StorageManager.loadExpenses (some written) [] ≠ .ok (true, records, nextId) := by
  refine ⟨2, [⟨1, Double.ofNat 5, Category.FOOD, ⟨2024, 3, 15⟩, "a\nb".toList⟩],
    "2\n1\n5\n3\n2024\n3\n15\na\nb\n".toList, by decide, by decide, by decide, by decide⟩

/-- C13: for every file made of a first line that parses as `n`, then `k`
complete valid groups of seven lines, then a last group of one to six lines
whose numeric fields parse, `loadExpenses` returns `found = true`, `nextId = n`
and exactly the `k` records of the complete groups, in order. -/
theorem load_truncated_trailing_group (content first : Text) (n : Int)
    (groups : List (List Text)) (tail : List Text) (expenses : List Expense)
    (hsplit : splitLines content = first :: (groups.flatten ++ tail))
    (hfirst : stoi first = .ok n)
    (hgroups : ∀ g ∈ groups, (groupRecord g).isSome = true)
    (hlen : 1 ≤ tail.length ∧ tail.length ≤ 6)
    (htail : ∀ i l, tail[i]? = some l → fieldFails i l = false) :
    StorageManager.loadExpenses (some content) expenses
      = .ok (true, groups.filterMap groupRecord, n) ∧
    (groups.filterMap groupRecord).length = groups.length ∧
    (groups.filterMap groupRecord).map some = groups.map groupRecord := by
  obtain ⟨h₁, h₂⟩ := StorageManager.loadLoop_groups groups tail [] hgroups
  have hshort : tail.length < 7 := by omega
  have h₃ := StorageManager.loadLoop_short tail ([] ++ groups.filterMap groupRecord) hshort
  have h₄ := StorageManager.loadLoop_short_ok tail ([] ++ groups.filterMap groupRecord) hshort htail
  refine ⟨?_, h₂, ?_⟩
  · rw [StorageManager.loadExpenses_some content first _ n expenses hsplit hfirst, h₁, h₃, h₄]
    simp
  · clear h₁ h₂ h₃ h₄ hsplit
    induction groups with
    | nil => rfl
    | cons g gs ih =>
      obtain ⟨e, he⟩ := Option.isSome_iff_exists.mp (hgroups g (List.mem_cons_self _ _))
      rw [List.filterMap_cons, he, List.map_cons, List.map_cons, he,
        ih (fun g' hg' => hgroups g' (List.mem_cons_of_mem _ hg'))]

/-- Witness of C13: one complete group followed by four lines of a second one. -/
theorem load_truncated_trailing_group_witness :
    (splitLines "3\n1\n9.5\n3\n2024\n3\n15\nlunch\n2\n4\n1\n2024\n".toList
        = "3".toList :: ([["1".toList, "9.5".toList, "3".toList, "2024".toList, "3".toList,
            "15".toList, "lunch".toList]].flatten
          ++ ["2".toList, "4".toList, "1".toList, "2024".toList]) ∧
      stoi "3".toList = .ok 3 ∧
      (∀ g ∈ [["1".toList, "9.5".toList, "3".toList, "2024".toList, "3".toList, "15".toList,
          "lunch".toList]], (groupRecord g).isSome = true) ∧
      (1 ≤ ["2".toList, "4".toList, "1".toList, "2024".toList].length ∧
        ["2".toList, "4".toList, "1".toList, "2024".toList].length ≤ 6) ∧
      ∀ i l, ["2".toList, "4".toList, "1".toList, "2024".toList][i]? = some l →
        fieldFails i l = false) ∧
    StorageManager.loadExpenses
        (some "3\n1\n9.5\n3\n2024\n3\n15\nlunch\n2\n4\n1\n2024\n".toList) []
      = .ok (true,
          [⟨1, Double.mk false 19 (-1), Category.FOOD, ⟨2024, 3, 15⟩, "lunch".toList⟩], 3) := by
  have hs : splitLines "3\n1\n9.5\n3\n2024\n3\n15\nlunch\n2\n4\n1\n2024\n".toList
        = "3".toList :: ([["1".toList, "9.5".toList, "3".toList, "2024".toList, "3".toList,
            "15".toList, "lunch".toList]].flatten
          ++ ["2".toList, "4".toList, "1".toList, "2024".toList]) := by decide
  have hg : ∀ g ∈ [["1".toList, "9.5".toList, "3".toList, "2024".toList, "3".toList,
      "15".toList, "lunch".toList]], (groupRecord g).isSome = true := by decide
  have ht : ∀ i l, ["2".toList, "4".toList, "1".toList, "2024".toList][i]? = some l →
      fieldFails i l = false := by
    intro i l hl
    rcases i with _ | _ | _ | _ | i
    all_goals simp at hl
    all_goals subst hl
    all_goals decide
  exact ⟨⟨hs, by decide, hg, by decide, ht⟩,
    (load_truncated_trailing_group _ _ 3 _ _ [] hs (by decide) hg (by decide) ht).1⟩

/-! ## Statistics -/

/-! ### Entries of a `std::map` -/

theorem Category.ext_val {a b : Category} (h : a.val = b.val) : a = b := by
  cases a; cases b; simp at h; simp [h]

theorem mapModify_keys {V : Type} (init : V) (f : V → V) (key : Category) :
    ∀ (m : List (Category × V)) (p : Category × V), p ∈ mapModify init f key m →
      p.1 = key ∨ ∃ q ∈ m, q.1 = p.1 := by
  intro m
  induction m with
  | nil =>
    intro p hp
    simp [mapModify] at hp
    left; rw [hp]
  | cons kv rest ih =>
    obtain ⟨k, v⟩ := kv
    intro p hp
    unfold mapModify at hp
    split_ifs at hp with h1 h2
    · rcases List.mem_cons.mp hp with rfl | hp
      · left; rfl
      · right; exact ⟨p, hp, rfl⟩
    · rcases List.mem_cons.mp hp with rfl | hp
      · left; exact (Category.ext_val h2).symm
      · right; exact ⟨p, List.mem_cons_of_mem _ hp, rfl⟩
    · rcases List.mem_cons.mp hp with rfl | hp
      · right; exact ⟨(k, v), List.mem_cons_self _ _, rfl⟩
      · rcases ih p hp with h | ⟨q, hq, hqp⟩
        · left; exact h
        · right; exact ⟨q, List.mem_cons_of_mem _ hq, hqp⟩

theorem mapModify_sorted {V : Type} (init : V) (f : V → V) (key : Category) :
    ∀ m : List (Category × V), m.Pairwise (fun a b => a.1.val < b.1.val) →
      (mapModify init f key m).Pairwise (fun a b => a.1.val < b.1.val) := by
  intro m
  induction m with
  | nil => intro _; simp [mapModify]
  | cons kv rest ih =>
    obtain ⟨k, v⟩ := kv
    intro hs
    rw [List.pairwise_cons] at hs
    unfold mapModify
    split_ifs with h1 h2
    · rw [List.pairwise_cons]
      refine ⟨?_, List.pairwise_cons.mpr hs⟩
      intro p hp
      rcases List.mem_cons.mp hp with rfl | hp
      · exact h1
      · exact lt_trans h1 (hs.1 p hp)
    · rw [List.pairwise_cons]
      exact ⟨hs.1, hs.2⟩
    · rw [List.pairwise_cons]
      refine ⟨?_, ih hs.2⟩
      intro p hp
      rcases mapModify_keys init f key rest p hp with h | ⟨q, hq, hqp⟩
      · rw [h]
        show k.val < key.val
        omega
      · rw [← hqp]; exact hs.1 q hq

theorem mapModify_mem {V : Type} (init : V) (f : V → V) (key : Category) :
    ∀ m : List (Category × V), m.Pairwise (fun a b => a.1.val < b.1.val) →
      ∀ (c : Category) (v : V), (c, v) ∈ mapModify init f key m ↔
        (c ≠ key ∧ (c, v) ∈ m) ∨
        (c = key ∧ ∃ v0, v = f v0 ∧ ((key, v0) ∈ m ∨ ((∀ w, (key, w) ∉ m) ∧ v0 = init))) := by
  intro m
  induction m with
  | nil =>
    intro _ c v
    constructor
    · intro hp
      have hp2 : (c, v) = (key, f init) := by simpa [mapModify] using hp
      exact Or.inr ⟨congrArg Prod.fst hp2, init, congrArg Prod.snd hp2,
        Or.inr ⟨fun w hw => by simp at hw, rfl⟩⟩
    · rintro (⟨_, hp⟩ | ⟨hc, v0, hv, h | ⟨_, hv0⟩⟩)
      · simp at hp
      · simp at h
      · rw [hc, hv, hv0]; simp [mapModify]
  | cons kv rest ih =>
    obtain ⟨k, v1⟩ := kv
    intro hs c v
    rw [List.pairwise_cons] at hs
    have hk_notin : ∀ w, (k, w) ∉ rest := by
      intro w hw
      have := hs.1 _ hw
      simp at this
    unfold mapModify
    split_ifs with h1 h2
    · -- the key is below every key of the map
      have habs : ∀ w, (key, w) ∉ (k, v1) :: rest := by
        intro w hw
        rcases List.mem_cons.mp hw with hw | hw
        · have : key = k := congrArg Prod.fst hw
          rw [this] at h1; omega
        · have := hs.1 _ hw
          simp at this; omega
      constructor
      · intro hp
        rcases List.mem_cons.mp hp with hp2 | hp2
        · have hc : c = key := congrArg Prod.fst hp2
          have hv : v = f init := congrArg Prod.snd hp2
          exact Or.inr ⟨hc, init, hv, Or.inr ⟨habs, rfl⟩⟩
        · left
          refine ⟨?_, hp2⟩
          intro hc
          rw [hc] at hp2
          exact habs v hp2
      · rintro (⟨_, hp⟩ | ⟨hc, v0, hv, h | ⟨_, hv0⟩⟩)
        · exact List.mem_cons_of_mem _ hp
        · exact absurd h (habs v0)
        · rw [hc, hv, hv0]; exact List.mem_cons_self _ _
    · -- the key is the first key of the map
      have hkey : key = k := Category.ext_val h2
      subst hkey
      constructor
      · intro hp
        rcases List.mem_cons.mp hp with hp2 | hp2
        · have hc : c = key := congrArg Prod.fst hp2
          have hv : v = f v1 := congrArg Prod.snd hp2
          exact Or.inr ⟨hc, v1, hv, Or.inl (List.mem_cons_self _ _)⟩
        · left
          refine ⟨?_, List.mem_cons_of_mem _ hp2⟩
          intro hc
          rw [hc] at hp2
          exact hk_notin v hp2
      · rintro (⟨hne, hp⟩ | ⟨hc, v0, hv, h | ⟨h, _⟩⟩)
        · rcases List.mem_cons.mp hp with hp2 | hp2
          · exact absurd (congrArg Prod.fst hp2) hne
          · exact List.mem_cons_of_mem _ hp2
        · rcases List.mem_cons.mp h with h2 | h2
          · have : v0 = v1 := congrArg Prod.snd h2
            rw [hc, hv, this]; exact List.mem_cons_self _ _
          · exact absurd h2 (hk_notin v0)
        · exact absurd (List.mem_cons_self _ _) (h v1)
    · -- the key is above the first key of the map
      have hne : key ≠ k := by
        intro hk; exact h2 (by rw [hk])
      rw [List.mem_cons, ih hs.2 c v]
      constructor
      · rintro (hp | ⟨hc, hp⟩ | ⟨hc, v0, hv, h | ⟨h, hv0⟩⟩)
        · have hc : c = k := congrArg Prod.fst hp
          left
          refine ⟨by rw [hc]; exact fun h => hne h.symm, ?_⟩
          rw [hp]; exact List.mem_cons_self _ _
        · exact Or.inl ⟨hc, List.mem_cons_of_mem _ hp⟩
        · exact Or.inr ⟨hc, v0, hv, Or.inl (List.mem_cons_of_mem _ h)⟩
        · refine Or.inr ⟨hc, v0, hv, Or.inr ⟨?_, hv0⟩⟩
          intro w hw
          rcases List.mem_cons.mp hw with hw | hw
          · exact hne (congrArg Prod.fst hw)
          · exact h w hw
      · rintro (⟨hc, hp⟩ | ⟨hc, v0, hv, h | ⟨h, hv0⟩⟩)
        · rcases List.mem_cons.mp hp with hp2 | hp2
          · exact Or.inl hp2
          · exact Or.inr (Or.inl ⟨hc, hp2⟩)
        · rcases List.mem_cons.mp h with h3 | h3
          · exact absurd (congrArg Prod.fst h3) hne
          · exact Or.inr (Or.inr ⟨hc, v0, hv, Or.inl h3⟩)
        · exact Or.inr (Or.inr ⟨hc, v0, hv,
            Or.inr ⟨fun w hw => h w (List.mem_cons_of_mem _ hw), hv0⟩⟩)

theorem mapModify_sum {V R : Type} [AddCommGroup R] (g : V → R) (init : V) (hg : g init = 0)
    (f : V → V) (key : Category) (cur : V) :
    ∀ m : List (Category × V), m.Pairwise (fun a b => a.1.val < b.1.val) →
      (∀ v, (key, v) ∈ m → v = cur) → ((∀ v, (key, v) ∉ m) → cur = init) →
      ((mapModify init f key m).map (fun p => g p.2)).sum
        = (m.map (fun p => g p.2)).sum + g (f cur) - g cur := by
  intro m
  induction m with
  | nil =>
    intro _ _ habs
    have : cur = init := habs (by simp)
    simp [mapModify, this, hg]
  | cons kv rest ih =>
    obtain ⟨k, v1⟩ := kv
    intro hs hcur habs
    rw [List.pairwise_cons] at hs
    unfold mapModify
    split_ifs with h1 h2
    · have hnone : ∀ w, (key, w) ∉ (k, v1) :: rest := by
        intro w hw
        rcases List.mem_cons.mp hw with hw | hw
        · have : key = k := congrArg Prod.fst hw
          rw [this] at h1; omega
        · have := hs.1 _ hw
          simp at this; omega
      have hc : cur = init := habs hnone
      simp only [List.map_cons, List.sum_cons, hc, hg]
      abel
    · have hkey : key = k := Category.ext_val h2
      subst hkey
      have hc : v1 = cur := hcur v1 (List.mem_cons_self _ _)
      simp only [List.map_cons, List.sum_cons, hc]
      abel
    · have hne : key ≠ k := by
        rintro rfl; exact h2 rfl
      have := ih hs.2 (fun v hv => hcur v (List.mem_cons_of_mem _ hv))
        (fun h => habs (fun w hw => by
          rcases List.mem_cons.mp hw with hw | hw
          · exact hne (congrArg Prod.fst hw)
          · exact h w hw))
      simp only [List.map_cons, List.sum_cons, this]
      abel

/-! ### The first loop of `showStatistics` -/

namespace ExpenseManager

theorem sumLoop_append (l : List Expense) (e : Expense) :
    sumLoop (l ++ [e]) =
      ((sumLoop l).1.add e.amount,
       mapModify Double.zero (fun v => v.add e.amount) e.category (sumLoop l).2.1,
       mapModify 0 (fun v => wrapInt (v + 1)) e.category (sumLoop l).2.2) := by
  simp [sumLoop, List.foldl_append]

theorem sumLoop_total (l : List Expense) :
    (sumLoop l).1 = (l.map (fun e => e.amount)).foldl Double.add Double.zero := by
  induction l using List.reverseRecOn with
  | nil => rfl
  | append_singleton l e ih =>
    rw [sumLoop_append, List.map_append, List.foldl_append, ← ih]
    rfl

end ExpenseManager

theorem categoryAmounts_append (c : Category) (l : List Expense) (e : Expense) :
    categoryAmounts c (l ++ [e]) =
      if e.category = c then categoryAmounts c l ++ [e.amount] else categoryAmounts c l := by
  unfold categoryAmounts
  rw [List.filter_append]
  by_cases h : e.category = c
  · simp [h]
  · simp [h]

theorem categorySum_append (c : Category) (l : List Expense) (e : Expense) :
    categorySum c (l ++ [e]) =
      if e.category = c then (categorySum c l).add e.amount else categorySum c l := by
  unfold categorySum
  rw [categoryAmounts_append]
  by_cases h : e.category = c
  · simp [h, List.foldl_append]
  · simp [h]

theorem categoryAmounts_absent (c : Category) (l : List Expense)
    (h : ∀ e ∈ l, e.category ≠ c) : categoryAmounts c l = [] := by
  unfold categoryAmounts
  rw [List.map_eq_nil_iff, List.filter_eq_nil_iff]
  intro e he
  simpa using h e he

theorem categorySum_absent (c : Category) (l : List Expense)
    (h : ∀ e ∈ l, e.category ≠ c) : categorySum c l = Double.zero := by
  unfold categorySum
  rw [categoryAmounts_absent c l h]
  rfl

namespace ExpenseManager

theorem sumLoop_sums (l : List Expense) :
    (sumLoop l).2.1.Pairwise (fun a b => a.1.val < b.1.val) ∧
    ∀ c v, (c, v) ∈ (sumLoop l).2.1 ↔ (∃ e ∈ l, e.category = c) ∧ v = categorySum c l := by
  induction l using List.reverseRecOn with
  | nil =>
    refine ⟨by simp [sumLoop], ?_⟩
    intro c v
    simp [sumLoop]
  | append_singleton l e ih =>
    obtain ⟨hs, hm⟩ := ih
    rw [sumLoop_append]
    refine ⟨mapModify_sorted _ _ _ _ hs, ?_⟩
    intro c v
    show (c, v) ∈ mapModify Double.zero (fun v => v.add e.amount) e.category (sumLoop l).2.1 ↔ _
    rw [mapModify_mem _ _ _ _ hs, categorySum_append]
    constructor
    · rintro (⟨hc, hp⟩ | ⟨hc, v0, hv, h | ⟨h, hv0⟩⟩)
      · have := (hm c v).mp hp
        obtain ⟨⟨e2, he2, hce⟩, hv⟩ := this
        refine ⟨⟨e2, List.mem_append_left _ he2, hce⟩, ?_⟩
        rw [if_neg (fun h => hc h.symm)]
        exact hv
      · refine ⟨⟨e, by simp, hc.symm⟩, ?_⟩
        rw [if_pos hc.symm, hv, hc]
        have := ((hm e.category v0).mp h).2
        rw [this]
      · refine ⟨⟨e, by simp, hc.symm⟩, ?_⟩
        rw [if_pos hc.symm, hv, hv0, hc]
        have habs : ∀ e2 ∈ l, e2.category ≠ e.category := by
          intro e2 he2 hcat
          exact h (categorySum e.category l) ((hm _ _).mpr ⟨⟨e2, he2, hcat⟩, rfl⟩)
        rw [categorySum_absent _ _ habs]
    · rintro ⟨⟨e2, he2, hce⟩, hv⟩
      by_cases hc : c = e.category
      · right
        rw [if_pos hc.symm] at hv
        refine ⟨hc, categorySum c l, hv, ?_⟩
        by_cases hocc : ∃ e3 ∈ l, e3.category = e.category
        · left
          rw [hm]
          exact ⟨hocc, by rw [hc]⟩
        · right
          push_neg at hocc
          refine ⟨?_, by rw [hc]; exact categorySum_absent _ _ hocc⟩
          intro w hw
          obtain ⟨⟨e3, he3, hcat⟩, _⟩ := (hm _ _).mp hw
          exact hocc e3 he3 hcat
      · left
        rw [if_neg (fun h => hc h.symm)] at hv
        refine ⟨hc, (hm c v).mpr ⟨?_, hv⟩⟩
        rcases List.mem_append.mp he2 with he2 | he2
        · exact ⟨e2, he2, hce⟩
        · simp at he2
          rw [he2] at hce
          exact absurd hce.symm hc

theorem sumLoop_counts (l : List Expense) (hlen : (l.length : Int) ≤ INT_MAX) :
    (sumLoop l).2.2.Pairwise (fun a b => a.1.val < b.1.val) ∧
    (∀ c v, (c, v) ∈ (sumLoop l).2.2 ↔
      (∃ e ∈ l, e.category = c) ∧
        v = ((l.filter (fun e => decide (e.category = c))).length : Int)) ∧
    ((sumLoop l).2.2.map (fun p => p.2)).sum = (l.length : Int) := by
  induction l using List.reverseRecOn with
  | nil =>
    refine ⟨by simp [sumLoop], ?_, by simp [sumLoop]⟩
    intro c v
    simp [sumLoop]
  | append_singleton l e ih =>
    have hlen2 : (l.length : Int) + 1 ≤ INT_MAX := by
      simpa using hlen
    obtain ⟨hs, hm, hsum⟩ := ih (by omega)
    have hcnt : ∀ c : Category,
        ((l.filter (fun e => decide (e.category = c))).length : Int) ≤ (l.length : Int) := by
      intro c
      exact_mod_cast List.length_filter_le _ l
    have hwrap : ∀ c : Category,
        wrapInt (((l.filter (fun e => decide (e.category = c))).length : Int) + 1)
          = ((l.filter (fun e => decide (e.category = c))).length : Int) + 1 := by
      intro c
      apply wrapInt_of_range
      · unfold INT_MIN; omega
      · have := hcnt c; omega
    have hfilter : ∀ c : Category,
        (((l ++ [e]).filter (fun e => decide (e.category = c))).length : Int)
          = if e.category = c
            then ((l.filter (fun e => decide (e.category = c))).length : Int) + 1
            else ((l.filter (fun e => decide (e.category = c))).length : Int) := by
      intro c
      rw [List.filter_append]
      by_cases h : e.category = c
      · simp [h]
      · simp [h]
    have habs0 : (∀ e2 ∈ l, e2.category ≠ e.category) →
        ((l.filter (fun e2 => decide (e2.category = e.category))).length : Int) = 0 := by
      intro h
      have : l.filter (fun e2 => decide (e2.category = e.category)) = [] := by
        rw [List.filter_eq_nil_iff]
        intro e2 he2
        simpa using h e2 he2
      rw [this]; rfl
    rw [sumLoop_append]
    refine ⟨mapModify_sorted _ _ _ _ hs, ?_, ?_⟩
    · intro c v
      show (c, v) ∈ mapModify 0 (fun v => wrapInt (v + 1)) e.category (sumLoop l).2.2 ↔ _
      rw [mapModify_mem _ _ _ _ hs, hfilter]
      constructor
      · rintro (⟨hc, hp⟩ | ⟨hc, v0, hv, h | ⟨h, hv0⟩⟩)
        · obtain ⟨⟨e2, he2, hce⟩, hv⟩ := (hm c v).mp hp
          refine ⟨⟨e2, List.mem_append_left _ he2, hce⟩, ?_⟩
          rw [if_neg (fun h => hc h.symm)]
          exact hv
        · refine ⟨⟨e, by simp, hc.symm⟩, ?_⟩
          rw [if_pos hc.symm, hv, hc, ((hm e.category v0).mp h).2]
          exact hwrap _
        · refine ⟨⟨e, by simp, hc.symm⟩, ?_⟩
          have habs : ∀ e2 ∈ l, e2.category ≠ e.category := by
            intro e2 he2 hcat
            exact h _ ((hm _ _).mpr ⟨⟨e2, he2, hcat⟩, rfl⟩)
          rw [if_pos hc.symm, hv, hv0, hc, habs0 habs]
          rfl
      · rintro ⟨⟨e2, he2, hce⟩, hv⟩
        by_cases hc : c = e.category
        · right
          rw [if_pos hc.symm] at hv
          refine ⟨hc, ((l.filter (fun e => decide (e.category = c))).length : Int),
            by rw [hv, hwrap], ?_⟩
          by_cases hocc : ∃ e3 ∈ l, e3.category = e.category
          · left
            rw [hm]
            exact ⟨hocc, by rw [hc]⟩
          · right
            push_neg at hocc
            refine ⟨?_, by rw [hc]; exact habs0 hocc⟩
            intro w hw
            obtain ⟨⟨e3, he3, hcat⟩, _⟩ := (hm _ _).mp hw
            exact hocc e3 he3 hcat
        · left
          rw [if_neg (fun h => hc h.symm)] at hv
          refine ⟨hc, (hm c v).mpr ⟨?_, hv⟩⟩
          rcases List.mem_append.mp he2 with he2 | he2
          · exact ⟨e2, he2, hce⟩
          · simp at he2
            rw [he2] at hce
            exact absurd hce.symm hc
    · show ((mapModify 0 (fun v => wrapInt (v + 1)) e.category (sumLoop l).2.2).map
        (fun p => p.2)).sum = _
      rw [mapModify_sum (fun v : Int => v) 0 rfl (fun v => wrapInt (v + 1)) e.category
        ((l.filter (fun e2 => decide (e2.category = e.category))).length : Int)
        (sumLoop l).2.2 hs
        (fun v hv => ((hm _ _).mp hv).2)
        (fun h => habs0 (fun e2 he2 hcat => h _ ((hm _ _).mpr ⟨⟨e2, he2, hcat⟩, rfl⟩)))]
      rw [hsum, hwrap, List.length_append, List.length_singleton]
      push_cast
      ring

end ExpenseManager

/-! ### Sums of amounts that are not negative, sums that do not round -/

namespace Double

theorem toRat_zero : Double.zero.toRat = 0 := by
  simp [Double.toRat, Double.rank, Double.zero, Double.signed]

theorem zero_le_finite (n : Bool) (m : Nat) (e : Int) :
    Double.zero.le (.finite n m e) = true ↔ 0 ≤ (signed n m e).1 := by
  simp only [Double.le, Double.lt, Double.isNaN, Double.zero, Double.scaledLt, Double.signed]
  simp only [Bool.not_false, Bool.true_and, Bool.not_eq_true', decide_eq_false_iff_not, not_lt]
  have h0 : (if false = true then -((0 : Nat) : Int) else ((0 : Nat) : Int))
      * 2 ^ (0 - min e 0).toNat = 0 := by simp
  rw [h0]
  constructor
  · intro h
    by_contra hneg
    have hpos : (0 : Int) < 2 ^ (e - min e 0).toNat := by positivity
    have := mul_neg_of_neg_of_pos (not_le.mp hneg) hpos
    omega
  · intro h
    exact mul_nonneg h (by positivity)

theorem zero_le_mk (m : Nat) (e : Int) : Double.zero.le (mk false m e) = true := by
  unfold mk
  split_ifs
  · rw [zero_le_finite]; simp [signed]
  · rw [zero_le_finite]; simp [signed]

theorem zero_le_roundDyadic (n : Nat) (e : Int) :
    Double.zero.le (roundDyadic false n e) = true := by
  unfold roundDyadic
  simp only
  split_ifs
  · rfl
  · exact zero_le_mk _ _
  · rfl
  · exact zero_le_mk _ _

theorem add_nonneg {a b : Double} (ha : Double.zero.le a = true) (hb : Double.zero.le b = true) :
    Double.zero.le (a.add b) = true := by
  cases a with
  | nan _ => simp [Double.le, Double.isNaN] at ha
  | inf na =>
    cases na with
    | true => exact absurd ha (by decide)
    | false =>
      cases b with
      | nan _ => simp [Double.le, Double.isNaN] at hb
      | inf nb =>
        cases nb with
        | true => exact absurd hb (by decide)
        | false => rfl
      | finite n m e => rfl
  | finite n₁ m₁ e₁ =>
    cases b with
    | nan _ => simp [Double.le, Double.isNaN] at hb
    | inf nb =>
      cases nb with
      | true => exact absurd hb (by decide)
      | false => rfl
    | finite n₂ m₂ e₂ =>
      rw [zero_le_finite] at ha hb
      simp only [Double.add]
      have h1 : (0 : Int) ≤ (signed n₁ m₁ e₁).1 * 2 ^ (e₁ - min e₁ e₂).toNat :=
        mul_nonneg ha (by positivity)
      have h2 : (0 : Int) ≤ (signed n₂ m₂ e₂).1 * 2 ^ (e₂ - min e₁ e₂).toNat :=
        mul_nonneg hb (by positivity)
      split_ifs with hz
      · rw [zero_le_finite]; simp [signed]
      · have : decide ((signed n₁ m₁ e₁).1 * 2 ^ (e₁ - min e₁ e₂).toNat
            + (signed n₂ m₂ e₂).1 * 2 ^ (e₂ - min e₁ e₂).toNat < 0) = false := by
          rw [decide_eq_false_iff_not]; omega
        rw [this]
        exact zero_le_roundDyadic _ _

theorem foldl_add_nonneg (xs : List Double) :
    ∀ acc : Double, Double.zero.le acc = true → (∀ x ∈ xs, Double.zero.le x = true) →
      Double.zero.le (xs.foldl Double.add acc) = true := by
  induction xs with
  | nil => intro acc h _; exact h
  | cons x xs ih =>
    intro acc h hx
    rw [List.foldl_cons]
    exact ih _ (add_nonneg h (hx x (List.mem_cons_self _ _)))
      (fun y hy => hx y (List.mem_cons_of_mem _ hy))

theorem isNaN_of_zero_le {a : Double} (h : Double.zero.le a = true) : a.isNaN = false := by
  cases a with
  | nan _ => simp [Double.le, Double.isNaN] at h
  | inf n => rfl
  | finite n m e => rfl

end Double

theorem categorySum_nonneg (c : Category) (l : List Expense)
    (h : ∀ e ∈ l, Double.zero.le e.amount = true) : Double.zero.le (categorySum c l) = true := by
  unfold categorySum categoryAmounts
  apply Double.foldl_add_nonneg _ _ (by decide)
  intro x hx
  rw [List.mem_map] at hx
  obtain ⟨e, he, rfl⟩ := hx
  exact h e (List.mem_filter.mp he).1

theorem ExactFrom_append (xs ys : List Double) :
    ∀ acc : Double, ExactFrom acc (xs ++ ys) ↔
      ExactFrom acc xs ∧ ExactFrom (xs.foldl Double.add acc) ys := by
  induction xs with
  | nil => intro acc; simp [ExactFrom]
  | cons x xs ih =>
    intro acc
    show ExactFrom acc (x :: (xs ++ ys)) ↔ _
    simp only [ExactFrom, List.foldl_cons, ih]
    tauto

namespace ExpenseManager

theorem sumLoop_exact (l : List Expense) :
    ExactFrom Double.zero (l.map (fun e => e.amount)) →
    (∀ c, ExactFrom Double.zero (categoryAmounts c l)) →
    ((sumLoop l).2.1.map (fun p => p.2.toRat)).sum = (l.map (fun e => e.amount.toRat)).sum ∧
    (sumLoop l).1.toRat = (l.map (fun e => e.amount.toRat)).sum := by
  induction l using List.reverseRecOn with
  | nil =>
    intro _ _
    simp [sumLoop, Double.toRat_zero]
  | append_singleton l e ih =>
    intro htot hcat
    rw [List.map_append, ExactFrom_append] at htot
    have hcat2 : ∀ c, ExactFrom Double.zero (categoryAmounts c l) := by
      intro c
      have := hcat c
      rw [categoryAmounts_append] at this
      by_cases h : e.category = c
      · rw [if_pos h, ExactFrom_append] at this
        exact this.1
      · rw [if_neg h] at this
        exact this
    obtain ⟨ih1, ih2⟩ := ih htot.1 hcat2
    have hstep : ((sumLoop l).1.add e.amount).toRat = (sumLoop l).1.toRat + e.amount.toRat := by
      have := htot.2
      rw [← sumLoop_total] at this
      exact this.2.1
    have hk : ((categorySum e.category l).add e.amount).toRat
        = (categorySum e.category l).toRat + e.amount.toRat := by
      have := hcat e.category
      rw [categoryAmounts_append, if_pos rfl, ExactFrom_append] at this
      exact this.2.2.1
    obtain ⟨hs, hm⟩ := sumLoop_sums l
    rw [sumLoop_append]
    constructor
    · show ((mapModify Double.zero (fun v => v.add e.amount) e.category (sumLoop l).2.1).map
        (fun p => p.2.toRat)).sum = _
      rw [mapModify_sum (fun v : Double => v.toRat) Double.zero Double.toRat_zero
        (fun v => v.add e.amount) e.category (categorySum e.category l) (sumLoop l).2.1 hs
        (fun v hv => ((hm _ _).mp hv).2)
        (fun h => categorySum_absent _ _
          (fun e2 he2 hcat => h _ ((hm _ _).mpr ⟨⟨e2, he2, hcat⟩, rfl⟩)))]
      rw [ih1, hk]
      simp only [List.map_append, List.sum_append, List.map_cons, List.map_nil, List.sum_cons,
        List.sum_nil]
      ring
    · show ((sumLoop l).1.add e.amount).toRat = _
      rw [hstep, ih2]
      simp

end ExpenseManager

theorem showStatistics_some {m : ExpenseManager} {s : Statistics}
    (h : m.showStatistics = some s) :
    m.expenses ≠ [] ∧
    s.totalExpenses = (ExpenseManager.sumLoop m.expenses).1 ∧
    s.size = m.expenses.length ∧
    s.expensesByCategory = (ExpenseManager.sumLoop m.expenses).2.1 ∧
    s.countByCategory = (ExpenseManager.sumLoop m.expenses).2.2 ∧
    s.maxSpendingCategory
      = (ExpenseManager.maxLoop (ExpenseManager.sumLoop m.expenses).2.1).1 ∧
    s.maxSpend = (ExpenseManager.maxLoop (ExpenseManager.sumLoop m.expenses).2.1).2 ∧
    s.maxElement = maxElement (fun a b : Expense => a.amount.lt b.amount) m.expenses := by
  unfold ExpenseManager.showStatistics at h
  split_ifs at h with he
  have hs : _ = s := Option.some.inj h
  subst hs
  refine ⟨?_, rfl, rfl, rfl, rfl, rfl, rfl, rfl⟩
  intro hnil
  rw [hnil] at he
  exact he rfl

/-! ### The two maximum loops -/

theorem mem_of_eq_append_cons {α : Type} {r : α} {l pre post : List α}
    (h : l = pre ++ r :: post) : r ∈ l := by
  rw [h]; simp

theorem foldl_max_spec {α : Type} (comp : α → α → Bool) (l : List α) :
    ∀ x : α, StrictWeakOn comp (x :: l) →
      (l.foldl (fun result next => if comp result next then next else result) x = x ∧
        ∀ y ∈ l, comp x y = false) ∨
      (∃ pre post,
        l = pre ++ l.foldl (fun result next => if comp result next then next else result) x
          :: post ∧
        comp x (l.foldl (fun result next => if comp result next then next else result) x) = true ∧
        (∀ y ∈ pre,
          comp y (l.foldl (fun result next => if comp result next then next else result) x)
            = true) ∧
        (∀ y ∈ post,
          comp (l.foldl (fun result next => if comp result next then next else result) x) y
            = false)) := by
  induction l with
  | nil =>
    intro x _
    exact Or.inl ⟨rfl, by simp⟩
  | cons y ys ih =>
    intro x hsw
    rw [List.foldl_cons]
    cases hxy : comp x y with
    | true =>
      simp only [if_true]
      have hsw' : StrictWeakOn comp (y :: ys) :=
        hsw.mono (fun a ha => List.mem_cons_of_mem _ ha)
      rcases ih y hsw' with ⟨hr, hall⟩ | ⟨pre, post, hl, hyr, hpre, hpost⟩
      · right
        refine ⟨[], ys, by rw [hr]; rfl, by rw [hr]; exact hxy, by simp, ?_⟩
        rw [hr]; exact hall
      · right
        refine ⟨y :: pre, post, by rw [List.cons_append, ← hl], ?_, ?_, hpost⟩
        · have hrmem : ys.foldl (fun result next => if comp result next then next else result) y
              ∈ x :: y :: ys :=
            List.mem_cons_of_mem _ (List.mem_cons_of_mem _ (mem_of_eq_append_cons hl))
          exact hsw.trans x (List.mem_cons_self _ _) y (by simp) _ hrmem hxy hyr
        · intro z hz
          rcases List.mem_cons.mp hz with rfl | hz
          · exact hyr
          · exact hpre z hz
    | false =>
      simp only [Bool.false_eq_true, if_false]
      have hsw' : StrictWeakOn comp (x :: ys) :=
        hsw.mono (fun a ha => by
          rcases List.mem_cons.mp ha with rfl | ha
          · exact List.mem_cons_self _ _
          · exact List.mem_cons_of_mem _ (List.mem_cons_of_mem _ ha))
      rcases ih x hsw' with ⟨hr, hall⟩ | ⟨pre, post, hl, hxr, hpre, hpost⟩
      · left
        refine ⟨hr, ?_⟩
        intro z hz
        rcases List.mem_cons.mp hz with rfl | hz
        · exact hxy
        · exact hall z hz
      · right
        refine ⟨y :: pre, post, by rw [List.cons_append, ← hl], hxr, ?_, hpost⟩
        intro z hz
        rcases List.mem_cons.mp hz with rfl | hz
        · by_contra hzr
          have hzr' : comp z (ys.foldl
              (fun result next => if comp result next then next else result) x) = false := by
            simpa using hzr
          have hrmem : ys.foldl (fun result next => if comp result next then next else result) x
              ∈ x :: z :: ys :=
            List.mem_cons_of_mem _ (List.mem_cons_of_mem _ (mem_of_eq_append_cons hl))
          have := hsw.negTrans (List.mem_cons_self _ _) (by simp) hrmem hxy hzr'
          rw [hxr] at this
          exact Bool.noConfusion this
        · exact hpre z hz

theorem Double.le_iff_rank (a b : Double) (ha : a.isNaN = false) (hb : b.isNaN = false) :
    a.le b = true ↔ toLex a.rank ≤ toLex b.rank := by
  unfold Double.le
  rw [ha, hb]
  simp only [Bool.not_false, Bool.true_and, Bool.not_eq_true']
  rw [← not_lt, ← Double.lt_iff_rank b a hb ha]
  simp

theorem Double.le_of_not_lt {a b : Double} (ha : a.isNaN = false) (hb : b.isNaN = false)
    (h : b.lt a = false) : a.le b = true := by
  simp [Double.le, ha, hb, h]

theorem Double.le_of_lt {a b : Double} (ha : a.isNaN = false) (hb : b.isNaN = false)
    (h : a.lt b = true) : a.le b = true := by
  rw [Double.le_iff_rank a b ha hb]
  exact ((Double.lt_iff_rank a b ha hb).mp h).le

theorem maxElement_spec (l : List Expense) (hne : l ≠ [])
    (hnan : ∀ e ∈ l, e.amount.isNaN = false) :
    ∃ r pre post, maxElement (fun a b : Expense => a.amount.lt b.amount) l = some r ∧
      l = pre ++ r :: post ∧
      (∀ e ∈ l, e.amount.le r.amount = true) ∧
      (∀ e ∈ pre, e.amount.lt r.amount = true) := by
  cases l with
  | nil => exact absurd rfl hne
  | cons x xs =>
    have hsw := amount_strictWeakOn (x :: xs) hnan
    rcases foldl_max_spec (fun a b : Expense => a.amount.lt b.amount) xs x hsw with
      ⟨hr, hall⟩ | ⟨pre, post, hl, hxr, hpre, hpost⟩
    · refine ⟨x, [], xs, by simp [maxElement, hr], rfl, ?_, by simp⟩
      intro e he
      rcases List.mem_cons.mp he with rfl | he
      · exact Double.le_of_not_lt (hnan _ (List.mem_cons_self _ _))
          (hnan _ (List.mem_cons_self _ _)) (Double.lt_irrefl _)
      · exact Double.le_of_not_lt (hnan e (List.mem_cons_of_mem _ he))
          (hnan _ (List.mem_cons_self _ _)) (hall e he)
    · generalize hrdef : xs.foldl
        (fun result next => if (fun a b : Expense => a.amount.lt b.amount) result next
          then next else result) x = r at hl hxr hpre hpost
      have hrm : r ∈ x :: xs := List.mem_cons_of_mem _ (mem_of_eq_append_cons hl)
      refine ⟨r, x :: pre, post, by simp [maxElement]; exact hrdef, by rw [hl]; rfl, ?_, ?_⟩
      · intro e he
        rw [hl] at he
        rcases List.mem_cons.mp he with rfl | he
        · exact Double.le_of_lt (hnan _ (List.mem_cons_self _ _)) (hnan _ hrm) hxr
        · rcases List.mem_append.mp he with he | he
          · exact Double.le_of_lt (hnan _ (by rw [hl]; simp [he])) (hnan _ hrm) (hpre e he)
          · rcases List.mem_cons.mp he with rfl | he
            · exact Double.le_of_not_lt (hnan _ hrm) (hnan _ hrm) (Double.lt_irrefl _)
            · exact Double.le_of_not_lt (hnan _ (by rw [hl]; simp [he])) (hnan _ hrm)
                (hpost e he)
      · intro e he
        rcases List.mem_cons.mp he with rfl | he
        · exact hxr
        · exact hpre e he

/-! ### Claims on the statistics -/

theorem maxLoop_spec (l : List Expense) (hnn : ∀ e ∈ l, Double.zero.le e.amount = true) :
    ((ExpenseManager.maxLoop (ExpenseManager.sumLoop l).2.1 = (Category.INVALID, Double.zero)) ∧
      ∀ e ∈ l, Double.zero.lt (categorySum e.category l) = false) ∨
    (∃ pre post,
      (ExpenseManager.sumLoop l).2.1
        = pre ++ ExpenseManager.maxLoop (ExpenseManager.sumLoop l).2.1 :: post ∧
      Double.zero.lt (ExpenseManager.maxLoop (ExpenseManager.sumLoop l).2.1).2 = true ∧
      (∀ p ∈ pre,
        p.2.lt (ExpenseManager.maxLoop (ExpenseManager.sumLoop l).2.1).2 = true) ∧
      (∀ p ∈ post,
        (ExpenseManager.maxLoop (ExpenseManager.sumLoop l).2.1).2.lt p.2 = false)) := by
  obtain ⟨hs, hm⟩ := ExpenseManager.sumLoop_sums l
  have hval : ∀ p ∈ (ExpenseManager.sumLoop l).2.1, p.2.isNaN = false := by
    intro p hp
    have := ((hm p.1 p.2).mp hp).2
    rw [this]
    exact Double.isNaN_of_zero_le (categorySum_nonneg _ _ hnn)
  have hsw : StrictWeakOn (fun a b : Category × Double => a.2.lt b.2)
      ((Category.INVALID, Double.zero) :: (ExpenseManager.sumLoop l).2.1) := by
    have hall : ∀ p ∈ (Category.INVALID, Double.zero) :: (ExpenseManager.sumLoop l).2.1,
        p.2.isNaN = false := by
      intro p hp
      rcases List.mem_cons.mp hp with rfl | hp
      · rfl
      · exact hval p hp
    exact StrictWeakOn.of_key (fun p : Category × Double => toLex p.2.rank) _ _
      (fun a ha b hb => Double.lt_iff_rank a.2 b.2 (hall a ha) (hall b hb))
  have hloop : ExpenseManager.maxLoop (ExpenseManager.sumLoop l).2.1
      = (ExpenseManager.sumLoop l).2.1.foldl
          (fun result next =>
            if (fun a b : Category × Double => a.2.lt b.2) result next then next else result)
          (Category.INVALID, Double.zero) := rfl
  rcases foldl_max_spec (fun a b : Category × Double => a.2.lt b.2)
      (ExpenseManager.sumLoop l).2.1 (Category.INVALID, Double.zero) hsw with
    ⟨hr, hall⟩ | ⟨pre, post, hl, hxr, hpre, hpost⟩
  · left
    refine ⟨by rw [hloop]; exact hr, ?_⟩
    intro e he
    exact hall (e.category, categorySum e.category l) ((hm _ _).mpr ⟨⟨e, he, rfl⟩, rfl⟩)
  · right
    rw [← hloop] at hl hxr hpre hpost
    exact ⟨pre, post, hl, hxr, hpre, hpost⟩

/-- C18 (as amended): `showStatistics` on a non-empty ledger none of whose amounts
is a NaN reports as the highest single expense a record of the ledger whose
amount is `>=` the amount of every record, and every record before it in the
current order has a strictly smaller amount, so that it is the first record with
that amount. -/
theorem max_single_expense (m : ExpenseManager) (s : Statistics)
    (h : m.showStatistics = some s)
    (hnan : ∀ e ∈ m.expenses, e.amount.isNaN = false) :
    ∃ r pre post, s.maxElement = some r ∧ m.expenses = pre ++ r :: post ∧
      (∀ e ∈ m.expenses, e.amount.le r.amount = true) ∧
      (∀ e ∈ pre, e.amount.lt r.amount = true) := by
  obtain ⟨hne, -, -, -, -, -, -, hmax⟩ := showStatistics_some h
  obtain ⟨r, pre, post, hr, hl, hle, hlt⟩ := maxElement_spec m.expenses hne hnan
  exact ⟨r, pre, post, by rw [hmax, hr], hl, hle, hlt⟩

/-- Witness of C18: in the ledger with the amounts 5, 12.5 and 12.5, the reported
record is the first of the two records of 12.5. -/
theorem max_single_expense_witness :
    ∃ r pre post,
      (some ⟨2, Double.mk false 25 (-1), Category.FOOD, ⟨2024, 3, 15⟩, "lunch".toList⟩
        : Option Expense) = some r ∧
      ([⟨1, Double.ofNat 5, Category.TRANSPORTATION, ⟨2024, 3, 10⟩, []⟩,
        ⟨2, Double.mk false 25 (-1), Category.FOOD, ⟨2024, 3, 15⟩, "lunch".toList⟩,
        ⟨3, Double.mk false 25 (-1), Category.OTHER, ⟨2024, 3, 16⟩, []⟩] : List Expense)
        = pre ++ r :: post ∧
      (∀ e ∈ ([⟨1, Double.ofNat 5, Category.TRANSPORTATION, ⟨2024, 3, 10⟩, []⟩,
        ⟨2, Double.mk false 25 (-1), Category.FOOD, ⟨2024, 3, 15⟩, "lunch".toList⟩,
        ⟨3, Double.mk false 25 (-1), Category.OTHER, ⟨2024, 3, 16⟩, []⟩] : List Expense),
        e.amount.le r.amount = true) ∧
      (∀ e ∈ pre, e.amount.lt r.amount = true) :=
  max_single_expense
    ⟨[⟨1, Double.ofNat 5, Category.TRANSPORTATION, ⟨2024, 3, 10⟩, []⟩,
      ⟨2, Double.mk false 25 (-1), Category.FOOD, ⟨2024, 3, 15⟩, "lunch".toList⟩,
      ⟨3, Double.mk false 25 (-1), Category.OTHER, ⟨2024, 3, 16⟩, []⟩], 4⟩
    { totalExpenses := Double.ofNat 30
      size := 3
      expensesByCategory :=
        [(Category.TRANSPORTATION, Double.ofNat 5), (Category.FOOD, Double.mk false 25 (-1)),
         (Category.OTHER, Double.mk false 25 (-1))]
      countByCategory := [(Category.TRANSPORTATION, 1), (Category.FOOD, 1), (Category.OTHER, 1)]
      maxSpendingCategory := Category.FOOD
      maxSpend := Double.mk false 25 (-1)
      maxElement :=
        some ⟨2, Double.mk false 25 (-1), Category.FOOD, ⟨2024, 3, 15⟩, "lunch".toList⟩ }
    (by decide) (by decide)

/-- Counterexample to C18 as stated: a data file whose first record has the
amount `nan` loads into a ledger of two records; `showStatistics` reports the
first record as the highest single expense, and its amount is not `>=` the amount
`1` of the second record, since no comparison with a NaN holds. -/
theorem max_single_expense_with_nan :
    ExpenseManager.new
        (some "3\n1\nnan\n3\n2024\n3\n15\na\n2\n1\n3\n2024\n3\n16\nb\n".toList)
      = .ok ⟨[⟨1, .nan false, Category.FOOD, ⟨2024, 3, 15⟩, "a".toList⟩,
              ⟨2, Double.ofNat 1, Category.FOOD, ⟨2024, 3, 16⟩, "b".toList⟩], 3⟩ ∧
    (ExpenseManager.showStatistics
        ⟨[⟨1, .nan false, Category.FOOD, ⟨2024, 3, 15⟩, "a".toList⟩,
          ⟨2, Double.ofNat 1, Category.FOOD, ⟨2024, 3, 16⟩, "b".toList⟩], 3⟩).map
        (fun s => s.maxElement)
      = some (some ⟨1, .nan false, Category.FOOD, ⟨2024, 3, 15⟩, "a".toList⟩) ∧
    ¬ ∀ e ∈ ([⟨1, .nan false, Category.FOOD, ⟨2024, 3, 15⟩, "a".toList⟩,
          ⟨2, Double.ofNat 1, Category.FOOD, ⟨2024, 3, 16⟩, "b".toList⟩] : List Expense),
        e.amount.le (Double.nan false) = true := by
  refine ⟨by decide, by decide, by decide⟩

/-- C17 (as amended): for every non-empty ledger whose amounts are all `>= 0`,
with the sum of a category taken as `showStatistics` accumulates it: when no
category has a sum above `0`, `maxSpendingCategory` stays `INVALID` and no
category is reported; when some category has a sum above `0`,
`maxSpendingCategory` is the category of a record, `maxSpend` is its sum, that
sum is `>=` the sum of every category of the ledger, every category whose sum
reaches it comes no earlier in the enumeration order, and, if no record has the
category `INVALID`, it is the reported category. -/
theorem max_category (m : ExpenseManager) (s : Statistics)
    (h : m.showStatistics = some s)
    (hnn : ∀ e ∈ m.expenses, Double.zero.le e.amount = true) :
    ((∀ e ∈ m.expenses, Double.zero.lt (categorySum e.category m.expenses) = false) →
      s.maxSpendingCategory = Category.INVALID ∧ s.reportedMaxCategory = none) ∧
    ((∃ e ∈ m.expenses, Double.zero.lt (categorySum e.category m.expenses) = true) →
      (∃ e ∈ m.expenses, e.category = s.maxSpendingCategory) ∧
      s.maxSpend = categorySum s.maxSpendingCategory m.expenses ∧
      (∀ e ∈ m.expenses,
        (categorySum e.category m.expenses).le
          (categorySum s.maxSpendingCategory m.expenses) = true) ∧
      (∀ e ∈ m.expenses,
        (categorySum s.maxSpendingCategory m.expenses).le
          (categorySum e.category m.expenses) = true →
        s.maxSpendingCategory.val ≤ e.category.val) ∧
      ((∀ e ∈ m.expenses, e.category ≠ Category.INVALID) →
        s.reportedMaxCategory = some s.maxSpendingCategory)) := by
  obtain ⟨-, -, -, -, -, hcat, hspend, -⟩ := showStatistics_some h
  obtain ⟨hs, hm⟩ := ExpenseManager.sumLoop_sums m.expenses
  have hnnan : ∀ c, (categorySum c m.expenses).isNaN = false :=
    fun c => Double.isNaN_of_zero_le (categorySum_nonneg c _ hnn)
  rcases maxLoop_spec m.expenses hnn with ⟨hr, hall⟩ | ⟨pre, post, hl, hxr, hpre, hpost⟩
  · constructor
    · intro _
      have hc : s.maxSpendingCategory = Category.INVALID := by rw [hcat, hr]
      exact ⟨hc, by simp [Statistics.reportedMaxCategory, hc]⟩
    · rintro ⟨e, he, hpos⟩
      rw [hall e he] at hpos
      exact Bool.noConfusion hpos
  · generalize hrdef : ExpenseManager.maxLoop (ExpenseManager.sumLoop m.expenses).2.1 = r
      at hl hxr hpre hpost hcat hspend
    have hrmem : (r.1, r.2) ∈ (ExpenseManager.sumLoop m.expenses).2.1 :=
      mem_of_eq_append_cons hl
    obtain ⟨hocc, hrsum⟩ := (hm r.1 r.2).mp hrmem
    constructor
    · intro hA
      obtain ⟨e, he, hce⟩ := hocc
      have := hA e he
      rw [hce, ← hrsum, hxr] at this
      exact Bool.noConfusion this
    · intro _
      rw [hcat, hspend]
      refine ⟨hocc, hrsum, ?_, ?_, ?_⟩
      · intro e he
        have hp : (e.category, categorySum e.category m.expenses)
            ∈ (ExpenseManager.sumLoop m.expenses).2.1 := (hm _ _).mpr ⟨⟨e, he, rfl⟩, rfl⟩
        rw [hl] at hp
        rw [← hrsum]
        have hrn : r.2.isNaN = false := by rw [hrsum]; exact hnnan _
        rcases List.mem_append.mp hp with hp | hp
        · exact Double.le_of_lt (hnnan _) hrn (hpre _ hp)
        · rcases List.mem_cons.mp hp with hp | hp
          · have : categorySum e.category m.expenses = r.2 := congrArg Prod.snd hp
            rw [this]
            exact Double.le_of_not_lt hrn hrn (Double.lt_irrefl _)
          · exact Double.le_of_not_lt (hnnan _) hrn (hpost _ hp)
      · intro e he hle
        have hp : (e.category, categorySum e.category m.expenses)
            ∈ (ExpenseManager.sumLoop m.expenses).2.1 := (hm _ _).mpr ⟨⟨e, he, rfl⟩, rfl⟩
        have hs2 := hs
        rw [hl] at hp hs2
        rw [← hrsum] at hle
        rcases List.mem_append.mp hp with hp | hp
        · have h1 := hpre _ hp
          simp only [Double.le, Bool.and_eq_true, Bool.not_eq_true'] at hle
          have h2 : (categorySum e.category m.expenses).lt r.2 = false := hle.2
          rw [h2] at h1
          exact Bool.noConfusion h1
        · rcases List.mem_cons.mp hp with hp | hp
          · have : e.category = r.1 := congrArg Prod.fst hp
            rw [this]
          · have := (List.pairwise_cons.mp (List.pairwise_append.mp hs2).2.1).1 _ hp
            exact le_of_lt this
      · intro hreal
        obtain ⟨e, he, hce⟩ := hocc
        have hne : r.1 ≠ Category.INVALID := by
          rw [← hce]; exact hreal e he
        simp [Statistics.reportedMaxCategory, hcat, hne]

/-- Witness of C17: in the ledger of 12.50 (Food) and 5.00 (Transportation), all
amounts are `>= 0` and the reported category is Food. -/
theorem max_category_witness :
    (∀ e ∈ ([⟨1, .finite false 25 (-1), Category.FOOD, ⟨2024, 3, 15⟩, "lunch".toList⟩,
        ⟨2, .finite false 5 0, Category.TRANSPORTATION, ⟨2024, 3, 16⟩, []⟩] : List Expense),
      Double.zero.le e.amount = true) ∧
    Statistics.reportedMaxCategory
      { totalExpenses := .finite false 35 (-1)
        size := 2
        expensesByCategory :=
          [(Category.TRANSPORTATION, .finite false 5 0), (Category.FOOD, .finite false 25 (-1))]
        countByCategory := [(Category.TRANSPORTATION, 1), (Category.FOOD, 1)]
        maxSpendingCategory := Category.FOOD
        maxSpend := .finite false 25 (-1)
        maxElement :=
          some ⟨1, .finite false 25 (-1), Category.FOOD, ⟨2024, 3, 15⟩, "lunch".toList⟩ }
      = some Category.FOOD :=
  ⟨by decide,
   ((max_category
      ⟨[⟨1, .finite false 25 (-1), Category.FOOD, ⟨2024, 3, 15⟩, "lunch".toList⟩,
        ⟨2, .finite false 5 0, Category.TRANSPORTATION, ⟨2024, 3, 16⟩, []⟩], 3⟩
      { totalExpenses := .finite false 35 (-1)
        size := 2
        expensesByCategory :=
          [(Category.TRANSPORTATION, .finite false 5 0), (Category.FOOD, .finite false 25 (-1))]
        countByCategory := [(Category.TRANSPORTATION, 1), (Category.FOOD, 1)]
        maxSpendingCategory := Category.FOOD
        maxSpend := .finite false 25 (-1)
        maxElement :=
          some ⟨1, .finite false 25 (-1), Category.FOOD, ⟨2024, 3, 15⟩, "lunch".toList⟩ }
      (by decide) (by decide)).2
      ⟨⟨1, .finite false 25 (-1), Category.FOOD, ⟨2024, 3, 15⟩, "lunch".toList⟩,
        by decide, by decide⟩).2.2.2.2 (by decide)⟩

/-- Counterexample to C17 as stated: after one record of amount `0` is added to
the empty ledger, the ledger is not empty and its only amount is `>= 0`, yet
`maxSpendingCategory` is `INVALID` and no category is reported. -/
theorem max_category_zero_amount_reports_none :
    (ExpenseManager.addExpense ⟨[], 1⟩ Double.zero Category.FOOD ⟨2024, 3, 15⟩
        "a".toList).expenses
      = [⟨1, Double.zero, Category.FOOD, ⟨2024, 3, 15⟩, "a".toList⟩] ∧
    Double.zero.le Double.zero = true ∧
    (ExpenseManager.showStatistics
        (ExpenseManager.addExpense ⟨[], 1⟩ Double.zero Category.FOOD ⟨2024, 3, 15⟩
          "a".toList)).map
        (fun s => (s.expensesByCategory, s.maxSpendingCategory, s.reportedMaxCategory))
      = some ([(Category.FOOD, Double.zero)], Category.INVALID, none) := by
  refine ⟨by decide, by decide, by decide⟩

/-- C16 (as amended): for every non-empty ledger of at most `INT_MAX` records,
the per-category counts of `showStatistics` add up to the reported record count,
which is the number of records; the total is the floating-point sum of the
amounts in record order; the per-category sums are, for exactly the categories
of the records, the floating-point sums of their amounts in record order; and
when no addition of these running sums rounds or overflows, the per-category
sums add up exactly to the total, which is then the exact sum of the amounts. -/
theorem statistics_consistency (m : ExpenseManager) (s : Statistics)
    (h : m.showStatistics = some s)
    (hlen : (m.expenses.length : Int) ≤ INT_MAX) :
    (s.countByCategory.map (fun p => p.2)).sum = (s.size : Int) ∧
    s.size = m.expenses.length ∧
    s.totalExpenses = (m.expenses.map (fun e => e.amount)).foldl Double.add Double.zero ∧
    (∀ c v, (c, v) ∈ s.expensesByCategory ↔
      (∃ e ∈ m.expenses, e.category = c) ∧ v = categorySum c m.expenses) ∧
    (ExactFrom Double.zero (m.expenses.map (fun e => e.amount)) →
      (∀ c, ExactFrom Double.zero (categoryAmounts c m.expenses)) →
      (s.expensesByCategory.map (fun p => p.2.toRat)).sum = s.totalExpenses.toRat ∧
      s.totalExpenses.toRat = (m.expenses.map (fun e => e.amount.toRat)).sum) := by
  obtain ⟨-, htot, hsize, hsums, hcounts, -, -, -⟩ := showStatistics_some h
  obtain ⟨-, -, hcsum⟩ := ExpenseManager.sumLoop_counts m.expenses hlen
  refine ⟨by rw [hcounts, hcsum, hsize], hsize, by rw [htot, ExpenseManager.sumLoop_total],
    ?_, ?_⟩
  · rw [hsums]
    exact (ExpenseManager.sumLoop_sums m.expenses).2
  · intro he hc
    obtain ⟨h1, h2⟩ := ExpenseManager.sumLoop_exact m.expenses he hc
    rw [hsums, htot]
    exact ⟨by rw [h1, h2], h2⟩

/-- Witness of C16: the ledger of 12.50 (Food) and 5.00 (Transportation) has the
counts 1 and 1 adding up to 2, the total 17.5, and, no addition rounding, the
per-category sums add up to 17.5 exactly. -/
theorem statistics_consistency_witness :
    (([(Category.TRANSPORTATION, 1), (Category.FOOD, 1)] : List (Category × Int)).map
      (fun p => p.2)).sum = 2 ∧
    (Double.finite false 35 (-1)
      = (([⟨1, .finite false 25 (-1), Category.FOOD, ⟨2024, 3, 15⟩, "lunch".toList⟩,
          ⟨2, .finite false 5 0, Category.TRANSPORTATION, ⟨2024, 3, 16⟩, []⟩]
          : List Expense).map (fun e => e.amount)).foldl Double.add Double.zero) ∧
    (([(Category.TRANSPORTATION, .finite false 5 0), (Category.FOOD, .finite false 25 (-1))]
      : List (Category × Double)).map (fun p => p.2.toRat)).sum
      = (Double.finite false 35 (-1)).toRat ∧
    (Double.finite false 35 (-1)).toRat = 35 / 2 := by
  have H := statistics_consistency
    ⟨[⟨1, .finite false 25 (-1), Category.FOOD, ⟨2024, 3, 15⟩, "lunch".toList⟩,
      ⟨2, .finite false 5 0, Category.TRANSPORTATION, ⟨2024, 3, 16⟩, []⟩], 3⟩
    { totalExpenses := .finite false 35 (-1)
      size := 2
      expensesByCategory :=
        [(Category.TRANSPORTATION, .finite false 5 0), (Category.FOOD, .finite false 25 (-1))]
      countByCategory := [(Category.TRANSPORTATION, 1), (Category.FOOD, 1)]
      maxSpendingCategory := Category.FOOD
      maxSpend := .finite false 25 (-1)
      maxElement :=
        some ⟨1, .finite false 25 (-1), Category.FOOD, ⟨2024, 3, 15⟩, "lunch".toList⟩ }
    (by decide) (by decide)
  have e1 : Double.zero.add (.finite false 25 (-1)) = .finite false 25 (-1) := by decide
  have e2 : (Double.finite false 25 (-1)).add (.finite false 5 0) = .finite false 35 (-1) := by
    decide
  have e3 : Double.zero.add (.finite false 5 0) = .finite false 5 0 := by decide
  have r1 : (Double.finite false 25 (-1)).toRat = 25 / 2 := by
    norm_num [Double.toRat, Double.rank, Double.signed]
  have r2 : (Double.finite false 5 0).toRat = 5 := by
    norm_num [Double.toRat, Double.rank, Double.signed]
  have r3 : (Double.finite false 35 (-1)).toRat = 35 / 2 := by
    norm_num [Double.toRat, Double.rank, Double.signed]
  have hx : ExactFrom Double.zero
      (([⟨1, .finite false 25 (-1), Category.FOOD, ⟨2024, 3, 15⟩, "lunch".toList⟩,
        ⟨2, .finite false 5 0, Category.TRANSPORTATION, ⟨2024, 3, 16⟩, []⟩]
        : List Expense).map (fun e => e.amount)) := by
    show ExactFrom Double.zero [.finite false 25 (-1), .finite false 5 0]
    simp only [ExactFrom, e1, e2, r1, r2, r3, Double.toRat_zero]
    refine ⟨by decide, by norm_num, by decide, by norm_num, trivial⟩
  have hc : ∀ c, ExactFrom Double.zero (categoryAmounts c
      [⟨1, .finite false 25 (-1), Category.FOOD, ⟨2024, 3, 15⟩, "lunch".toList⟩,
        ⟨2, .finite false 5 0, Category.TRANSPORTATION, ⟨2024, 3, 16⟩, []⟩]) := by
    intro c
    by_cases h1 : Category.FOOD = c
    · subst h1
      show ExactFrom Double.zero [.finite false 25 (-1)]
      simp only [ExactFrom, e1, r1, Double.toRat_zero]
      refine ⟨by decide, by norm_num, trivial⟩
    · by_cases h2 : Category.TRANSPORTATION = c
      · subst h2
        show ExactFrom Double.zero [.finite false 5 0]
        simp only [ExactFrom, e3, r2, Double.toRat_zero]
        refine ⟨by decide, by norm_num, trivial⟩
      · have : categoryAmounts c
            [⟨1, .finite false 25 (-1), Category.FOOD, ⟨2024, 3, 15⟩, "lunch".toList⟩,
              ⟨2, .finite false 5 0, Category.TRANSPORTATION, ⟨2024, 3, 16⟩, []⟩] = [] := by
          simp [categoryAmounts, h1, h2]
        rw [this]
        trivial
  exact ⟨H.1, H.2.2.1, (H.2.2.2.2 hx hc).1, r3⟩

/-- Counterexample to C16 as stated: the data file with the amounts 0.1 (Food),
0.2 and 0.3 (Other) loads into a ledger of three records for which
`showStatistics` computes the total `0.6000000000000001` and the per-category
sums `0.1` and `0.5`; these two do not add up to the total, neither in
floating-point arithmetic nor exactly, and the total is not the exact sum of the
three amounts. -/
theorem statistics_category_sums_differ_from_total :
    ExpenseManager.new
        (some ("4\n1\n0.1\n3\n2024\n3\n15\na\n2\n0.2\n4\n2024\n3\n15\nb\n"
          ++ "3\n0.3\n4\n2024\n3\n15\nc\n").toList)
      = .ok ⟨[⟨1, .finite false 3602879701896397 (-55), Category.FOOD, ⟨2024, 3, 15⟩,
                "a".toList⟩,
              ⟨2, .finite false 3602879701896397 (-54), Category.OTHER, ⟨2024, 3, 15⟩,
                "b".toList⟩,
              ⟨3, .finite false 5404319552844595 (-54), Category.OTHER, ⟨2024, 3, 15⟩,
                "c".toList⟩], 4⟩ ∧
    (ExpenseManager.showStatistics
        ⟨[⟨1, .finite false 3602879701896397 (-55), Category.FOOD, ⟨2024, 3, 15⟩,
            "a".toList⟩,
          ⟨2, .finite false 3602879701896397 (-54), Category.OTHER, ⟨2024, 3, 15⟩,
            "b".toList⟩,
          ⟨3, .finite false 5404319552844595 (-54), Category.OTHER, ⟨2024, 3, 15⟩,
            "c".toList⟩], 4⟩).map
        (fun s => (s.totalExpenses, s.expensesByCategory))
      = some (.finite false 1351079888211149 (-51),
          [(Category.FOOD, .finite false 3602879701896397 (-55)),
           (Category.OTHER, .finite false 1 (-1))]) ∧
    (Double.finite false 3602879701896397 (-55)).add (.finite false 1 (-1))
      ≠ .finite false 1351079888211149 (-51) ∧
    (Double.finite false 3602879701896397 (-55)).toRat + (Double.finite false 1 (-1)).toRat
      ≠ (Double.finite false 1351079888211149 (-51)).toRat ∧
    (Double.finite false 1351079888211149 (-51)).toRat
      ≠ (Double.finite false 3602879701896397 (-55)).toRat
        + (Double.finite false 3602879701896397 (-54)).toRat
        + (Double.finite false 5404319552844595 (-54)).toRat := by
  refine ⟨by decide, by decide, by decide, ?_, ?_⟩
  · norm_num [Double.toRat, Double.rank, Double.signed]
  · norm_num [Double.toRat, Double.rank, Double.signed]

end ExpenseTracker
